import Mathlib

/-!
# psql-manager: seeder runner, nested-set builder, sequence cache and bulk load

A shallow embedding of `seed/runner.go`, `seed/repository.go`, `db/nested_set.go`
and `db/sequence.go`, with the properties of their control flow, of the interval
numbering, of the cached sequence and of the rows of the bulk load.

Conventions of the embedding
* A Go `error` is an `Option Error`; `none` is `nil`.
* A Go `string` used as a seeder name is the list of its bytes (`Name`), compared
  byte-wise lexicographically as Go's `<` on strings does.
* The database connection and the seeders are effectful: every call takes the
  current world `W` and returns the next one with its result.  `Run` also records
  every call it makes as an `Event`, in call order, with the value the call returned.
* Time stamps and log output are not part of the embedding.  A panicking or
  non-returning seeder is outside the embedding as well: every call returns.
* A nil `*Repository` stands for the package-level repository; the runner of the
  embedding holds the slice of seeders it runs on, whichever repository that is.
-/

namespace PsqlSeed

/-! ## Data model of `seed/runner.go` -/

/-- Bytes of a Go string. -/
abbrev Name := List Nat

/-- Bytes of an ASCII string literal, used to write seeder names. -/
def nm (s : String) : Name := s.toList.map Char.toNat

/-- The constants `RUNNING`, `OK`, `FAIL`, `TXERR` of `SeederStatus`. -/
inductive SeederStatus where
  | RUNNING
  | OK
  | FAIL
  | TXERR
  deriving DecidableEq, Repr

/-- Error values. `raw` is an error produced outside the runner (by a seeder
or by the database driver); the other constructors are the `fmt.Errorf` calls of
`runSeeder` and `Run`, keeping their arguments. -/
inductive Error where
  | raw (msg : String)
  | beginTxFailed (txerr : Error)
  | rollbackFailed (txerr : Error) (seederErr : Error)
  | commitFailed (txerr : Error)
  | seederRun (seeder : Name) (err : Error)
  deriving DecidableEq, Repr

/-- The `Seeder` interface: `Name`, `Prepare` and `RunSeederTx` (`Id` is not used
by the runner). -/
structure Seeder (W : Type) where
  Name : Name
  Prepare : Nat → W → W
  RunSeederTx : Nat → W → W × Option Error

/-- The transaction primitives the runner uses: `conn.BeginTx`, `tx.Commit`,
`tx.Rollback`. -/
structure Conn (W : Type) where
  BeginTx : W → W × Option Error
  Commit : W → W × Option Error
  Rollback : W → W × Option Error

/-- One call made by the runner, with the unit it was made for and, for the
fallible calls, the error it returned. -/
inductive Event where
  | Prepare (seeder : Name)
  | BeginTx (seeder : Name) (res : Option Error)
  | RunSeederTx (seeder : Name) (res : Option Error)
  | Rollback (seeder : Name) (res : Option Error)
  | Commit (seeder : Name) (res : Option Error)
  deriving DecidableEq, Repr

/-- The struct `RunReport` without its time stamps. -/
structure RunReport (W : Type) where
  Seeder : Seeder W
  Seed : Nat
  Status : SeederStatus
  Err : Option Error

/-- The struct `Runner`; `Repository` is the slice `Repository.seeders`. -/
structure Runner (W : Type) where
  Repository : List (Seeder W)
  Seed : Nat
  RunReports : List (RunReport W)
  LogLevel : Int
  BailOnError : Bool

/-- What a call of `runSeeder` or `Run` leaves behind: the runner, the world,
the calls made, and the returned error. -/
structure Result (W : Type) where
  runner : Runner W
  world : W
  trace : List Event
  err : Option Error

/-- Go's `sort.Slice` called with `less(i, j) = s[i].Name() < s[j].Name()`: the
library promises a permutation of the slice in which no later element is less than
an earlier one, and does not promise stability. -/
structure SortSlice (W : Type) where
  sort : List (Seeder W) → List (Seeder W)
  perm : ∀ l, List.Perm (sort l) l
  sorted : ∀ l, List.Pairwise (fun a b => ¬ b.Name < a.Name) (sort l)

/-! ## `Runner.runSeeder` and `Runner.Run` -/

/-- The values `runSeeder` holds after the rollback or commit:
`report.Status`, `report.Err`, `txerr`, the world and the call made. -/
structure TxEnd (W : Type) where
  Status : SeederStatus
  Err : Option Error
  txerr : Option Error
  world : W
  trace : List Event

/-- The `if err != nil { ... } else { ... }` block of `runSeeder`. -/
def finishTx {W : Type} (conn : Conn W) (seeder : Seeder W) (err : Option Error) (w : W) :
    TxEnd W :=
  match err with
  | some e =>
    let rb := conn.Rollback w
    match rb.2 with
    | some txerr =>
      { Status := .TXERR, Err := some e, txerr := some (.rollbackFailed txerr e),
        world := rb.1, trace := [.Rollback seeder.Name (some txerr)] }
    | none =>
      { Status := .FAIL, Err := some e, txerr := none,
        world := rb.1, trace := [.Rollback seeder.Name none] }
  | none =>
    let c := conn.Commit w
    match c.2 with
    | some txerr =>
      { Status := .TXERR, Err := some txerr, txerr := some (.commitFailed txerr),
        world := c.1, trace := [.Commit seeder.Name (some txerr)] }
    | none =>
      { Status := .OK, Err := none, txerr := none,
        world := c.1, trace := [.Commit seeder.Name none] }

/-- The method `Runner.runSeeder`. The report is appended to `RunReports` by
reference before the transaction is begun, so the list holds its final value. -/
def runSeeder {W : Type} (conn : Conn W) (r : Runner W) (seeder : Seeder W) (w : W) :
    Result W :=
  let b := conn.BeginTx w
  match b.2 with
  | some txerr =>
    { runner := { r with RunReports := r.RunReports ++
        [{ Seeder := seeder, Seed := r.Seed, Status := .TXERR, Err := none }] },
      world := b.1,
      trace := [.BeginTx seeder.Name (some txerr)],
      err := some (.beginTxFailed txerr) }
  | none =>
    let s := seeder.RunSeederTx r.Seed b.1
    let err := s.2
    let f := finishTx conn seeder err s.1
    { runner := { r with RunReports := r.RunReports ++
        [{ Seeder := seeder, Seed := r.Seed, Status := f.Status, Err := f.Err }] },
      world := f.world,
      trace := [.BeginTx seeder.Name none, .RunSeederTx seeder.Name err] ++ f.trace,
      err := if r.BailOnError && f.Err.isSome then err else f.txerr }

/-- The first loop of `Run`: `Prepare` on every seeder. -/
def prepareAll {W : Type} (seed : Nat) : List (Seeder W) → W → W × List Event
  | [], w => (w, [])
  | s :: rest, w =>
    let p := prepareAll seed rest (s.Prepare seed w)
    (p.1, .Prepare s.Name :: p.2)

/-- The second loop of `Run`: `runSeeder` on every seeder, returning at the first
non-nil error. -/
def runAll {W : Type} (conn : Conn W) : List (Seeder W) → Runner W → W → Result W
  | [], r, w => { runner := r, world := w, trace := [], err := none }
  | s :: rest, r, w =>
    let o := runSeeder conn r s w
    match o.err with
    | some e => { o with err := some (.seederRun s.Name e) }
    | none =>
      let o2 := runAll conn rest o.runner o.world
      { o2 with trace := o.trace ++ o2.trace }

/-- The method `Repository.Seeders`: sorts the slice in place and returns it. -/
def Seeders {W : Type} (S : SortSlice W) (seeders : List (Seeder W)) : List (Seeder W) :=
  S.sort seeders

/-- The method `Runner.Run`. -/
def Run {W : Type} (S : SortSlice W) (conn : Conn W) (r : Runner W) (w : W) : Result W :=
  let seeders := Seeders S r.Repository
  let p := prepareAll r.Seed seeders w
  let o := runAll conn seeders { r with Repository := seeders } p.1
  { o with trace := p.2 ++ o.trace }

/-! ## Observations on results -/

/-- Name, status and recorded error of a report. -/
def RunReport.summary {W : Type} (rep : RunReport W) : Name × SeederStatus × Option Error :=
  (rep.Seeder.Name, rep.Status, rep.Err)

/-- Whether an event is a `Prepare` call. -/
def Event.isPrepare : Event → Bool
  | .Prepare _ => true
  | _ => false

/-- The units for which a transaction was begun, in call order. -/
def begun : List Event → List Name
  | [] => []
  | .BeginTx n _ :: es => n :: begun es
  | _ :: es => begun es

/-- The `RunSeederTx` calls with what each returned, in call order. -/
def executed : List Event → List (Name × Option Error)
  | [] => []
  | .RunSeederTx n res :: es => (n, res) :: executed es
  | _ :: es => executed es

/-- Insertion of a seeder before the first seeder with a greater name. -/
def insertByName {W : Type} (s : Seeder W) : List (Seeder W) → List (Seeder W)
  | [] => [s]
  | t :: rest => if s.Name < t.Name then s :: t :: rest else t :: insertByName s rest

/-- Insertion sort by name. -/
def sortByName {W : Type} : List (Seeder W) → List (Seeder W)
  | [] => []
  | s :: rest => insertByName s (sortByName rest)

/-- Insertion sort by name as an instance of the `sort.Slice` contract. -/
def byNameSort (W : Type) : SortSlice W where
  sort := sortByName
  perm := by
    have hins : ∀ (s : Seeder W) (l : List (Seeder W)), List.Perm (insertByName s l) (s :: l) := by
      intro s l
      induction l with
      | nil => exact List.Perm.refl _
      | cons t rest ih =>
        unfold insertByName
        split
        · exact List.Perm.refl _
        · exact (List.Perm.cons t ih).trans (List.Perm.swap s t rest)
    intro l
    induction l with
    | nil => exact List.Perm.refl _
    | cons s rest ih => exact (hins s (sortByName rest)).trans (List.Perm.cons s ih)
  sorted := by
    have hins : ∀ (s : Seeder W) (l : List (Seeder W)),
        List.Pairwise (fun a b => ¬ b.Name < a.Name) l →
        List.Pairwise (fun a b => ¬ b.Name < a.Name) (insertByName s l) := by
      intro s l
      induction l with
      | nil => intro _; simp [insertByName]
      | cons t rest ih =>
        intro hl
        have hmem : ∀ (x : Seeder W) (l2 : List (Seeder W)), x ∈ insertByName s l2 → x = s ∨ x ∈ l2 := by
          intro x l2
          induction l2 with
          | nil => intro hx; simpa [insertByName] using hx
          | cons u l3 ih3 =>
            intro hx
            unfold insertByName at hx
            split at hx
            · simpa using hx
            · rcases List.mem_cons.1 hx with h | h
              · exact Or.inr (h ▸ List.mem_cons_self _ _)
              · rcases ih3 h with h2 | h2
                · exact Or.inl h2
                · exact Or.inr (List.mem_cons_of_mem _ h2)
        rw [List.pairwise_cons] at hl
        unfold insertByName
        split
        · rename_i hlt
          refine List.pairwise_cons.2 ⟨?_, List.pairwise_cons.2 hl⟩
          intro x hx
          rcases List.mem_cons.1 hx with h | h
          · subst h; exact lt_asymm hlt
          · exact fun hxs => hl.1 x h (lt_trans hxs hlt)
        · rename_i hnlt
          refine List.pairwise_cons.2 ⟨?_, ih hl.2⟩
          intro x hx
          rcases hmem x rest hx with h | h
          · subst h; exact hnlt
          · exact hl.1 x h
    intro l
    induction l with
    | nil => exact List.Pairwise.nil
    | cons s rest ih => exact hins s (sortByName rest) ih

/-- Whether an error is one of the three transaction errors `runSeeder` builds. -/
def Error.isTransactionError : Error → Bool
  | .beginTxFailed _ => true
  | .rollbackFailed _ _ => true
  | .commitFailed _ => true
  | _ => false

/-! ## Concrete units and connections

The world of the examples counts the commits attempted so far. -/

/-- A unit whose `RunSeederTx` returns nil. -/
def okSeeder (name : String) : Seeder Nat :=
  { Name := nm name, Prepare := fun _ w => w, RunSeederTx := fun _ w => (w, none) }

/-- A unit whose `RunSeederTx` returns an error. -/
def failSeeder (name : String) : Seeder Nat :=
  { Name := nm name, Prepare := fun _ w => w,
    RunSeederTx := fun _ w => (w, some (.raw "seeder failed")) }

/-- A connection on which every transaction call succeeds. -/
def goodConn : Conn Nat :=
  { BeginTx := fun w => (w, none), Commit := fun w => (w + 1, none),
    Rollback := fun w => (w, none) }

/-- A connection whose first commit fails and whose other calls succeed. -/
def firstCommitFails : Conn Nat :=
  { BeginTx := fun w => (w, none),
    Commit := fun w => (w + 1, if w = 0 then some (.raw "commit failed") else none),
    Rollback := fun w => (w, none) }

/-- A runner over the given units with no reports yet. -/
def newRunner (units : List (Seeder Nat)) (bail : Bool) : Runner Nat :=
  { Repository := units, Seed := 42, RunReports := [], LogLevel := 0, BailOnError := bail }

/-- The run with `BailOnError` true in which the commit of `01_a` fails. -/
def bailCommitRun : Result Nat :=
  Run (byNameSort Nat) firstCommitFails (newRunner [okSeeder "02_b", okSeeder "01_a"] true) 0

/-- The run with `BailOnError` false in which the commit of `01_a` fails. -/
def noBailCommitRun : Result Nat :=
  Run (byNameSort Nat) firstCommitFails (newRunner [okSeeder "02_b", okSeeder "01_a"] false) 0

/-- The run with `BailOnError` false of `01_a` (succeeds), `02_b` (fails), `03_c`
(succeeds) on a connection without transaction errors. -/
def noBailThreeRun : Result Nat :=
  Run (byNameSort Nat) goodConn
    (newRunner [okSeeder "03_c", okSeeder "01_a", failSeeder "02_b"] false) 0

/-- The method `Repository.Add`. -/
def Repository.Add {W : Type} (seeders : List (Seeder W)) (more : List (Seeder W)) :
    List (Seeder W) :=
  seeders ++ more

/-- A registry after a sequence of `Add` calls on an empty one. -/
def Repository.AddAll {W : Type} (calls : List (List (Seeder W))) : List (Seeder W) :=
  calls.foldl Repository.Add []

/-! ## `Repository.SubStore` and `Repository.SubStoreTill` -/

/-- The error `SubStore` builds with
`fmt.Errorf("Seeders '%s' not found", strings.Join(notFound, "', '"))`, keeping the
joined names as a list. -/
inductive RepositoryError where
  | notFound (names : List Name)
  deriving DecidableEq, Repr

/-- The inner loop of `SubStore`: the first seeder of the slice whose name equals
`name`, or nothing when the loop ends without a match. -/
def firstNamed {W : Type} (name : Name) : List (Seeder W) → Option (Seeder W)
  | [] => none
  | seeder :: rest => if name = seeder.Name then some seeder else firstNamed name rest

/-- The loop `names:` of `SubStore` over the requested names still to visit, with the
entries of `resultSeeders` written so far and `notFound`. An entry that is never
written stays nil (`none`). -/
def subStoreLoop {W : Type} (allSeeders : List (Seeder W)) :
    List Name → List (Option (Seeder W)) → List Name → List (Option (Seeder W)) × List Name
  | [], resultSeeders, notFound => (resultSeeders, notFound)
  | name :: rest, resultSeeders, notFound =>
    match firstNamed name allSeeders with
    | some seeder => subStoreLoop allSeeders rest (resultSeeders ++ [some seeder]) notFound
    | none => subStoreLoop allSeeders rest (resultSeeders ++ [none]) (notFound ++ [name])

/-- The method `Repository.SubStore`: the seeders of the new store and the error. -/
def Repository.SubStore {W : Type} (seeders : List (Seeder W)) (seederNames : List Name) :
    List (Option (Seeder W)) × Option RepositoryError :=
  let r := subStoreLoop seeders seederNames [] []
  (r.1, if r.2.length > 0 then some (.notFound r.2) else none)

/-- The loop of `SubStoreTill` over the seeders still to visit, with the current value
of `till` and the index `i`. The slice expression `name[0:len(namePrefix)]` panics
(`none`) on a name shorter than the prefix; `strings.Compare(subname, namePrefix) > 0`
is the byte-wise comparison `namePrefix < subname`. -/
def tillLoop {W : Type} (namePrefix : Name) : Nat → List (Seeder W) → Nat → Option Nat
  | till, [], _ => some till
  | till, seeder :: rest, i =>
    if seeder.Name.length < namePrefix.length then none
    else if namePrefix < seeder.Name.take namePrefix.length then some (i + 1)
    else tillLoop namePrefix till rest (i + 1)

/-- The method `Repository.SubStoreTill`: the seeders of the new store, or `none` when
the call panics. -/
def Repository.SubStoreTill {W : Type} (S : SortSlice W) (seeders : List (Seeder W))
    (namePrefix : Name) : Option (List (Seeder W)) :=
  let allSeeders := Seeders S seeders
  (tillLoop namePrefix allSeeders.length allSeeders 0).map (fun till => allSeeders.take till)

/-- The stable insertion sort by name (an element is placed before the elements
already sorted that have the same name), a second instance of the `sort.Slice`
contract. -/
def stableByNameSort (W : Type) : SortSlice W where
  sort := List.insertionSort (fun a b => a.Name ≤ b.Name)
  perm := fun l => List.perm_insertionSort _ l
  sorted := by
    intro l
    have hs := @List.sorted_insertionSort (Seeder W) (fun a b => a.Name ≤ b.Name) _
      ⟨fun a b => le_total a.Name b.Name⟩ ⟨fun a b c hab hbc => le_trans hab hbc⟩ l
    exact hs.imp (fun hab => not_lt.2 hab)


end PsqlSeed

namespace Db

/-! ## Data model of `db/nested_set.go`

The counters `lft` and `rgt` are `int64` in the source and unbounded integers here:
a counter grows by two per record, so it stays far below `2^63` for every forest
that fits in memory. The field `id`, written later by `copyFromNestedSet`, is left out.
A `*NestedSetNode` is an `Option (NestedSetNode N)`, `none` being `nil`. -/

/-- The struct `NestedSetNode` with its fields `lft`, `rgt`, `depth`, `Data`, `parent`. -/
inductive NestedSetNode (N : Type) : Type where
  | mk (lft rgt : Int) (depth : Int) (Data : N) (parent : Option (NestedSetNode N))

/-- Field `lft`. -/
def NestedSetNode.lft {N : Type} : NestedSetNode N → Int
  | .mk l _ _ _ _ => l

/-- Field `rgt`. -/
def NestedSetNode.rgt {N : Type} : NestedSetNode N → Int
  | .mk _ r _ _ _ => r

/-- Field `depth`. -/
def NestedSetNode.depth {N : Type} : NestedSetNode N → Int
  | .mk _ _ d _ _ => d

/-- Field `Data`. -/
def NestedSetNode.Data {N : Type} : NestedSetNode N → N
  | .mk _ _ _ a _ => a

/-- Field `parent`. -/
def NestedSetNode.parent {N : Type} : NestedSetNode N → Option (NestedSetNode N)
  | .mk _ _ _ _ p => p

/-- The method `Depth`, defined on a nil receiver too. -/
def Depth {N : Type} (n : Option (NestedSetNode N)) : Int :=
  match n with
  | none => -1
  | some m => m.depth

/-- The method `IsRoot`. -/
def NestedSetNode.IsRoot {N : Type} (n : NestedSetNode N) : Bool :=
  n.parent.isNone

/-- The method `IsLeaf`. -/
def NestedSetNode.IsLeaf {N : Type} (n : NestedSetNode N) : Bool :=
  decide (n.rgt - n.lft = 1)

/-- The method `DescendantsCount`; Go's `/` on integers truncates toward zero. -/
def NestedSetNode.DescendantsCount {N : Type} (n : NestedSetNode N) : Int :=
  Int.tdiv (n.rgt - n.lft - 1) 2

/-- The interface `NestedSetSource`. A source answers `DataAndChildren(depth, parent)`
with a payload and a slice of sources; the slice is given by its length `count` and
its element `child` at each index, so that a source is a well-founded tree and the
traversal terminates. Sources are pure: equal arguments give equal answers. -/
inductive NestedSetSource (N : Type) : Type where
  | mk (data : Int → Option (NestedSetNode N) → N)
       (count : Int → Option (NestedSetNode N) → Nat)
       (child : (depth : Int) → (parent : Option (NestedSetNode N)) →
          Fin (count depth parent) → NestedSetSource N)

/-- The method `DataAndChildren` of a source. -/
def NestedSetSource.DataAndChildren {N : Type} :
    NestedSetSource N → Int → Option (NestedSetNode N) → N × List (NestedSetSource N)
  | .mk data count child, depth, parent =>
    (data depth parent, (List.finRange (count depth parent)).map (child depth parent))

/-- The struct `ConstNestedSetSource`, whose `DataAndChildren` ignores its arguments. -/
def ConstNestedSetSource {N : Type} (Data : N) (Children : List (NestedSetSource N)) :
    NestedSetSource N :=
  .mk (fun _ _ => Data) (fun _ _ => Children.length) (fun _ _ i => Children.get i)

/-- The struct `NestedSet`. -/
structure NestedSet (N : Type) where
  records : List (NestedSetNode N)
  rgt : Int

/-- The function `NewNestedSet`. -/
def NewNestedSet (N : Type) : NestedSet N :=
  { records := [], rgt := 1 }

/-- The method `reset`. -/
def NestedSet.reset {N : Type} (_ : NestedSet N) : NestedSet N :=
  { records := [], rgt := 1 }

/-- The method `appendNode`. The result is the records appended by the call, in
the order in which they were appended, and the record of `source` itself; the
record is appended by reference before the children are visited, so the list
holds its final `rgt`. The loop state is the records appended by the children so
far and `nextLft`. -/
def appendNode {N : Type} (lft : Int) (depth : Int) (parent : Option (NestedSetNode N)) :
    NestedSetSource N → List (NestedSetNode N) × NestedSetNode N
  | .mk data count child =>
    let loop := (List.finRange (count depth parent)).foldl
      (fun (st : List (NestedSetNode N) × Int) i =>
        let r := appendNode st.2 depth parent (child depth parent i)
        (st.1 ++ r.1, r.2.rgt + 1))
      ([], lft + 1)
    let record := NestedSetNode.mk lft loop.2 depth (data depth parent) parent
    (record :: loop.1, record)

/-- The method `Append`. The loop state is `n.records` and `lft`. -/
def NestedSet.Append {N : Type} (n : NestedSet N) (nodes : List (NestedSetSource N)) :
    NestedSet N :=
  let loop := nodes.foldl
    (fun (st : List (NestedSetNode N) × Int) node =>
      let r := appendNode st.2 0 none node
      (st.1 ++ r.1, r.2.rgt + 1))
    (n.records, n.rgt)
  { records := loop.1, rgt := loop.2 }

/-- A sequence of `Append` calls on one builder. -/
def NestedSet.AppendAll {N : Type} (n : NestedSet N) (calls : List (List (NestedSetSource N))) :
    NestedSet N :=
  calls.foldl NestedSet.Append n

/-! ## Trees, for stating what the builder returns -/

/-- A finite ordered tree with a label at every node. -/
inductive RoseTree (α : Type) : Type where
  | node (label : α) (children : List (RoseTree α))

namespace RoseTree

/-- The label at the root. -/
def root {α : Type} : RoseTree α → α
  | .node a _ => a

/-- The subtrees below the root, in order. -/
def children {α : Type} : RoseTree α → List (RoseTree α)
  | .node _ cs => cs

mutual
/-- Number of nodes of a tree. -/
def size {α : Type} : RoseTree α → Nat
  | .node _ cs => 1 + sizeList cs
/-- Number of nodes of a forest. -/
def sizeList {α : Type} : List (RoseTree α) → Nat
  | [] => 0
  | t :: ts => size t + sizeList ts
end

mutual
/-- The labels of a tree in pre-order: a node before its descendants, children in
order. -/
def preorder {α : Type} : RoseTree α → List α
  | .node a cs => a :: preorderList cs
/-- The labels of a forest in pre-order, tree after tree. -/
def preorderList {α : Type} : List (RoseTree α) → List α
  | [] => []
  | t :: ts => preorder t ++ preorderList ts
end

mutual
/-- All subtrees of a tree, each node with what hangs below it, in pre-order. -/
def subtrees {α : Type} : RoseTree α → List (RoseTree α)
  | .node a cs => .node a cs :: subtreesList cs
/-- All subtrees of the trees of a forest, in pre-order. -/
def subtreesList {α : Type} : List (RoseTree α) → List (RoseTree α)
  | [] => []
  | t :: ts => subtrees t ++ subtreesList ts
end

mutual
/-- The tree of the same shape with every label replaced by its image. -/
def map {α β : Type} (f : α → β) : RoseTree α → RoseTree β
  | .node a cs => .node (f a) (mapList f cs)
/-- The forest of the same shape with every label replaced by its image. -/
def mapList {α β : Type} (f : α → β) : List (RoseTree α) → List (RoseTree β)
  | [] => []
  | t :: ts => map f t :: mapList f ts
end

end RoseTree

/-- The tree a source unfolds to when the traversal reaches it with the given
`depth` and `parent`: its payload at the root, and below it the trees of the
sources it returns. For sources built from `ConstNestedSetSource` alone this tree
does not depend on `depth` and `parent`. -/
def sourceTree {N : Type} (depth : Int) (parent : Option (NestedSetNode N)) :
    NestedSetSource N → RoseTree N
  | .mk data count child =>
    .node (data depth parent)
      ((List.finRange (count depth parent)).map
        (fun i => sourceTree depth parent (child depth parent i)))

/-- The source forest of an `Append` call. -/
def sourceForest {N : Type} (nodes : List (NestedSetSource N)) : List (RoseTree N) :=
  nodes.map (sourceTree 0 none)

mutual
/-- The numbering in closed form: the node entered with counter `lft` gets the
interval from `lft` to `lft + 2 * size - 1`, and its first child is entered with
`lft + 1`. -/
def label {N : Type} (depth : Int) (parent : Option (NestedSetNode N)) :
    Int → RoseTree N → RoseTree (NestedSetNode N)
  | lft, .node a cs =>
    .node (.mk lft (lft + 2 * RoseTree.sizeList cs + 1) depth a parent)
      (labelList depth parent (lft + 1) cs)
/-- The numbering of a forest in closed form: the tree after a tree of `s` nodes is
entered with a counter `2 * s` higher. -/
def labelList {N : Type} (depth : Int) (parent : Option (NestedSetNode N)) :
    Int → List (RoseTree N) → List (RoseTree (NestedSetNode N))
  | _, [] => []
  | lft, t :: ts =>
    label depth parent lft t :: labelList depth parent (lft + 2 * RoseTree.size t) ts
end

/-- Whether the interval of `m` lies strictly inside the interval of `n`. -/
def strictlyInside {N : Type} (n m : NestedSetNode N) : Bool :=
  decide (n.lft < m.lft ∧ m.rgt < n.rgt)

/-- The nesting of one node of a tree of records: its interval is not empty, the
interval of every child lies strictly inside it, and the interval of a child ends
before the interval of every later child starts. -/
def LocallyNested {N : Type} (t : RoseTree (NestedSetNode N)) : Prop :=
  t.root.lft < t.root.rgt ∧
  (∀ c ∈ t.children, t.root.lft < c.root.lft ∧ c.root.rgt < t.root.rgt) ∧
  List.Pairwise (fun a b => a.root.rgt < b.root.lft) t.children

/-- A source of four nodes: a root with a leaf child and a child that has one child. -/
def exampleSource : NestedSetSource Nat :=
  ConstNestedSetSource 10
    [ConstNestedSetSource 11 [], ConstNestedSetSource 12 [ConstNestedSetSource 13 []]]

/-- A generator source (a `NestedSetSourceFn`) that reports how it is called: its
payload is the `depth` it receives and whether it receives a parent. It is a chain
of `h + 1` nodes, each but the last with one child. -/
def probeSource : Nat → NestedSetSource (Int × Bool)
  | 0 => .mk (fun d p => (d, p.isSome)) (fun _ _ => 0) (fun _ _ i => i.elim0)
  | h + 1 => .mk (fun d p => (d, p.isSome)) (fun _ _ => 1) (fun _ _ _ => probeSource h)

/-! ## Data model of `db/sequence.go` and of the transaction handle

Sequence values are `int64` in the source; the additions of the cache wrap as Go's
do (`wrapInt64`). A call that panics returns `none`. The transaction handle `Tx` is
effectful: every call takes the current world `W` and returns the next one with its
result, and every call made is recorded as a `DbEvent` with what it returned. -/

/-- Error values of package `db`. `raw` is an error coming from the driver; the other
constructors are the `fmt.Errorf` calls of `Reload` and `copyFromNestedSet`. -/
inductive Error where
  | raw (msg : String)
  | loadFailed (seq : String) (err : Error)
  | maxRgtFailed (err : Error)
  deriving DecidableEq, Repr

/-- The result of an `int64` addition: the sum reduced to the range from `-2^63` to
`2^63 - 1`. -/
def wrapInt64 (x : Int) : Int :=
  (x + 9223372036854775808) % 18446744073709551616 - 9223372036854775808

/-- A value of type `any` in a row: `nil`, an identifier, an `int64`, or a value
supplied by the caller. -/
inductive Cell (I A : Type) where
  | null
  | id (i : I)
  | int (n : Int)
  | val (a : A)
  deriving DecidableEq, Repr

/-- What a fallible query returns: an error or the scanned values. -/
abbrev Scanned (α : Type) := Error ⊕ α

/-- One call on the transaction handle, with its arguments and its result:
`Exec` of `SELECT setval(($1)::regclass,$2,$3)`; `QueryRow` on
`pg_catalog.pg_sequences` (with or without the clause `AND schemaname = $2`);
`QueryRow` of the maximal `_rgt` of a table under a scope; `CopyFrom`. -/
inductive DbEvent (I A : Type) where
  | setval (seq : String) (value : Int) (called : Bool) (res : Option Error)
  | querySequence (schemaClause : Bool) (args : List (Option String))
      (res : Scanned (Int × Option Int × Int))
  | queryMaxRgt (table : List String) (columns : List String) (args : List A)
      (res : Scanned Int)
  | copyFrom (table : List String) (columns : List String) (rows : List (List (Cell I A)))
      (res : Option Error)
  deriving DecidableEq, Repr

/-- The calls of `pgx.Tx` that the package makes. The sequence query scans
`start_value`, `last_value` (nullable) and `increment_by`. -/
structure Tx (W I A : Type) where
  ExecSetval : String → Int → Bool → W → W × Option Error
  QueryRowSequence : Bool → List (Option String) → W → W × Scanned (Int × Option Int × Int)
  QueryRowMaxRgt : List String → List String → List A → W → W × Scanned Int
  CopyFrom : List String → List String → List (List (Cell I A)) → W → W × Option Error

/-- The struct `Sequence` without its `tx` field; `id` is the `pgx.Identifier`. -/
structure Sequence where
  id : List String
  lastValue : Int
  incrementBy : Int
  called : Bool
  dirty : Bool
  Err : Option Error
  deriving DecidableEq, Repr

/-- What a call on a sequence that talks to the database leaves behind. -/
structure SeqResult (W I A : Type) where
  seq : Sequence
  world : W
  trace : List (DbEvent I A)
  err : Option Error

/-- The method `String` (named `IdString` here, `String` being taken): the parts of
the identifier joined by a dot. -/
def Sequence.IdString (seq : Sequence) : String :=
  ".".intercalate seq.id

/-- The method `Id`: schema (nil when absent) and name; it panics unless the
identifier has one or two parts. -/
def Sequence.Id (seq : Sequence) : Option (Option String × String) :=
  match seq.id with
  | [name] => some (none, name)
  | [schema, name] => some (some schema, name)
  | _ => none

/-- The method `Peek`. -/
def Sequence.Peek (seq : Sequence) : Int :=
  if seq.called then wrapInt64 (seq.lastValue + seq.incrementBy) else seq.lastValue

/-- The loop of `PeekN`: `res[i] = next; next += seq.incrementBy`. -/
def peekLoop (incrementBy : Int) : Nat → Int → List Int
  | 0, _ => []
  | n + 1, next => next :: peekLoop incrementBy n (wrapInt64 (next + incrementBy))

/-- The method `PeekN`. -/
def Sequence.PeekN (seq : Sequence) (n : Nat) : List Int :=
  peekLoop seq.incrementBy n seq.Peek

/-- The method `SetLast`. -/
def Sequence.SetLast (seq : Sequence) (value : Int) : Sequence × Option Error :=
  match seq.Err with
  | some e => (seq, some e)
  | none =>
    ({ seq with dirty := !seq.called || seq.lastValue != value, called := true,
                lastValue := value }, none)

/-- The method `TryNext`: the sequence afterwards, `next` and `err`. -/
def Sequence.TryNext (seq : Sequence) : Sequence × Int × Option Error :=
  let next := seq.Peek
  match seq.Err with
  | some e => (seq, next, some e)
  | none =>
    let r := seq.SetLast next
    (r.1, next, r.2)

/-- The method `Next`; `none` when it panics. -/
def Sequence.Next (seq : Sequence) : Option (Int × Sequence) :=
  let r := seq.TryNext
  match r.2.2 with
  | some _ => none
  | none => some (r.2.1, r.1)

/-- The method `NextN`: the values returned and the sequence afterwards; `none` when a
`Next` panics. -/
def Sequence.NextN (seq : Sequence) : Nat → Option (List Int × Sequence)
  | 0 => some ([], seq)
  | n + 1 =>
    match seq.Next with
    | none => none
    | some (v, seq1) =>
      match seq1.NextN n with
      | none => none
      | some (vs, seq2) => some (v :: vs, seq2)

/-- The method `Last`. -/
def Sequence.Last (seq : Sequence) : Int × Bool :=
  (seq.lastValue, seq.called)

/-- The method `update`. -/
def Sequence.update {W I A : Type} (tx : Tx W I A) (seq : Sequence) (w : W) :
    SeqResult W I A :=
  if seq.dirty then
    let r := tx.ExecSetval seq.IdString seq.lastValue seq.called w
    match r.2 with
    | some err =>
      { seq := { seq with Err := some err }, world := r.1,
        trace := [.setval seq.IdString seq.lastValue seq.called (some err)], err := some err }
    | none =>
      { seq := { seq with dirty := false }, world := r.1,
        trace := [.setval seq.IdString seq.lastValue seq.called none], err := none }
  else
    { seq := seq, world := w, trace := [], err := none }

/-- The method `Reload`; `none` when `Id` panics. The clause on `schemaname` is added,
with the nil schema as second argument, when the identifier has no schema part. -/
def Sequence.Reload {W I A : Type} (tx : Tx W I A) (seq : Sequence) (w : W) :
    Option (SeqResult W I A) :=
  match seq.Id with
  | none => none
  | some (schema, name) =>
    let schemaClause := schema.isNone
    let args : List (Option String) := if schema.isNone then [some name, schema] else [some name]
    let r := tx.QueryRowSequence schemaClause args w
    match r.2 with
    | .inl err =>
      some { seq := { seq with Err := some (.loadFailed seq.IdString err) }, world := r.1,
             trace := [.querySequence schemaClause args (.inl err)], err := some err }
    | .inr (startValue, lastValue, incrementBy) =>
      some { seq :=
               match lastValue with
               | none => { seq with incrementBy := incrementBy, lastValue := startValue,
                                    called := false, dirty := false }
               | some v => { seq with incrementBy := incrementBy, lastValue := v,
                                      called := true, dirty := false },
             world := r.1,
             trace := [.querySequence schemaClause args (.inr (startValue, lastValue, incrementBy))],
             err := none }

/-- The method `Sync`. -/
def Sequence.Sync {W I A : Type} (tx : Tx W I A) (seq : Sequence) (w : W) :
    Option (SeqResult W I A) :=
  if seq.dirty then some (seq.update tx w) else seq.Reload tx w

/-- The function `NewSequence`; the result of its `Reload` is dropped, a failure is
found in `Err`. -/
def NewSequence {W I A : Type} (tx : Tx W I A) (identifier : List String) (w : W) :
    Option (SeqResult W I A) :=
  Sequence.Reload tx
    { id := identifier, dirty := false, incrementBy := 1, lastValue := 1, called := false,
      Err := none } w

/-- The range of `int64`. -/
abbrev IsInt64 (x : Int) : Prop :=
  -9223372036854775808 ≤ x ∧ x ≤ 9223372036854775807

/-- The `int64` fields of a sequence hold `int64` values. -/
abbrev Sequence.WellTyped (seq : Sequence) : Prop :=
  IsInt64 seq.lastValue ∧ IsInt64 seq.incrementBy

/-- A PostgreSQL sequence as the database holds it: its schema and name, the
columns `start_value` and `increment_by`, and its state `last_value`, `is_called`. -/
structure PgSequence where
  schema : String
  name : String
  start_value : Int
  last_value : Int
  is_called : Bool
  increment_by : Int
  deriving DecidableEq, Repr

/-- The error of a query that finds no row. -/
def errNoRows : Error := .raw "no rows in result set"

/-- The row of `pg_catalog.pg_sequences` for a sequence: `last_value` is null until
the sequence has been called. -/
def PgSequence.row (w : PgSequence) : Int × Option Int × Int :=
  (w.start_value, if w.is_called then some w.last_value else none, w.increment_by)

/-- A transaction on a database that holds one sequence, following the documented
behaviour of PostgreSQL: `setval` stores the value and the flag of the sequence that
its first argument names; the catalog query returns the row whose `sequencename`
(and `schemaname`, when the clause is present) equal the arguments, and a comparison
with a null argument selects no row. The other two calls are not used with it. -/
def pgTx (I A : Type) : Tx PgSequence I A where
  ExecSetval := fun seq value called w =>
    if seq = ".".intercalate [w.schema, w.name] ∨ seq = w.name then
      ({ w with last_value := value, is_called := called }, none)
    else (w, some (.raw "relation does not exist"))
  QueryRowSequence := fun schemaClause args w =>
    match schemaClause, args with
    | false, [some n] => if n = w.name then (w, .inr w.row) else (w, .inl errNoRows)
    | true, [some n, some s] =>
      if n = w.name ∧ s = w.schema then (w, .inr w.row) else (w, .inl errNoRows)
    | _, _ => (w, .inl errNoRows)
  QueryRowMaxRgt := fun _ _ _ w => (w, .inr 0)
  CopyFrom := fun _ _ _ w => (w, none)

/-- A sequence `public.ids` that has not been called yet. -/
def freshIds : PgSequence :=
  { schema := "public", name := "ids", start_value := 1, last_value := 1,
    is_called := false, increment_by := 1 }

/-- A loaded cache: last value 7, increment 3, already called, in sync. -/
def loadedCache : Sequence :=
  { id := ["public", "ids"], lastValue := 7, incrementBy := 3, called := true,
    dirty := false, Err := none }

/-- The round trip of a cache on the database `w`: load a cache for the sequence of
`w`, call `Next` `k` times, `Sync`, and load a fresh cache. The result is the cache as
loaded before the run, the fresh cache, and the calls made by `Sync`; `none` when a
step panics. -/
def roundTrip (w : PgSequence) (k : Nat) :
    Option (Sequence × Sequence × List (DbEvent Unit Unit)) :=
  match NewSequence (pgTx Unit Unit) [w.schema, w.name] w with
  | none => none
  | some c1 =>
    match c1.seq.NextN k with
    | none => none
    | some (_, seqk) =>
      match seqk.Sync (pgTx Unit Unit) c1.world with
      | none => none
      | some c2 =>
        match NewSequence (pgTx Unit Unit) [w.schema, w.name] c2.world with
        | none => none
        | some c3 => some (c1.seq, c3.seq, c2.trace)

/-! ## Bulk load of a nested set: `copyFromNestedSet` and its callers

A record and the `id` written into it are kept side by side: the `i`-th identifier
belongs to the `i`-th record. The `id` field of the node a `parent` pointer refers
to is read through `parentId`. -/

/-- The struct `NestedSetScopeItem`. -/
structure NestedSetScopeItem (A : Type) where
  ColumnName : String
  Value : A

/-- The struct `NestedSetOpts`; `Table` is a `pgx.Identifier`. -/
structure NestedSetOpts (A : Type) where
  Table : List String
  Scope : List (NestedSetScopeItem A)
  IdCol : String
  ParentIdCol : String
  LftCol : String
  RgtCol : String

/-- The function `NewNestedSetOpts`. -/
def NewNestedSetOpts {A : Type} (table : List String) (scope : List (NestedSetScopeItem A)) :
    NestedSetOpts A :=
  { Table := table, Scope := scope, IdCol := "id", ParentIdCol := "parent_id",
    LftCol := "_lft", RgtCol := "_rgt" }

/-- What `GetNestedSetMaxRgt` leaves behind: `result`, `err`, world and calls. -/
structure MaxRgtResult (W I A : Type) where
  result : Int
  err : Option Error
  world : W
  trace : List (DbEvent I A)

/-- The method `GetNestedSetMaxRgt`: one query on the table with one condition per
scope item. -/
def GetNestedSetMaxRgt {W I A : Type} (tx : Tx W I A) (opts : NestedSetOpts A) (w : W) :
    MaxRgtResult W I A :=
  let columns := opts.Scope.map (fun v => v.ColumnName)
  let args := opts.Scope.map (fun v => v.Value)
  let r := tx.QueryRowMaxRgt opts.Table columns args w
  match r.2 with
  | .inl err =>
    { result := 0, err := some err, world := r.1,
      trace := [.queryMaxRgt opts.Table columns args (.inl err)] }
  | .inr v =>
    { result := v, err := none, world := r.1,
      trace := [.queryMaxRgt opts.Table columns args (.inr v)] }

/-- The assignment `buf[i] = v`; `none` is the index-out-of-range panic. -/
def setIndex {α : Type} (buf : List α) (i : Nat) (v : α) : Option (List α) :=
  if i < buf.length then some (buf.set i v) else none

/-- The loop `for k, v := range vs { buf[j+k] = v }`. -/
def writeFrom {α : Type} (buf : List α) (j : Nat) : List α → Option (List α)
  | [] => some buf
  | v :: vs =>
    match setIndex buf j v with
    | none => none
    | some b => writeFrom b (j + 1) vs

/-- The column names `fields` that `copyFromNestedSet` gathers. -/
def copyFields {A : Type} (opts : NestedSetOpts A) (dataFields : List String) :
    Option (List String) := do
  let sn := opts.Scope.length
  let fieldCount := sn + 4 + dataFields.length
  let f0 := List.replicate fieldCount ""
  let f1 ← writeFrom f0 0 (opts.Scope.map (fun v => v.ColumnName))
  let f2 ← setIndex f1 sn opts.IdCol
  let f3 ← setIndex f2 (sn + 1) opts.ParentIdCol
  let f4 ← setIndex f3 (sn + 2) opts.LftCol
  let f5 ← setIndex f4 (sn + 3) opts.RgtCol
  writeFrom f5 (sn + 4) dataFields

/-- The row callback of `copyFromNestedSet` for the record `rec` holding `id`. -/
def copyRow {I A : Type} (parentId : NestedSetNode (List A) → Cell I A)
    (opts : NestedSetOpts A) (dataFields : List String) (lftOffset : Int)
    (rec : NestedSetNode (List A)) (id : I) : Option (List (Cell I A)) := do
  let sn := opts.Scope.length
  let fieldCount := sn + 4 + dataFields.length
  let scopeArgs := opts.Scope.map (fun v => v.Value)
  let a0 := List.replicate fieldCount (Cell.null : Cell I A)
  let a1 ← writeFrom a0 0 (scopeArgs.map Cell.val)
  let a2 ← setIndex a1 sn (Cell.id id)
  let a3 ← setIndex a2 (sn + 1)
    (match rec.parent with
     | some p => parentId p
     | none => Cell.null)
  let a4 ← setIndex a3 (sn + 2) (Cell.int (wrapInt64 (rec.lft + lftOffset)))
  let a5 ← setIndex a4 (sn + 3) (Cell.int (wrapInt64 (rec.rgt + lftOffset)))
  writeFrom a5 (sn + 4) (rec.Data.map Cell.val)

/-- The rows that `pgx.CopyFromSlice` draws from the callback, index after index. -/
def copyRows {I A : Type} (parentId : NestedSetNode (List A) → Cell I A)
    (opts : NestedSetOpts A) (dataFields : List String) (lftOffset : Int) :
    List (NestedSetNode (List A)) → List I → Option (List (List (Cell I A)))
  | rec :: recs, id :: ids => do
    let row ← copyRow parentId opts dataFields lftOffset rec id
    let rows ← copyRows parentId opts dataFields lftOffset recs ids
    pure (row :: rows)
  | _, _ => some []

/-- The loop `for i := range ids { id := nextId(i); ... }`: `n` identifiers from
index `i` on. The source of identifiers has a state `S`; `none` when `nextId` panics. -/
def assignIds {S I : Type} (nextId : Nat → S → Option (I × S)) :
    Nat → Nat → S → Option (List I × S)
  | 0, _, s => some ([], s)
  | n + 1, i, s =>
    match nextId i s with
    | none => none
    | some (id, s1) =>
      match assignIds nextId n (i + 1) s1 with
      | none => none
      | some (ids, s2) => some (id :: ids, s2)

/-- What `copyFromNestedSet` and its callers leave behind: the returned `ids` (`none`
is the nil slice) and `err`, the state of the source of identifiers, world and calls. -/
structure CopyResult (S W I A : Type) where
  ids : Option (List I)
  err : Option Error
  state : S
  world : W
  trace : List (DbEvent I A)

/-- The function `copyFromNestedSet`; `none` when `nextId` or the row callback panics. -/
def copyFromNestedSet {S W I A : Type} (tx : Tx W I A)
    (parentId : NestedSetNode (List A) → Cell I A) (nextId : Nat → S → Option (I × S))
    (opts : NestedSetOpts A) (dataFields : List String) (ns : NestedSet (List A))
    (s : S) (w : W) : Option (CopyResult S W I A) :=
  let q := GetNestedSetMaxRgt tx opts w
  match q.err with
  | some err =>
    some { ids := none, err := some (.maxRgtFailed err), state := s, world := q.world,
           trace := q.trace }
  | none =>
    match assignIds nextId ns.records.length 0 s with
    | none => none
    | some (ids, s1) =>
      match copyFields opts dataFields,
        copyRows parentId opts dataFields q.result ns.records ids with
      | some fields, some rows =>
        let c := tx.CopyFrom opts.Table fields rows q.world
        some { ids := some ids, err := c.2, state := s1, world := c.1,
               trace := q.trace ++ [.copyFrom opts.Table fields rows c.2] }
      | _, _ => none

/-- The method `InsertNestedSetInt64`; the deferred `seq.Sync` runs after
`copyFromNestedSet` has returned and its result is dropped. -/
def InsertNestedSetInt64 {W A : Type} (tx : Tx W Int A)
    (parentId : NestedSetNode (List A) → Cell Int A) (idSequenceName : List String)
    (opts : NestedSetOpts A) (dataFields : List String) (ns : NestedSet (List A)) (w : W) :
    Option (CopyResult Sequence W Int A) :=
  match NewSequence tx idSequenceName w with
  | none => none
  | some c0 =>
    match c0.seq.Err with
    | some e =>
      some { ids := none, err := some e, state := c0.seq, world := c0.world, trace := c0.trace }
    | none =>
      match copyFromNestedSet tx parentId (fun _ seq => Sequence.Next seq) opts dataFields ns
        c0.seq c0.world with
      | none => none
      | some r =>
        match r.state.Sync tx r.world with
        | none => none
        | some sy =>
          some { ids := r.ids, err := r.err, state := sy.seq, world := sy.world,
                 trace := c0.trace ++ r.trace ++ sy.trace }

/-- The bytes that `binary.BigEndian.PutUint32(bs, uint32(i))` writes. -/
def bigEndianUint32 (i : Nat) : List Nat :=
  [i % 4294967296 / 16777216 % 256, i % 4294967296 / 65536 % 256,
   i % 4294967296 / 256 % 256, i % 4294967296 % 256]

/-- The method `InsertNestedSetUUID`; `NewSHA1` is `uuid.NewSHA1` of the UUID library,
on identifiers of type `U`. -/
def InsertNestedSetUUID {W U A : Type} (tx : Tx W U A) (NewSHA1 : U → List Nat → U)
    (parentId : NestedSetNode (List A) → Cell U A) (idNamespace : U)
    (opts : NestedSetOpts A) (dataFields : List String) (ns : NestedSet (List A)) (w : W) :
    Option (CopyResult Unit W U A) :=
  copyFromNestedSet tx parentId
    (fun i s => some (NewSHA1 idNamespace (bigEndianUint32 i), s)) opts dataFields ns () w

/-- A source with payload `[a]` for every node: a root with one child. -/
def parentChild : NestedSetSource (List Nat) :=
  ConstNestedSetSource [10] [ConstNestedSetSource [11] []]

/-- Options for a table `tree` with one scope column and one data field. -/
def treeOpts : NestedSetOpts Nat :=
  NewNestedSetOpts ["tree"] [{ ColumnName := "tenant", Value := 5 }]

/-- The bulk load of `parentChild` with identifiers from the sequence `public.ids`. -/
def parentChildInsert : Option (CopyResult Sequence PgSequence Int Nat) :=
  InsertNestedSetInt64 (pgTx Int Nat) (fun _ => Cell.null) ["public", "ids"] treeOpts ["label"]
    ((NewNestedSet (List Nat)).Append [parentChild]) freshIds

/-- The row of a record as the format of the bulk load describes it: the scope
values, the identifier of the record, the identifier of its parent or null, `lft` and
`rgt` shifted by the offset, and the payload values. -/
def rowOf {I A : Type} (parentId : NestedSetNode (List A) → Cell I A)
    (opts : NestedSetOpts A) (lftOffset : Int) (rec : NestedSetNode (List A)) (id : I) :
    List (Cell I A) :=
  opts.Scope.map (fun v => Cell.val v.Value) ++
    [Cell.id id,
     (match rec.parent with
      | some p => parentId p
      | none => Cell.null),
     Cell.int (wrapInt64 (rec.lft + lftOffset)),
     Cell.int (wrapInt64 (rec.rgt + lftOffset))] ++
    rec.Data.map Cell.val

/-- The bulk load of `parentChild` with the identifiers 100, 101. -/
def parentChildCopy : Option (CopyResult Unit PgSequence Nat Nat) :=
  copyFromNestedSet (pgTx Nat Nat) (fun _ => Cell.null) (fun i s => some (100 + i, s))
    treeOpts ["label"] ((NewNestedSet (List Nat)).Append [parentChild]) () freshIds

/-- A stand-in for `uuid.NewSHA1` on identifiers that are numbers: the namespace plus
the number that the name bytes spell. -/
def toySHA1 (idNamespace : Nat) (name : List Nat) : Nat :=
  idNamespace + name.foldl (fun acc b => 256 * acc + b) 0

/-- The bulk load of `parentChild` with identifiers from `toySHA1` under namespace 1000. -/
def parentChildInsertUUID : Option (CopyResult Unit PgSequence Nat Nat) :=
  InsertNestedSetUUID (pgTx Nat Nat) toySHA1 (fun _ => Cell.null) 1000 treeOpts ["label"]
    ((NewNestedSet (List Nat)).Append [parentChild]) freshIds

/-- The bulk load of `parentChild` with identifiers from the sequence named `ids`
without schema. -/
def parentChildInsertUnqualified : Option (CopyResult Sequence PgSequence Int Nat) :=
  InsertNestedSetInt64 (pgTx Int Nat) (fun _ => Cell.null) ["ids"] treeOpts ["label"]
    ((NewNestedSet (List Nat)).Append [parentChild]) freshIds

end Db

namespace Fake

/-! ## `seed/fake/seed.go`

`hash/fnv` is the Go standard library; `fnvNew64`, `fnvWrite` and `fnvSum64` follow
its `New64`, `(*sum64).Write` and `(*sum64).Sum64`. A `uint64` is a natural number
below `2 ^ 64`, a byte a natural number below `256`. -/

/-- The constant `offset64` of `hash/fnv`. -/
def offset64 : Nat := 14695981039346656037

/-- The constant `prime64` of `hash/fnv`. -/
def prime64 : Nat := 1099511628211

/-- The hash state returned by `fnv.New64()`. -/
def fnvNew64 : Nat := offset64

/-- The method `Write` of the hash state: `hash *= prime64; hash ^= sum64(c)` for each
byte `c`, in `uint64` arithmetic. -/
def fnvWrite (hash : Nat) (data : List Nat) : Nat :=
  data.foldl (fun hash c => (hash * prime64 % 2 ^ 64) ^^^ c) hash

/-- The method `Sum64` of the hash state. -/
def fnvSum64 (hash : Nat) : Nat := hash

/-- The function `ToSeedOffset`. -/
def ToSeedOffset (v : List Nat) : Nat :=
  let hash := fnvNew64
  let hash := fnvWrite hash v
  fnvSum64 hash

/-- One step of FNV-1 as the specification words it: multiply by `0x100000001b3`
modulo `2 ^ 64`, then XOR the byte. -/
def fnv1Step (h : Nat) (byte : Nat) : Nat :=
  (h * 0x100000001b3 % 18446744073709551616) ^^^ byte

/-- The FNV-1 hash continued from the value `h` over the remaining bytes. -/
def fnv1From (h : Nat) : List Nat → Nat
  | [] => h
  | byte :: rest => fnv1From (fnv1Step h byte) rest

/-- The 64-bit FNV-1 hash of a byte string as the specification words it: start from
`0xcbf29ce484222325` and apply the step to each byte in turn. -/
def fnv1 (v : List Nat) : Nat := fnv1From 0xcbf29ce484222325 v

/-- The source `rand.NewPCG(seed1, seed2)`: a PCG generator is fixed by its two seed
words. -/
structure PCG where
  seed1 : Nat
  seed2 : Nat
  deriving DecidableEq, Repr

/-- The value `Faker{gofakeit.NewFaker(src, lock)}` right after its construction. -/
structure Faker where
  src : PCG
  lock : Bool
  deriving DecidableEq, Repr

/-- The method `Seed.NewSourceOffset`. -/
def Seed.NewSourceOffset (s : Nat) (offset : Nat) : PCG :=
  { seed1 := s, seed2 := offset }

/-- The method `Seed.NewSource`. -/
def Seed.NewSource (s : Nat) (offset : List Nat) : PCG :=
  Seed.NewSourceOffset s (ToSeedOffset offset)

/-- The method `Seed.NewFakerOffset`. -/
def Seed.NewFakerOffset (s : Nat) (offset : Nat) : Faker :=
  { src := Seed.NewSourceOffset s offset, lock := true }

/-- The method `Seed.NewFaker`. -/
def Seed.NewFaker (s : Nat) (offset : List Nat) : Faker :=
  Seed.NewFakerOffset s (ToSeedOffset offset)

/-! ## `seed/fake/slices.go`

The methods `IntN` and `ShuffleInts` come from the embedded `gofakeit.Faker`; they are
taken with what the library documents: `IntN(n)` returns a value in `[0, n)` for
positive `n`, `ShuffleInts` rearranges the slice. `R` is the state of the random
stream. A panic is `none`. -/

/-- The two `gofakeit` methods `UniqueIndices` calls. -/
structure Gofakeit (R : Type) where
  IntN : Int → R → Int × R
  ShuffleInts : List Int → R → List Int × R
  IntN_range : ∀ n r, 0 < n → 0 ≤ (IntN n r).1 ∧ (IntN n r).1 < n
  ShuffleInts_perm : ∀ l r, List.Perm (ShuffleInts l r).1 l

/-- The second loop of `UniqueIndices`, with the iterations still to run and the
entries `res[0..i)` written so far (`i` is their number). -/
def uniqueLoop {R : Type} (g : Gofakeit R) (l : Int) : Nat → List Int → R → List Int × R
  | 0, res, r => (res, r)
  | k + 1, res, r =>
    let d := g.IntN (l - res.length) r
    let x := res.foldl (fun x resj => if x ≥ resj then x + 1 else x) d.1
    uniqueLoop g l k (res ++ [x]) d.2

/-- The method `Faker.UniqueIndices`. `make` panics on a negative length and
`res[0:n]` on a negative bound. -/
def UniqueIndices {R : Type} (g : Gofakeit R) (l : Int) (n : Int) (r : R) :
    Option (List Int × R) :=
  if l < n then none
  else if l > Int.tdiv n 2 then
    if l < 0 then none
    else
      let res := (List.range l.toNat).map (fun (i : Nat) => (i : Int))
      let s := g.ShuffleInts res r
      if n < 0 then none else some (s.1.take n.toNat, s.2)
  else
    if n < 0 then none else some (uniqueLoop g l n.toNat [] r)

/-- The element `source[x]` of a slice at an `int` index; out of range panics. -/
def index {K : Type} (source : List K) (x : Int) : Option K :=
  if x < 0 then none else source.get? x.toNat

/-- A loop `for i := 0; i < count; i++ { res[i] = source[ix[i]] }` over the values of
`i` still to visit; an index out of range panics. -/
def pick {K : Type} (source : List K) (ix : List Int) : List Nat → Option (List K)
  | [] => some []
  | i :: rest =>
    match ix.get? i with
    | none => none
    | some x =>
      match index source x with
      | none => none
      | some v =>
        match pick source ix rest with
        | none => none
        | some vs => some (v :: vs)

/-- The generic function `randomN`, which the typed variants `RandomIntN`,
`RandomStringN`, ... call. -/
def randomN {R K : Type} (g : Gofakeit R) (source : List K) (count : Int) (r : R) :
    Option (List K × R) :=
  match UniqueIndices g source.length count r with
  | none => none
  | some (ix, r) =>
    if count < 0 then none
    else (pick source ix (List.range count.toNat)).map (fun res => (res, r))

/-- The method `Faker.RandomN` on a slice: `result` has length `l` and the loop runs
`i` over `[0, l)`. -/
def RandomN {R K : Type} (g : Gofakeit R) (slice : List K) (n : Int) (r : R) :
    Option (List K × R) :=
  let l := slice.length
  match UniqueIndices g l n r with
  | none => none
  | some (ix, r) => (pick slice ix (List.range l)).map (fun result => (result, r))

/-- A stream for the examples: the state counts the calls, `IntN(n)` returns the
state modulo `n` and `ShuffleInts` reverses the slice. -/
def countingFaker : Gofakeit Nat where
  IntN := fun n r => ((r : Int) % n, r + 1)
  ShuffleInts := fun l r => (l.reverse, r + 1)
  IntN_range := fun _ _ h => ⟨Int.emod_nonneg _ (ne_of_gt h), Int.emod_lt_of_pos _ h⟩
  ShuffleInts_perm := fun l _ => List.reverse_perm l

end Fake

namespace Distributions

/-! ## `seed/fake/distributions/discrete.go`

A `float32` is not-a-number, an infinity or a finite value; every finite `float32` is
an integer multiple of `2 ^ (-149)`, and `fin m` stands for `m * 2 ^ (-149)`. The code
only compares these values. -/

/-- The type `float32`. -/
inductive float32 where
  | nan
  | negInf
  | fin (m : Int)
  | posInf
  deriving DecidableEq, Repr

/-- The operator `<` on `float32`: false whenever an operand is not a number. -/
def float32.lt : float32 → float32 → Bool
  | .nan, _ => false
  | _, .nan => false
  | .negInf, .negInf => false
  | .negInf, _ => true
  | .fin _, .negInf => false
  | .fin a, .fin b => decide (a < b)
  | .fin _, .posInf => true
  | .posInf, _ => false

/-- The operator `<=` on `float32`: false whenever an operand is not a number. -/
def float32.le : float32 → float32 → Bool
  | .nan, _ => false
  | _, .nan => false
  | .negInf, _ => true
  | .fin _, .negInf => false
  | .fin a, .fin b => decide (a ≤ b)
  | .fin _, .posInf => true
  | .posInf, .posInf => true
  | .posInf, _ => false

/-- The constant `0` as a `float32`. -/
def float32.zero : float32 := .fin 0

/-- The constant `1` as a `float32`. -/
def float32.one : float32 := .fin (2 ^ 149 : Nat)

/-- The result of a sampling call on the stream `draws` read from position `pos`: the
value returned and the position after the call, a panic at a position, or a loop that
is still running when the fuel is used up. -/
inductive Sample where
  | value (v : Int) (pos : Nat)
  | panic (pos : Nat)
  | running
  deriving DecidableEq, Repr

/-- The struct `Binomial`. -/
structure Binomial where
  N : Int
  P : float32

/-- The loop of `Binomial.FakeSampleInt` with the iterations still to run, `res` and
the position in the stream; `draws pos` is the value of the call `rand.Float32()`. -/
def Binomial.loop (b : Binomial) (draws : Nat → float32) : Nat → Int → Nat → Int × Nat
  | 0, res, pos => (res, pos)
  | k + 1, res, pos =>
    if (draws pos).lt b.P then Binomial.loop b draws k (res + 1) (pos + 1)
    else Binomial.loop b draws k res (pos + 1)

/-- The method `Binomial.FakeSampleInt`: the value returned and the position in the
stream after the call. -/
def Binomial.FakeSampleInt (b : Binomial) (draws : Nat → float32) (pos : Nat) : Int × Nat :=
  if b.P.le float32.zero then (0, pos)
  else if float32.one.le b.P then (b.N, pos)
  else Binomial.loop b draws b.N.toNat 0 pos

/-- The struct `NegBinomial`. -/
structure NegBinomial where
  R : Int
  P : float32

/-- The loop `for successes < d.R` of `NegBinomial.FakeSampleInt`; each test of the
loop condition uses one unit of fuel. -/
def NegBinomial.loop (d : NegBinomial) (draws : Nat → float32) :
    Nat → Int → Int → Nat → Sample
  | 0, _, _, _ => .running
  | fuel + 1, fails, successes, pos =>
    if successes < d.R then
      if (draws pos).lt d.P then NegBinomial.loop d draws fuel fails (successes + 1) (pos + 1)
      else NegBinomial.loop d draws fuel (fails + 1) successes (pos + 1)
    else .value fails pos

/-- The method `NegBinomial.FakeSampleInt`. -/
def NegBinomial.FakeSampleInt (d : NegBinomial) (draws : Nat → float32) (pos : Nat)
    (fuel : Nat) : Sample :=
  if d.P.le float32.zero then .panic pos
  else if float32.one.le d.P then .value 0 pos
  else NegBinomial.loop d draws fuel 0 0 pos

/-- The struct `Geometric`. -/
structure Geometric where
  P : float32

/-- The loop `for rand.Float32() < d.P { i++ }` of `Geometric.FakeSampleInt`; each
test of the loop condition draws once and uses one unit of fuel. -/
def Geometric.loop (d : Geometric) (draws : Nat → float32) : Nat → Int → Nat → Sample
  | 0, _, _ => .running
  | fuel + 1, i, pos =>
    if (draws pos).lt d.P then Geometric.loop d draws fuel (i + 1) (pos + 1)
    else .value i (pos + 1)

/-- The method `Geometric.FakeSampleInt`. -/
def Geometric.FakeSampleInt (d : Geometric) (draws : Nat → float32) (pos : Nat)
    (fuel : Nat) : Sample :=
  if d.P.le float32.zero then .panic pos
  else if float32.one.le d.P then .value 0 pos
  else Geometric.loop d draws fuel 0 pos

/-- The struct `GeometricMax`. -/
structure GeometricMax where
  P : float32
  Max : Int

/-- The loop of `GeometricMax.FakeSampleInt` with the iterations still to run, `i`
and the position in the stream. -/
def GeometricMax.loop (d : GeometricMax) (draws : Nat → float32) : Nat → Int → Nat → Int × Nat
  | 0, _, pos => (d.Max, pos)
  | k + 1, i, pos =>
    if (draws pos).lt d.P then (i, pos + 1)
    else GeometricMax.loop d draws k (i + 1) (pos + 1)

/-- The method `GeometricMax.FakeSampleInt`: the value returned and the position in
the stream after the call. -/
def GeometricMax.FakeSampleInt (d : GeometricMax) (draws : Nat → float32) (pos : Nat) :
    Int × Nat :=
  if d.P.le float32.zero then (d.Max, pos)
  else if float32.one.le d.P then (0, pos)
  else GeometricMax.loop d draws d.Max.toNat 0 pos

/-- The value one half. -/
def half : float32 := .fin (2 ^ 148 : Nat)

/-- A stream whose first draw is three quarters and whose later draws are one
quarter. -/
def highThenLow : Nat → float32 :=
  fun i => if i = 0 then .fin (3 * 2 ^ 147 : Nat) else .fin (2 ^ 147 : Nat)

end Distributions

namespace PsqlSeed

/-! ## `seed/rand.go` -/

/-- The struct `randSeeder`; `impl` receives the faker and the world in which the
transaction runs. -/
structure randSeeder (W : Type) where
  name : Name
  seedOffset : Nat
  impl : Fake.Faker → W → W × Option Error

/-- The function `RandFnSeeder`; `[]byte(name)` is the name itself. -/
def RandFnSeeder {W : Type} (name : Name) (impl : Fake.Faker → W → W × Option Error) :
    randSeeder W :=
  let hash := Fake.fnvNew64
  let hash := Fake.fnvWrite hash name
  let seedOffset := Fake.fnvSum64 hash
  { name := name, seedOffset := seedOffset, impl := impl }

/-- The method `randSeeder.RunSeederTx`. -/
def randSeeder.RunSeederTx {W : Type} (v : randSeeder W) (seed : Nat) (w : W) :
    W × Option Error :=
  v.impl (Fake.Seed.NewFakerOffset seed v.seedOffset) w

/-- A `randSeeder` as a value of the interface `Seeder`: `Prepare` does nothing. -/
def randSeeder.toSeeder {W : Type} (v : randSeeder W) : Seeder W :=
  { Name := v.name, Prepare := fun _ w => w, RunSeederTx := v.RunSeederTx }

end PsqlSeed


namespace PsqlSeed

/-! ## More connections, `Runner.SeedersNamed` and the closure of `Sort` -/

/-- A connection on which every `Rollback` fails and the other calls succeed. -/
def rollbackFails : Conn Nat :=
  { BeginTx := fun w => (w, none), Commit := fun w => (w + 1, none),
    Rollback := fun w => (w, some (.raw "rollback failed")) }

/-- A connection on which every `BeginTx` fails. -/
def beginFails : Conn Nat :=
  { BeginTx := fun w => (w, some (.raw "begin failed")), Commit := fun w => (w + 1, none),
    Rollback := fun w => (w, none) }

/-- The method `Runner.SeedersNamed`: the slice of the store it installs as the
repository of the runner, whatever the error is, and the error it returns. -/
def Runner.SeedersNamed {W : Type} (r : Runner W) (seederNames : List Name) :
    List (Option (Seeder W)) × Option RepositoryError :=
  let res := Repository.SubStore r.Repository seederNames
  (res.1, res.2)

/-- The closure `less` that `Sort` hands to `sort.Slice`, on a slice that may hold nil
entries: `s[i].Name() < s[j].Name()`. The method call on a nil entry panics
(`none`), as does an index out of range. -/
def Repository.less {W : Type} (s : List (Option (Seeder W))) (i j : Nat) : Option Bool :=
  match s.get? i with
  | some (some a) =>
    match s.get? j with
    | some (some b) => some (decide (a.Name < b.Name))
    | _ => none
  | _ => none

end PsqlSeed

namespace Db

/-! ## A cache advanced and then set to the value it holds -/

/-- A run on the database `w`: load a cache for the sequence of `w`, call `Next`, call
`SetLast` with the value the cache holds, `Sync`, and call `Next` again. The result is
the value of the first `Next`, the dirty flag after it, the dirty flag after `SetLast`,
the calls made by `Sync`, the value of the second `Next` and the database afterwards;
`none` when a step panics. -/
def setLastSameRun (w : PgSequence) :
    Option (Int × Bool × Bool × List (DbEvent Unit Unit) × Int × PgSequence) :=
  match NewSequence (pgTx Unit Unit) [w.schema, w.name] w with
  | none => none
  | some c1 =>
    match c1.seq.Next with
    | none => none
    | some (v1, seq1) =>
      let seq2 := (seq1.SetLast seq1.lastValue).1
      match seq2.Sync (pgTx Unit Unit) c1.world with
      | none => none
      | some c2 =>
        match c2.seq.Next with
        | none => none
        | some (v2, _) => some (v1, seq1.dirty, seq2.dirty, c2.trace, v2, c2.world)

end Db

namespace Fake

/-! ## `seed/fake/distributions.go` -/

/-- The interface `DiscreteDistribution`: the method `FakeSampleInt` on a stream read
from a position, with the fuel for its loop. -/
structure DiscreteDistribution where
  FakeSampleInt : (Nat → Distributions.float32) → Nat → Nat → Distributions.Sample

/-- The type `ConstInt` as a `DiscreteDistribution`: it returns its value without
drawing. -/
def ConstInt (d : Int) : DiscreteDistribution :=
  { FakeSampleInt := fun _ pos _ => .value d pos }

/-- The struct `Geometric` as a `DiscreteDistribution`. -/
def GeometricDistribution (d : Distributions.Geometric) : DiscreteDistribution :=
  { FakeSampleInt := fun draws pos fuel => d.FakeSampleInt draws pos fuel }

/-- The struct `Binomial` as a `DiscreteDistribution`. -/
def BinomialDistribution (b : Distributions.Binomial) : DiscreteDistribution :=
  { FakeSampleInt := fun draws pos _ =>
      .value (b.FakeSampleInt draws pos).1 (b.FakeSampleInt draws pos).2 }

/-- The result of `SampleIntN`: the slice returned and the position in the stream, a
panic at a position, or a sampling loop that is still running when the fuel is used
up. -/
inductive Samples where
  | values (res : List Int) (pos : Nat)
  | panic (pos : Nat)
  | running
  deriving DecidableEq, Repr

/-- The assignment `res[i] = v`; an index out of range panics. -/
def assign (res : List Int) (i : Nat) (v : Int) : Option (List Int) :=
  if i < res.length then some (res.set i v) else none

/-- The loop of `SampleIntN` with the iterations still to run, `res` and the position
in the stream; every iteration executes `res[count] = distribution.FakeSampleInt(rand)`. -/
def sampleLoop (distribution : DiscreteDistribution) (draws : Nat → Distributions.float32)
    (fuel : Nat) (count : Nat) : Nat → List Int → Nat → Samples
  | 0, res, pos => .values res pos
  | k + 1, res, pos =>
    match distribution.FakeSampleInt draws pos fuel with
    | .running => .running
    | .panic p => .panic p
    | .value v p =>
      match assign res count v with
      | none => .panic p
      | some res2 => sampleLoop distribution draws fuel count k res2 p

/-- The method `Faker.SampleIntN` on the stream `draws` that `f.NewRand()` returns;
`make([]int, count)` panics on a negative length. -/
def SampleIntN (distribution : DiscreteDistribution) (count : Int)
    (draws : Nat → Distributions.float32) (pos : Nat) (fuel : Nat) : Samples :=
  if count < 0 then .panic pos
  else sampleLoop distribution draws fuel count.toNat count.toNat
    (List.replicate count.toNat 0) pos

/-! ## `UniqueIndices` on a stream that records its calls -/

/-- A call of one of the two `gofakeit` methods. -/
inductive FakerCall where
  | IntN (n : Int)
  | ShuffleInts (a : List Int)
  deriving DecidableEq, Repr

/-- A stream whose state is the list of the calls made so far: `IntN` returns `0` and
`ShuffleInts` leaves the slice as it is. -/
def recordingFaker : Gofakeit (List FakerCall) where
  IntN := fun n r => (0, r ++ [.IntN n])
  ShuffleInts := fun l r => (l, r ++ [.ShuffleInts l])
  IntN_range := fun _ _ h => ⟨le_refl _, h⟩
  ShuffleInts_perm := fun l _ => List.Perm.refl l

/-! ## `seed/fake/copy_from.go`

The generator is called with the faker reseeded to `(seed, idx)` and with `idx`, so
its result is a function of `idx`. A row is a list of values of type `V`. -/

/-- The struct `copyFromFakerSourceConcat` without its `faker` and `seed` fields. -/
structure copyFromFakerSourceConcat (V : Type) where
  gen : Int → List (List V) × Option String
  rows : List (List V)
  idx : Int
  j : Int
  len : Int
  err : Option String

/-- The loop of `Next`, one unit of fuel for each test of the loop condition. -/
def copyFromFakerSourceConcat.nextLoop {V : Type} :
    Nat → copyFromFakerSourceConcat V → Bool × copyFromFakerSourceConcat V
  | 0, cts => (false, cts)
  | fuel + 1, cts =>
    if cts.idx < cts.len then
      let cts1 := { cts with j := cts.j + 1 }
      if cts1.j < cts1.rows.length then (true, cts1)
      else
        let cts2 := { cts1 with idx := cts1.idx + 1 }
        if cts2.idx ≥ cts2.len then (false, cts2)
        else
          let g := cts2.gen cts2.idx
          copyFromFakerSourceConcat.nextLoop fuel { cts2 with j := -1, rows := g.1, err := g.2 }
    else (false, cts)

/-- The method `Next`. Every pass through the loop that does not return advances
`idx`, so `len - idx` passes and one more test are enough. -/
def copyFromFakerSourceConcat.Next {V : Type} (cts : copyFromFakerSourceConcat V) :
    Bool × copyFromFakerSourceConcat V :=
  copyFromFakerSourceConcat.nextLoop ((cts.len - cts.idx).toNat + 1) cts

/-- The method `Values`; `none` when `cts.rows[cts.j]` is out of range. -/
def copyFromFakerSourceConcat.Values {V : Type} (cts : copyFromFakerSourceConcat V) :
    Option (List V × Option String) :=
  if cts.j < 0 then none
  else (cts.rows.get? cts.j.toNat).map (fun values => (values, cts.err))

/-- The method `Err`. -/
def copyFromFakerSourceConcat.Err {V : Type} (cts : copyFromFakerSourceConcat V) :
    Option String :=
  cts.err

/-- The method `Faker.CopyFromSourceConcat`. -/
def CopyFromSourceConcat {V : Type} (count : Int) (gen : Int → List (List V) × Option String) :
    copyFromFakerSourceConcat V :=
  { gen := gen, rows := [], idx := -1, j := -1, len := count, err := none }

/-- A generator that fails without rows at index `0` and returns one row at every
other index. -/
def failsAtZero : Int → List (List Nat) × Option String :=
  fun idx => if idx = 0 then ([], some "generator failed") else ([[idx.toNat]], none)

end Fake

namespace PsqlMigrate

/-! ## `migrate/action.go`

`RunUsing` asks the runner for the version of the database and ends with at most one
call of `UpTo` or `DownTo` on the runner, whose result it returns. -/

/-- The type `AllowedDirection`, a `uint8`. -/
abbrev AllowedDirection := Nat

/-- The constant `ALLOW_NONE`. -/
def ALLOW_NONE : AllowedDirection := 0

/-- The constant `ALLOW_UP`. -/
def ALLOW_UP : AllowedDirection := 1

/-- The constant `ALLOW_DOWN`. -/
def ALLOW_DOWN : AllowedDirection := 2

/-- The constant `ALLOW_BOTH`. -/
def ALLOW_BOTH : AllowedDirection := 3

/-- The struct `migrateTo`. -/
structure migrateTo where
  AllowedDirection : Nat
  Version : Int
  deriving DecidableEq, Repr

/-- The function `MigrateToActionWithAllow`. -/
def MigrateToActionWithAllow (version : Int) (allowedDirection : AllowedDirection) : migrateTo :=
  { AllowedDirection := allowedDirection, Version := version }

/-- The function `MigrateToAction`. -/
def MigrateToAction (version : Int) : migrateTo :=
  { AllowedDirection := ALLOW_BOTH, Version := version }

/-- The function `UpToAction`. -/
def UpToAction (version : Int) : migrateTo :=
  { AllowedDirection := ALLOW_UP, Version := version }

/-- The function `DownToAction`. -/
def DownToAction (version : Int) : migrateTo :=
  { AllowedDirection := ALLOW_DOWN, Version := version }

/-- The errors `RunUsing` returns: the error of `GetDBVersion`, or one of its three
`fmt.Errorf` calls with their arguments (current version, target version). -/
inductive MigrateError where
  | getDBVersion (msg : String)
  | doNotMatch (current : Int) (target : Int)
  | couldNotMigrateUp (current : Int) (target : Int)
  | couldNotMigrateDown (current : Int) (target : Int)
  deriving DecidableEq, Repr

/-- How `migrateTo.RunUsing` ends: with an error and no call on the runner, with
`nil, nil` and no call, with the call `runner.UpTo(ctx, version)` or
`runner.DownTo(ctx, version)`, or with a panic. -/
inductive Outcome where
  | error (err : MigrateError)
  | nothing
  | UpTo (version : Int)
  | DownTo (version : Int)
  | panic
  deriving DecidableEq, Repr

/-- The method `migrateTo.RunUsing`, given what `runner.GetDBVersion` returns. -/
def migrateTo.RunUsing (m : migrateTo) (dbVersion : String ⊕ Int) : Outcome :=
  match dbVersion with
  | .inl err => .error (.getDBVersion err)
  | .inr version =>
    if version = m.Version then .nothing
    else if m.AllowedDirection = ALLOW_NONE then .error (.doNotMatch version m.Version)
    else if m.AllowedDirection = ALLOW_UP then
      if version > m.Version then .error (.couldNotMigrateUp version m.Version)
      else .UpTo version
    else if m.AllowedDirection = ALLOW_DOWN then
      if version < m.Version then .error (.couldNotMigrateDown version m.Version)
      else .DownTo version
    else if m.AllowedDirection = ALLOW_BOTH then
      if version < m.Version then .DownTo version else .UpTo version
    else .panic

end PsqlMigrate


namespace Db

/-! ## A transaction block that a failed command aborts -/

/-- A transaction block on a database that holds one sequence: the sequence, and
whether a command of the block has failed. -/
structure PgTxState where
  db : PgSequence
  aborted : Bool
  deriving DecidableEq, Repr

/-- The error PostgreSQL returns for every command of an aborted transaction block. -/
def errAborted : Error :=
  .raw "current transaction is aborted, commands ignored until end of transaction block"

/-- The error of a bulk copy that the database rejects. -/
def errCopy : Error := .raw "copy failed"

/-- A transaction block in which the bulk copy is rejected, following the documented
behaviour of PostgreSQL: a command that fails aborts the block, and every later
command of the block is rejected without effect. Until then `setval` and the catalog
query behave as in `pgTx`; a catalog query that finds no row is not a failed
command. -/
def failingCopyTx (I A : Type) : Tx PgTxState I A where
  ExecSetval := fun seq value called w =>
    if w.aborted then (w, some errAborted)
    else
      let r := (pgTx I A).ExecSetval seq value called w.db
      ({ db := r.1, aborted := r.2.isSome }, r.2)
  QueryRowSequence := fun schemaClause args w =>
    if w.aborted then (w, .inl errAborted)
    else (w, ((pgTx I A).QueryRowSequence schemaClause args w.db).2)
  QueryRowMaxRgt := fun _ _ _ w =>
    if w.aborted then (w, .inl errAborted) else (w, .inr 0)
  CopyFrom := fun _ _ _ w =>
    if w.aborted then (w, some errAborted) else ({ w with aborted := true }, some errCopy)

/-- The bulk load of `parentChild` with identifiers from the sequence `public.ids`, in
a transaction block whose bulk copy is rejected. -/
def failedCopyInsert : Option (CopyResult Sequence PgTxState Int Nat) :=
  InsertNestedSetInt64 (failingCopyTx Int Nat) (fun _ => Cell.null) ["public", "ids"] treeOpts
    ["label"] ((NewNestedSet (List Nat)).Append [parentChild])
    { db := freshIds, aborted := false }

end Db

namespace GoSort

/-! ## `sort.Slice` of the Go standard library

`sort.Slice` (Go 1.19 and later; the module needs Go 1.22 for `math/rand/v2`) runs the
pattern-defeating quicksort of `sort/zsortfunc.go` on the slice. `data` is the slice
and `less` compares two of its elements; `Less` and `Swap` are the two operations of
`lessSwap`. The functions below use indices within the slice only. -/

/-- The operation `data.Less(i, j)`. -/
def Less {α : Type} (less : α → α → Bool) (data : List α) (i j : Nat) : Bool :=
  match data.get? i, data.get? j with
  | some x, some y => less x y
  | _, _ => false

/-- The operation `data.Swap(i, j)`. -/
def Swap {α : Type} (data : List α) (i j : Nat) : List α :=
  match data.get? i, data.get? j with
  | some x, some y => (data.set i y).set j x
  | _, _ => data

/-- The inner loop of `insertionSort_func`:
`for j := i; j > a && data.Less(j, j-1); j-- { data.Swap(j, j-1) }`. -/
def insertionSortInner {α : Type} (less : α → α → Bool) (a : Nat) : Nat → List α → List α
  | 0, data => data
  | j + 1, data =>
    if j + 1 > a && Less less data (j + 1) j then
      insertionSortInner less a j (Swap data (j + 1) j)
    else data

/-- The outer loop of `insertionSort_func`, `for i := a + 1; i < b; i++`, with the
number of iterations still to run. -/
def insertionSortOuter {α : Type} (less : α → α → Bool) (a : Nat) :
    Nat → Nat → List α → List α
  | 0, _, data => data
  | n + 1, i, data => insertionSortOuter less a n (i + 1) (insertionSortInner less a i data)

/-- The function `insertionSort_func`: insertion sort of `data[a:b]`. -/
def insertionSort_func {α : Type} (less : α → α → Bool) (data : List α) (a b : Nat) : List α :=
  insertionSortOuter less a (b - (a + 1)) (a + 1) data

/-- The loop of `siftDown_func`; `root` grows in every pass and stays below `hi`, so
`hi` passes are enough. -/
def siftDownLoop {α : Type} (less : α → α → Bool) (hi first : Nat) :
    Nat → Nat → List α → List α
  | 0, _, data => data
  | fuel + 1, root, data =>
    if 2 * root + 1 ≥ hi then data
    else
      let child :=
        if 2 * root + 1 + 1 < hi && Less less data (first + (2 * root + 1)) (first + (2 * root + 1) + 1)
        then 2 * root + 1 + 1 else 2 * root + 1
      if !Less less data (first + root) (first + child) then data
      else siftDownLoop less hi first fuel child (Swap data (first + root) (first + child))

/-- The function `siftDown_func`. -/
def siftDown_func {α : Type} (less : α → α → Bool) (data : List α) (lo hi first : Nat) :
    List α :=
  siftDownLoop less hi first hi lo data

/-- The first loop of `heapSort_func`: `for i := (hi - 1) / 2; i >= 0; i--`. -/
def heapSortBuild {α : Type} (less : α → α → Bool) (hi first : Nat) : Nat → List α → List α
  | 0, data => siftDown_func less data 0 hi first
  | i + 1, data => heapSortBuild less hi first i (siftDown_func less data (i + 1) hi first)

/-- The second loop of `heapSort_func`: `for i := hi - 1; i >= 0; i--`, with the
number of iterations still to run (`i` is one less). -/
def heapSortPop {α : Type} (less : α → α → Bool) (first : Nat) : Nat → List α → List α
  | 0, data => data
  | i + 1, data =>
    heapSortPop less first i (siftDown_func less (Swap data first (first + i)) 0 i first)

/-- The function `heapSort_func`. -/
def heapSort_func {α : Type} (less : α → α → Bool) (data : List α) (a b : Nat) : List α :=
  heapSortPop less a (b - a) (heapSortBuild less (b - a) a ((b - a - 1) / 2) data)

/-- The method `Next` of `xorshift`, on a `uint64`. -/
def xorshiftNext (r : Nat) : Nat :=
  let r1 := r ^^^ (r <<< 13 % 2 ^ 64)
  let r2 := r1 ^^^ (r1 >>> 7)
  r2 ^^^ (r2 <<< 17 % 2 ^ 64)

/-- The bits of a number, `bits.Len`, with the halvings still allowed. -/
def bitsLenLoop : Nat → Nat → Nat
  | 0, _ => 0
  | fuel + 1, x => if x = 0 then 0 else bitsLenLoop fuel (x / 2) + 1

/-- The function `bits.Len` on the length of a slice. -/
def bitsLen (x : Nat) : Nat := bitsLenLoop 64 x

/-- The function `nextPowerOfTwo`. -/
def nextPowerOfTwo (length : Nat) : Nat := 1 <<< bitsLen length

/-- The loop of `breakPatterns_func`, `for i := 0; i < 3; i++`, with the iterations
still to run. -/
def breakPatternsLoop {α : Type} (a length modulus idx : Nat) :
    Nat → Nat → Nat → List α → List α
  | 0, _, _, data => data
  | n + 1, i, random, data =>
    let random1 := xorshiftNext random
    let other := random1 &&& (modulus - 1)
    let other1 := if other ≥ length then other - length else other
    breakPatternsLoop a length modulus idx n (i + 1) random1 (Swap data (idx - 1 + i) (a + other1))

/-- The function `breakPatterns_func`. -/
def breakPatterns_func {α : Type} (data : List α) (a b : Nat) : List α :=
  if b - a ≥ 8 then
    breakPatternsLoop a (b - a) (nextPowerOfTwo (b - a)) (a + (b - a) / 4 * 2 - 1) 3 0 (b - a) data
  else data

/-- The type `sortedHint`. -/
inductive sortedHint where
  | unknownHint
  | increasingHint
  | decreasingHint
  deriving DecidableEq, Repr

/-- The function `order2_func`: the two indices in order and the count of swaps. -/
def order2_func {α : Type} (less : α → α → Bool) (data : List α) (a b swaps : Nat) :
    Nat × Nat × Nat :=
  if Less less data b a then (b, a, swaps + 1) else (a, b, swaps)

/-- The function `median_func`: the index of the median and the count of swaps. -/
def median_func {α : Type} (less : α → α → Bool) (data : List α) (a b c swaps : Nat) :
    Nat × Nat :=
  let r1 := order2_func less data a b swaps
  let r2 := order2_func less data r1.2.1 c r1.2.2
  let r3 := order2_func less data r1.1 r2.1 r2.2.2
  (r3.2.1, r3.2.2)

/-- The function `medianAdjacent_func`. -/
def medianAdjacent_func {α : Type} (less : α → α → Bool) (data : List α) (a swaps : Nat) :
    Nat × Nat :=
  median_func less data (a - 1) a (a + 1) swaps

/-- The function `choosePivot_func`. -/
def choosePivot_func {α : Type} (less : α → α → Bool) (data : List α) (a b : Nat) :
    Nat × sortedHint :=
  let l := b - a
  let i := a + l / 4 * 1
  let j := a + l / 4 * 2
  let k := a + l / 4 * 3
  let r :=
    if l ≥ 8 then
      if l ≥ 50 then
        let ri := medianAdjacent_func less data i 0
        let rj := medianAdjacent_func less data j ri.2
        let rk := medianAdjacent_func less data k rj.2
        median_func less data ri.1 rj.1 rk.1 rk.2
      else median_func less data i j k 0
    else (j, 0)
  if r.2 = 0 then (r.1, .increasingHint)
  else if r.2 = 12 then (r.1, .decreasingHint)
  else (r.1, .unknownHint)

/-- The loop of `reverseRange_func`, `for i < j`, which runs fewer than `b - a`
times. -/
def reverseRangeLoop {α : Type} : Nat → Nat → Nat → List α → List α
  | 0, _, _, data => data
  | fuel + 1, i, j, data =>
    if i < j then reverseRangeLoop fuel (i + 1) (j - 1) (Swap data i j) else data

/-- The function `reverseRange_func`. -/
def reverseRange_func {α : Type} (data : List α) (a b : Nat) : List α :=
  reverseRangeLoop (b - a) a (b - 1) data

/-- The loop `for i < b && !data.Less(i, i-1) { i++ }`, with `b - i`. -/
def skipSorted {α : Type} (less : α → α → Bool) (data : List α) : Nat → Nat → Nat
  | 0, i => i
  | n + 1, i => if !Less less data i (i - 1) then skipSorted less data n (i + 1) else i

/-- The loop `for j := i - 1; j >= 1; j--` of `partialInsertionSort_func`. -/
def shiftSmaller {α : Type} (less : α → α → Bool) : Nat → List α → List α
  | 0, data => data
  | j + 1, data =>
    if !Less less data (j + 1) j then data else shiftSmaller less j (Swap data (j + 1) j)

/-- The loop `for j := i + 1; j < b; j++` of `partialInsertionSort_func`, with
`b - j`. -/
def shiftGreater {α : Type} (less : α → α → Bool) : Nat → Nat → List α → List α
  | 0, _, data => data
  | n + 1, j, data =>
    if !Less less data j (j - 1) then data else shiftGreater less n (j + 1) (Swap data j (j - 1))

/-- The loop `for j := 0; j < maxSteps; j++` of `partialInsertionSort_func`, with the
steps still to run and `i`. -/
def partialInsertionSortLoop {α : Type} (less : α → α → Bool) (a b : Nat) :
    Nat → Nat → List α → List α × Bool
  | 0, _, data => (data, false)
  | n + 1, i, data =>
    let i1 := skipSorted less data (b - i) i
    if i1 = b then (data, true)
    else if b - a < 50 then (data, false)
    else
      let data1 := Swap data i1 (i1 - 1)
      let data2 := if i1 - a ≥ 2 then shiftSmaller less (i1 - 1) data1 else data1
      let data3 := if b - i1 ≥ 2 then shiftGreater less (b - (i1 + 1)) (i1 + 1) data2 else data2
      partialInsertionSortLoop less a b n i1 data3

/-- The function `partialInsertionSort_func`: the slice and whether it is sorted. -/
def partialInsertionSort_func {α : Type} (less : α → α → Bool) (data : List α) (a b : Nat) :
    List α × Bool :=
  partialInsertionSortLoop less a b 5 (a + 1) data

/-- The loop `for i <= j && data.Less(i, a) { i++ }`, with `j + 1 - i`. -/
def scanLess {α : Type} (less : α → α → Bool) (data : List α) (a : Nat) : Nat → Nat → Nat
  | 0, i => i
  | n + 1, i => if Less less data i a then scanLess less data a n (i + 1) else i

/-- The loop `for i <= j && !data.Less(j, a) { j-- }`, with `j + 1 - i`. -/
def scanNotLess {α : Type} (less : α → α → Bool) (data : List α) (a : Nat) : Nat → Nat → Nat
  | 0, j => j
  | n + 1, j => if !Less less data j a then scanNotLess less data a n (j - 1) else j

/-- The loop `for { ... }` of `partition_func`: the slice, `i` and `j` at the `break`.
Every pass that does not break moves `i` up and `j` down, so `b` passes are enough. -/
def partitionLoop {α : Type} (less : α → α → Bool) (a : Nat) :
    Nat → List α → Nat → Nat → List α × Nat × Nat
  | 0, data, i, j => (data, i, j)
  | fuel + 1, data, i, j =>
    let i1 := scanLess less data a (j + 1 - i) i
    let j1 := scanNotLess less data a (j + 1 - i1) j
    if i1 > j1 then (data, i1, j1)
    else partitionLoop less a fuel (Swap data i1 j1) (i1 + 1) (j1 - 1)

/-- The function `partition_func`: the slice, `newpivot` and `alreadyPartitioned`. -/
def partition_func {α : Type} (less : α → α → Bool) (data : List α) (a b pivot : Nat) :
    List α × Nat × Bool :=
  let data1 := Swap data a pivot
  let i := scanLess less data1 a (b - 1 + 1 - (a + 1)) (a + 1)
  let j := scanNotLess less data1 a (b - 1 + 1 - i) (b - 1)
  if i > j then (Swap data1 j a, j, true)
  else
    let r := partitionLoop less a b (Swap data1 i j) (i + 1) (j - 1)
    (Swap r.1 r.2.2 a, r.2.2, false)

/-- The loop `for i <= j && !data.Less(a, i) { i++ }`, with `j + 1 - i`. -/
def scanEqual {α : Type} (less : α → α → Bool) (data : List α) (a : Nat) : Nat → Nat → Nat
  | 0, i => i
  | n + 1, i => if !Less less data a i then scanEqual less data a n (i + 1) else i

/-- The loop `for i <= j && data.Less(a, j) { j-- }`, with `j + 1 - i`. -/
def scanGreater {α : Type} (less : α → α → Bool) (data : List α) (a : Nat) : Nat → Nat → Nat
  | 0, j => j
  | n + 1, j => if Less less data a j then scanGreater less data a n (j - 1) else j

/-- The loop `for { ... }` of `partitionEqual_func`: the slice and `i` at the
`break`. -/
def partitionEqualLoop {α : Type} (less : α → α → Bool) (a : Nat) :
    Nat → List α → Nat → Nat → List α × Nat
  | 0, data, i, _ => (data, i)
  | fuel + 1, data, i, j =>
    let i1 := scanEqual less data a (j + 1 - i) i
    let j1 := scanGreater less data a (j + 1 - i1) j
    if i1 > j1 then (data, i1)
    else partitionEqualLoop less a fuel (Swap data i1 j1) (i1 + 1) (j1 - 1)

/-- The function `partitionEqual_func`: the slice and `newpivot`. -/
def partitionEqual_func {α : Type} (less : α → α → Bool) (data : List α) (a b pivot : Nat) :
    List α × Nat :=
  partitionEqualLoop less a b (Swap data a pivot) (a + 1) (b - 1)

/-- The function `pdqsort_func`. `wasBalanced` and `wasPartitioned` are its two loop
variables, true on entry. Every pass of its loop that does not return narrows
`data[a:b]`, and a nested call sorts a narrower part, so `b - a + 1` units of fuel are
enough; `none` when the fuel is used up. -/
def pdqsort_func {α : Type} (less : α → α → Bool) :
    Nat → List α → Nat → Nat → Nat → Bool → Bool → Option (List α)
  | 0, _, _, _, _, _, _ => none
  | fuel + 1, data, a, b, limit, wasBalanced, wasPartitioned =>
    if b - a ≤ 12 then some (insertionSort_func less data a b)
    else if limit = 0 then some (heapSort_func less data a b)
    else
      let data1 := if !wasBalanced then breakPatterns_func data a b else data
      let limit1 := if !wasBalanced then limit - 1 else limit
      let c := choosePivot_func less data1 a b
      let data2 := if c.2 = .decreasingHint then reverseRange_func data1 a b else data1
      let pivot := if c.2 = .decreasingHint then (b - 1) - (c.1 - a) else c.1
      let hint := if c.2 = .decreasingHint then sortedHint.increasingHint else c.2
      let p :=
        if wasBalanced && wasPartitioned && hint = .increasingHint then
          partialInsertionSort_func less data2 a b
        else (data2, false)
      if p.2 then some p.1
      else if a > 0 && !Less less p.1 (a - 1) pivot then
        let e := partitionEqual_func less p.1 a b pivot
        pdqsort_func less fuel e.1 e.2 b limit1 wasBalanced wasPartitioned
      else
        let q := partition_func less p.1 a b pivot
        let mid := q.2.1
        if mid - a < b - mid then
          match pdqsort_func less fuel q.1 a mid limit1 true true with
          | none => none
          | some data3 =>
            pdqsort_func less fuel data3 (mid + 1) b limit1
              (decide (mid - a ≥ (b - a) / 8)) q.2.2
        else
          match pdqsort_func less fuel q.1 (mid + 1) b limit1 true true with
          | none => none
          | some data3 =>
            pdqsort_func less fuel data3 a mid limit1
              (decide (b - mid ≥ (b - a) / 8)) q.2.2

/-- The function `sort.Slice` with the comparison `less` of two elements:
`pdqsort_func(lessSwap, 0, length, bits.Len(uint(length)))`. -/
def Slice {α : Type} (less : α → α → Bool) (x : List α) : Option (List α) :=
  pdqsort_func less (x.length + 1) x 0 x.length (bitsLen x.length) true true

/-- Insertion of `x` into a list held in reverse: `x` passes the elements it is less
than and stops before the first element it is not less than. -/
def insRev {α : Type} (less : α → α → Bool) (x : α) : List α → List α
  | [] => [x]
  | y :: rest => if less x y then y :: insRev less x rest else x :: y :: rest

end GoSort

namespace PsqlSeed

/-! ## `Repository.Sort` on the sort of the Go standard library -/

/-- The method `Repository.Sort`: `sort.Slice` with
`less(i, j) = s[i].Name() < s[j].Name()`. -/
def Repository.Sort {W : Type} (seeders : List (Seeder W)) : Option (List (Seeder W)) :=
  GoSort.Slice (fun a b => decide (a.Name < b.Name)) seeders

/-- A unit whose `Prepare` leaves the tag `tag` as the world, to tell units of the same
name apart. -/
def taggedSeeder (name : String) (tag : Nat) : Seeder Nat :=
  { Name := nm name, Prepare := fun _ _ => tag, RunSeederTx := fun _ w => (w, none) }

/-- Thirteen units in registration order: twelve named `b` with the tags 1 to 12,
then one named `a` with the tag 13. -/
def thirteenSeeders : List (Seeder Nat) :=
  (List.range 12).map (fun k => taggedSeeder "b" (k + 1)) ++ [taggedSeeder "a" 13]

/-- Twelve units in registration order: `b`, `a`, `b`, `a`, ... with the tags 1 to
12. -/
def twelveSeeders : List (Seeder Nat) :=
  (List.range 12).map (fun k => taggedSeeder (if k % 2 = 0 then "b" else "a") (k + 1))

end PsqlSeed

namespace PsqlSeed

/-! ## Lemmas on `finishTx` and `runSeeder` -/

theorem finishTx_commit_ok {W : Type} (conn : Conn W) (s : Seeder W) (w : W)
    (hc : (conn.Commit w).2 = none) :
    finishTx conn s none w =
    { Status := .OK, Err := none, txerr := none,
      world := (conn.Commit w).1, trace := [.Commit s.Name none] } := by
  simp [finishTx, hc]

theorem finishTx_commit_failed {W : Type} (conn : Conn W) (s : Seeder W) (w : W) (t : Error)
    (hc : (conn.Commit w).2 = some t) :
    finishTx conn s none w =
    { Status := .TXERR, Err := some t, txerr := some (.commitFailed t),
      world := (conn.Commit w).1, trace := [.Commit s.Name (some t)] } := by
  simp [finishTx, hc]

theorem finishTx_rollback_ok {W : Type} (conn : Conn W) (s : Seeder W) (w : W) (e : Error)
    (hr : (conn.Rollback w).2 = none) :
    finishTx conn s (some e) w =
    { Status := .FAIL, Err := some e, txerr := none,
      world := (conn.Rollback w).1, trace := [.Rollback s.Name none] } := by
  simp [finishTx, hr]

theorem finishTx_rollback_failed {W : Type} (conn : Conn W) (s : Seeder W) (w : W) (e t : Error)
    (hr : (conn.Rollback w).2 = some t) :
    finishTx conn s (some e) w =
    { Status := .TXERR, Err := some e,
      txerr := some (.rollbackFailed t e),
      world := (conn.Rollback w).1, trace := [.Rollback s.Name (some t)] } := by
  simp [finishTx, hr]

theorem runSeeder_begin_failed {W : Type} (conn : Conn W) (r : Runner W) (s : Seeder W) (w : W)
    (t : Error) (hb : (conn.BeginTx w).2 = some t) :
    runSeeder conn r s w =
      { runner := { r with RunReports := r.RunReports ++
          [{ Seeder := s, Seed := r.Seed, Status := .TXERR, Err := none }] },
        world := (conn.BeginTx w).1,
        trace := [.BeginTx s.Name (some t)],
        err := some (.beginTxFailed t) } := by
  simp [runSeeder, hb]

theorem runSeeder_begin_ok {W : Type} (conn : Conn W) (r : Runner W) (s : Seeder W) (w : W)
    (hb : (conn.BeginTx w).2 = none) :
    runSeeder conn r s w =
      { runner := { r with RunReports := r.RunReports ++
          [{ Seeder := s, Seed := r.Seed,
             Status := (finishTx conn s (s.RunSeederTx r.Seed (conn.BeginTx w).1).2
               (s.RunSeederTx r.Seed (conn.BeginTx w).1).1).Status,
             Err := (finishTx conn s (s.RunSeederTx r.Seed (conn.BeginTx w).1).2
               (s.RunSeederTx r.Seed (conn.BeginTx w).1).1).Err }] },
        world := (finishTx conn s (s.RunSeederTx r.Seed (conn.BeginTx w).1).2
               (s.RunSeederTx r.Seed (conn.BeginTx w).1).1).world,
        trace := [.BeginTx s.Name none,
            .RunSeederTx s.Name (s.RunSeederTx r.Seed (conn.BeginTx w).1).2] ++
          (finishTx conn s (s.RunSeederTx r.Seed (conn.BeginTx w).1).2
               (s.RunSeederTx r.Seed (conn.BeginTx w).1).1).trace,
        err := if r.BailOnError && (finishTx conn s (s.RunSeederTx r.Seed (conn.BeginTx w).1).2
               (s.RunSeederTx r.Seed (conn.BeginTx w).1).1).Err.isSome
          then (s.RunSeederTx r.Seed (conn.BeginTx w).1).2
          else (finishTx conn s (s.RunSeederTx r.Seed (conn.BeginTx w).1).2
               (s.RunSeederTx r.Seed (conn.BeginTx w).1).1).txerr } := by
  simp [runSeeder, hb]

theorem finishTx_status_ne_running {W : Type} (conn : Conn W) (s : Seeder W)
    (err : Option Error) (w : W) : (finishTx conn s err w).Status ≠ .RUNNING := by
  cases err with
  | none =>
    cases hc : (conn.Commit w).2 with
    | none => simp [finishTx_commit_ok conn s w hc]
    | some t => simp [finishTx_commit_failed conn s w t hc]
  | some e =>
    cases hr : (conn.Rollback w).2 with
    | none => simp [finishTx_rollback_ok conn s w e hr]
    | some t => simp [finishTx_rollback_failed conn s w e t hr]

theorem finishTx_trace {W : Type} (conn : Conn W) (s : Seeder W) (err : Option Error) (w : W) :
    begun (finishTx conn s err w).trace = [] ∧ executed (finishTx conn s err w).trace = [] ∧
    ∀ e ∈ (finishTx conn s err w).trace, e.isPrepare = false := by
  cases err with
  | none =>
    cases hc : (conn.Commit w).2 with
    | none => simp [finishTx_commit_ok conn s w hc, begun, executed, Event.isPrepare]
    | some t => simp [finishTx_commit_failed conn s w t hc, begun, executed, Event.isPrepare]
  | some e =>
    cases hr : (conn.Rollback w).2 with
    | none => simp [finishTx_rollback_ok conn s w e hr, begun, executed, Event.isPrepare]
    | some t => simp [finishTx_rollback_failed conn s w e t hr, begun, executed, Event.isPrepare]

theorem runSeeder_report {W : Type} (conn : Conn W) (r : Runner W) (s : Seeder W) (w : W) :
    ∃ rep : RunReport W,
      (runSeeder conn r s w).runner = { r with RunReports := r.RunReports ++ [rep] } ∧
      rep.Seeder = s ∧ rep.Status ≠ .RUNNING := by
  cases hb : (conn.BeginTx w).2 with
  | some t =>
    rw [runSeeder_begin_failed conn r s w t hb]
    exact ⟨_, rfl, rfl, by simp⟩
  | none =>
    rw [runSeeder_begin_ok conn r s w hb]
    exact ⟨_, rfl, rfl, finishTx_status_ne_running _ _ _ _⟩

theorem runSeeder_trace {W : Type} (conn : Conn W) (r : Runner W) (s : Seeder W) (w : W) :
    begun (runSeeder conn r s w).trace = [s.Name] ∧
    ∀ e ∈ (runSeeder conn r s w).trace, e.isPrepare = false := by
  have hf := finishTx_trace conn s (s.RunSeederTx r.Seed (conn.BeginTx w).1).2
    (s.RunSeederTx r.Seed (conn.BeginTx w).1).1
  cases hb : (conn.BeginTx w).2 with
  | some t =>
    rw [runSeeder_begin_failed conn r s w t hb]
    simp [begun, Event.isPrepare]
  | none =>
    rw [runSeeder_begin_ok conn r s w hb]
    refine ⟨?_, ?_⟩
    · simp [begun, hf.1]
    · intro e he
      simp only [List.cons_append, List.nil_append, List.mem_cons] at he
      rcases he with h | h | h
      · subst h; rfl
      · subst h; rfl
      · exact hf.2.2 e h

theorem begun_append (a b : List Event) : begun (a ++ b) = begun a ++ begun b := by
  induction a with
  | nil => rfl
  | cons e es ih => cases e <;> simp [begun, ih]

theorem executed_append (a b : List Event) : executed (a ++ b) = executed a ++ executed b := by
  induction a with
  | nil => rfl
  | cons e es ih => cases e <;> simp [executed, ih]

theorem runSeeder_executed_good {W : Type} (conn : Conn W) (r : Runner W) (s : Seeder W) (w : W)
    (hbail : r.BailOnError = false)
    (hB : ∀ w, (conn.BeginTx w).2 = none) (hC : ∀ w, (conn.Commit w).2 = none)
    (hR : ∀ w, (conn.Rollback w).2 = none) :
    (runSeeder conn r s w).err = none ∧
    (runSeeder conn r s w).runner = { r with RunReports := r.RunReports ++
      [{ Seeder := s, Seed := r.Seed,
         Status := if (s.RunSeederTx r.Seed (conn.BeginTx w).1).2 = none then .OK else .FAIL,
         Err := (s.RunSeederTx r.Seed (conn.BeginTx w).1).2 }] } ∧
    executed (runSeeder conn r s w).trace =
      [(s.Name, (s.RunSeederTx r.Seed (conn.BeginTx w).1).2)] := by
  rw [runSeeder_begin_ok conn r s w (hB w)]
  have hf := finishTx_trace conn s (s.RunSeederTx r.Seed (conn.BeginTx w).1).2
    (s.RunSeederTx r.Seed (conn.BeginTx w).1).1
  cases hs : (s.RunSeederTx r.Seed (conn.BeginTx w).1).2 with
  | none =>
    rw [hs] at hf
    simp [finishTx_commit_ok conn s _ (hC _), hbail, executed]
  | some e =>
    rw [hs] at hf
    simp [finishTx_rollback_ok conn s _ e (hR _), hbail, executed]

theorem runSeeder_noBail {W : Type} (conn : Conn W) (r : Runner W) (s : Seeder W) (w : W)
    (hbail : r.BailOnError = false) :
    ∃ rep : RunReport W,
      (runSeeder conn r s w).runner = { r with RunReports := r.RunReports ++ [rep] } ∧
      rep.Seeder = s ∧
      (((runSeeder conn r s w).err = none ∧ (rep.Status = .OK ∨ rep.Status = .FAIL)) ∨
       (∃ t, (runSeeder conn r s w).err = some t ∧ t.isTransactionError = true ∧
          rep.Status = .TXERR)) := by
  cases hb : (conn.BeginTx w).2 with
  | some t =>
    rw [runSeeder_begin_failed conn r s w t hb]
    exact ⟨_, rfl, rfl, Or.inr ⟨_, rfl, rfl, rfl⟩⟩
  | none =>
    rw [runSeeder_begin_ok conn r s w hb]
    refine ⟨_, rfl, rfl, ?_⟩
    cases hs : (s.RunSeederTx r.Seed (conn.BeginTx w).1).2 with
    | none =>
      cases hc : (conn.Commit (s.RunSeederTx r.Seed (conn.BeginTx w).1).1).2 with
      | none => simp [finishTx_commit_ok conn s _ hc, hbail]
      | some t => simp [finishTx_commit_failed conn s _ t hc, hbail, Error.isTransactionError]
    | some e =>
      cases hr : (conn.Rollback (s.RunSeederTx r.Seed (conn.BeginTx w).1).1).2 with
      | none => simp [finishTx_rollback_ok conn s _ e hr, hbail]
      | some t => simp [finishTx_rollback_failed conn s _ e t hr, hbail, Error.isTransactionError]

/-! ## Lemmas on the loops of `Run` -/

theorem runAll_cons_err {W : Type} (conn : Conn W) (s : Seeder W) (rest : List (Seeder W))
    (r : Runner W) (w : W) (e : Error) (h : (runSeeder conn r s w).err = some e) :
    runAll conn (s :: rest) r w =
      { runSeeder conn r s w with err := some (.seederRun s.Name e) } := by
  simp [runAll, h]

theorem runAll_cons_ok {W : Type} (conn : Conn W) (s : Seeder W) (rest : List (Seeder W))
    (r : Runner W) (w : W) (h : (runSeeder conn r s w).err = none) :
    runAll conn (s :: rest) r w =
      { runAll conn rest (runSeeder conn r s w).runner (runSeeder conn r s w).world with
        trace := (runSeeder conn r s w).trace ++
          (runAll conn rest (runSeeder conn r s w).runner (runSeeder conn r s w).world).trace } := by
  simp [runAll, h]

theorem prepareAll_trace {W : Type} (seed : Nat) (seeders : List (Seeder W)) (w : W) :
    (prepareAll seed seeders w).2 = seeders.map (fun s => Event.Prepare s.Name) := by
  induction seeders generalizing w with
  | nil => rfl
  | cons s rest ih => simp [prepareAll, ih]

theorem runAll_reports {W : Type} (conn : Conn W) (seeders : List (Seeder W)) (r : Runner W)
    (w : W) :
    ∃ new : List (RunReport W),
      (runAll conn seeders r w).runner = { r with RunReports := r.RunReports ++ new } ∧
      new.map (fun rep => rep.Seeder.Name) = begun (runAll conn seeders r w).trace ∧
      new.map (fun rep => rep.Seeder) <+: seeders ∧
      (∀ rep ∈ new, rep.Status ≠ .RUNNING) ∧
      ((runAll conn seeders r w).err = none → new.map (fun rep => rep.Seeder) = seeders) ∧
      (∀ e ∈ (runAll conn seeders r w).trace, e.isPrepare = false) := by
  induction seeders generalizing r w with
  | nil => exact ⟨[], by simp [runAll], by simp [runAll, begun], by simp, by simp, by simp,
      by simp [runAll]⟩
  | cons s rest ih =>
    obtain ⟨rep, hrun, hseed, hstat⟩ := runSeeder_report conn r s w
    have htr := runSeeder_trace conn r s w
    cases he : (runSeeder conn r s w).err with
    | some e =>
      rw [runAll_cons_err conn s rest r w e he]
      refine ⟨[rep], hrun, ?_, ?_, ?_, ?_, htr.2⟩
      · simp [htr.1, hseed]
      · simp [hseed, List.prefix_cons_inj]
      · intro x hx
        rw [List.mem_singleton.1 hx]
        exact hstat
      · intro h
        simp at h
    | none =>
      rw [runAll_cons_ok conn s rest r w he]
      obtain ⟨new, h1, h2, h3, h4, h5, h6⟩ :=
        ih (runSeeder conn r s w).runner (runSeeder conn r s w).world
      refine ⟨rep :: new, ?_, ?_, ?_, ?_, ?_, ?_⟩
      · rw [h1, hrun]
        simp
      · simp [begun_append, htr.1, h2, hseed]
      · simp only [List.map_cons, hseed]
        exact (List.prefix_cons_inj s).2 h3
      · intro x hx
        rcases List.mem_cons.1 hx with h | h
        · rw [h]; exact hstat
        · exact h4 x h
      · intro h
        simp only [List.map_cons, hseed, h5 h]
      · intro e hmem
        rcases List.mem_append.1 hmem with h | h
        · exact htr.2 e h
        · exact h6 e h

theorem runAll_noBail {W : Type} (conn : Conn W) (seeders : List (Seeder W)) (r : Runner W)
    (w : W) (hbail : r.BailOnError = false) :
    ∃ new : List (RunReport W),
      (runAll conn seeders r w).runner = { r with RunReports := r.RunReports ++ new } ∧
      new.map (fun rep => rep.Seeder) <+: seeders ∧
      (((runAll conn seeders r w).err = none ∧ new.map (fun rep => rep.Seeder) = seeders ∧
          ∀ rep ∈ new, rep.Status = .OK ∨ rep.Status = .FAIL) ∨
       (∃ (init : List (RunReport W)) (last : RunReport W) (t : Error),
          new = init ++ [last] ∧ (∀ rep ∈ init, rep.Status = .OK ∨ rep.Status = .FAIL) ∧
          last.Status = .TXERR ∧ t.isTransactionError = true ∧
          (runAll conn seeders r w).err = some (.seederRun last.Seeder.Name t))) := by
  induction seeders generalizing r w with
  | nil => exact ⟨[], by simp [runAll], by simp, Or.inl ⟨by simp [runAll], by simp, by simp⟩⟩
  | cons s rest ih =>
    obtain ⟨rep, hrun, hseed, hcase⟩ := runSeeder_noBail conn r s w hbail
    rcases hcase with ⟨he, hst⟩ | ⟨t, he, ht, hst⟩
    · rw [runAll_cons_ok conn s rest r w he]
      have hb2 : (runSeeder conn r s w).runner.BailOnError = false := by rw [hrun]; exact hbail
      obtain ⟨new, h1, h2, h3⟩ :=
        ih (runSeeder conn r s w).runner (runSeeder conn r s w).world hb2
      refine ⟨rep :: new, ?_, ?_, ?_⟩
      · rw [h1, hrun]
        simp
      · simp only [List.map_cons, hseed]
        exact (List.prefix_cons_inj s).2 h2
      · rcases h3 with ⟨e0, hall, hok⟩ | ⟨init, last, t, hnew, hinit, hlast, ht, herr⟩
        · refine Or.inl ⟨e0, by simp only [List.map_cons, hseed, hall], ?_⟩
          intro x hx
          rcases List.mem_cons.1 hx with h | h
          · rw [h]; exact hst
          · exact hok x h
        · refine Or.inr ⟨rep :: init, last, t, by simp [hnew], ?_, hlast, ht, herr⟩
          intro x hx
          rcases List.mem_cons.1 hx with h | h
          · rw [h]; exact hst
          · exact hinit x h
    · rw [runAll_cons_err conn s rest r w t he]
      refine ⟨[rep], hrun, ?_, Or.inr ⟨[], rep, t, rfl, by simp, hst, ht, by simp [hseed]⟩⟩
      simp [hseed, List.prefix_cons_inj]

theorem runAll_good {W : Type} (conn : Conn W) (seeders : List (Seeder W)) (r : Runner W)
    (w : W) (hbail : r.BailOnError = false)
    (hB : ∀ w, (conn.BeginTx w).2 = none) (hC : ∀ w, (conn.Commit w).2 = none)
    (hR : ∀ w, (conn.Rollback w).2 = none) :
    (runAll conn seeders r w).err = none ∧
    ∃ new : List (RunReport W),
      (runAll conn seeders r w).runner = { r with RunReports := r.RunReports ++ new } ∧
      new.map (fun rep => rep.Seeder) = seeders ∧
      new.map (fun rep => (rep.Seeder.Name, rep.Status)) =
        (executed (runAll conn seeders r w).trace).map
          (fun x => (x.1, if x.2 = none then SeederStatus.OK else SeederStatus.FAIL)) ∧
      (executed (runAll conn seeders r w).trace).map Prod.fst =
        seeders.map (fun s => s.Name) := by
  induction seeders generalizing r w with
  | nil => exact ⟨by simp [runAll], [], by simp [runAll], by simp, by simp [runAll, executed],
      by simp [runAll, executed]⟩
  | cons s rest ih =>
    obtain ⟨he, hrun, hex⟩ := runSeeder_executed_good conn r s w hbail hB hC hR
    rw [runAll_cons_ok conn s rest r w he]
    have hb2 : (runSeeder conn r s w).runner.BailOnError = false := by rw [hrun]; exact hbail
    obtain ⟨h0, new, h1, h2, h3, h4⟩ :=
      ih (runSeeder conn r s w).runner (runSeeder conn r s w).world hb2
    refine ⟨h0, RunReport.mk s r.Seed
      (if (s.RunSeederTx r.Seed (conn.BeginTx w).1).2 = none then .OK else .FAIL)
      (s.RunSeederTx r.Seed (conn.BeginTx w).1).2 :: new, ?_, ?_, ?_, ?_⟩
    · rw [h1, hrun]
      simp only [List.append_assoc, List.singleton_append]
    · simp only [List.map_cons, h2]
    · simp only [List.map_cons, executed_append, hex, List.singleton_append, h3]
    · simp only [executed_append, hex, List.singleton_append, List.map_cons, h4]

/-! ## The runner: claims -/

/-- C1 (code defect). With `BailOnError` true and the commit of unit `01_a` failing,
the report of `01_a` ends `TXERR`, but `runSeeder` returns the nil `err` of
`RunSeederTx`, so `Run` does not stop: it executes and reports `02_b` and returns nil. -/
theorem bail_commit_failure_continues :
    bailCommitRun.runner.RunReports.map RunReport.summary =
      [(nm "01_a", .TXERR, some (.raw "commit failed")), (nm "02_b", .OK, none)] ∧
    executed bailCommitRun.trace = [(nm "01_a", none), (nm "02_b", none)] ∧
    bailCommitRun.err = none := by
  decide

/-- C2 (counterexample). With `BailOnError` false and the commit of unit `01_a`
failing, `Run` stops after `01_a`: `02_b` is neither executed nor reported. -/
theorem noBail_stops_at_transaction_error :
    noBailCommitRun.runner.RunReports.map RunReport.summary =
      [(nm "01_a", .TXERR, some (.raw "commit failed"))] ∧
    begun noBailCommitRun.trace = [nm "01_a"] ∧
    noBailCommitRun.err =
      some (.seederRun (nm "01_a") (.commitFailed (.raw "commit failed"))) := by
  decide

/-- C2 (amended). With `BailOnError` false, `Run` reports the units of the name-sorted
run set in order, one report each, and goes on past units that end `OK` or `FAIL`.
Either no unit ends `TXERR`, every unit is reported and nil is returned; or the run
stops at the first unit that ends `TXERR`, which is the last one reported, and the
returned error is that unit's transaction error wrapped by `Run`. -/
theorem Run_noBail {W : Type} (S : SortSlice W) (conn : Conn W) (r : Runner W) (w : W)
    (hbail : r.BailOnError = false) :
    ∃ new : List (RunReport W),
      (Run S conn r w).runner.RunReports = r.RunReports ++ new ∧
      new.map (fun rep => rep.Seeder) <+: Seeders S r.Repository ∧
      (((Run S conn r w).err = none ∧ new.map (fun rep => rep.Seeder) = Seeders S r.Repository ∧
          ∀ rep ∈ new, rep.Status = .OK ∨ rep.Status = .FAIL) ∨
       (∃ (init : List (RunReport W)) (last : RunReport W) (t : Error),
          new = init ++ [last] ∧ (∀ rep ∈ init, rep.Status = .OK ∨ rep.Status = .FAIL) ∧
          last.Status = .TXERR ∧ t.isTransactionError = true ∧
          (Run S conn r w).err = some (.seederRun last.Seeder.Name t))) := by
  obtain ⟨new, h1, h2, h3⟩ := runAll_noBail conn (Seeders S r.Repository)
    { r with Repository := Seeders S r.Repository } (prepareAll r.Seed (Seeders S r.Repository) w).1
    hbail
  refine ⟨new, ?_, h2, ?_⟩
  · simp only [Run]
    rw [h1]
  · simpa only [Run] using h3

/-- Witness for the amended C2 statement: the run in which the commit of `01_a` fails. -/
theorem Run_noBail_witness :
    (newRunner [okSeeder "02_b", okSeeder "01_a"] false).BailOnError = false ∧
    ∃ new : List (RunReport Nat),
      noBailCommitRun.runner.RunReports = [] ++ new ∧
      new.map (fun rep => rep.Seeder) <+:
        Seeders (byNameSort Nat) [okSeeder "02_b", okSeeder "01_a"] :=
  ⟨rfl, by
    obtain ⟨new, h1, h2, _⟩ := Run_noBail (byNameSort Nat) firstCommitFails
      (newRunner [okSeeder "02_b", okSeeder "01_a"] false) 0 rfl
    exact ⟨new, h1, h2⟩⟩

/-- C3. For a unit whose transaction was begun: `RunSeederTx` nil and commit ok give
`OK` without error; `RunSeederTx` nil and commit failing give `TXERR` with the commit
error; `RunSeederTx` failing and rollback ok give `FAIL` with the unit's error;
`RunSeederTx` failing and rollback failing give `TXERR`. The calls made show that
`Commit` is called only after a nil `RunSeederTx` and `Rollback` only after an error. -/
theorem runSeeder_status {W : Type} (conn : Conn W) (r : Runner W) (seeder : Seeder W)
    (w w1 : W) (hb : conn.BeginTx w = (w1, none)) :
    (∀ w2 w3, seeder.RunSeederTx r.Seed w1 = (w2, none) → conn.Commit w2 = (w3, none) →
      (runSeeder conn r seeder w).runner.RunReports =
        r.RunReports ++ [RunReport.mk seeder r.Seed .OK none] ∧
      (runSeeder conn r seeder w).trace =
        [.BeginTx seeder.Name none, .RunSeederTx seeder.Name none, .Commit seeder.Name none]) ∧
    (∀ w2 w3 t, seeder.RunSeederTx r.Seed w1 = (w2, none) → conn.Commit w2 = (w3, some t) →
      (runSeeder conn r seeder w).runner.RunReports =
        r.RunReports ++ [RunReport.mk seeder r.Seed .TXERR (some t)] ∧
      (runSeeder conn r seeder w).trace =
        [.BeginTx seeder.Name none, .RunSeederTx seeder.Name none,
         .Commit seeder.Name (some t)]) ∧
    (∀ w2 w3 e, seeder.RunSeederTx r.Seed w1 = (w2, some e) → conn.Rollback w2 = (w3, none) →
      (runSeeder conn r seeder w).runner.RunReports =
        r.RunReports ++ [RunReport.mk seeder r.Seed .FAIL (some e)] ∧
      (runSeeder conn r seeder w).trace =
        [.BeginTx seeder.Name none, .RunSeederTx seeder.Name (some e),
         .Rollback seeder.Name none]) ∧
    (∀ w2 w3 e t, seeder.RunSeederTx r.Seed w1 = (w2, some e) →
      conn.Rollback w2 = (w3, some t) →
      (runSeeder conn r seeder w).runner.RunReports =
        r.RunReports ++ [RunReport.mk seeder r.Seed .TXERR (some e)] ∧
      (runSeeder conn r seeder w).trace =
        [.BeginTx seeder.Name none, .RunSeederTx seeder.Name (some e),
         .Rollback seeder.Name (some t)]) := by
  refine ⟨?_, ?_, ?_, ?_⟩
  · intro w2 w3 hs hc
    simp [runSeeder, finishTx, hb, hs, hc]
  · intro w2 w3 t hs hc
    simp [runSeeder, finishTx, hb, hs, hc]
  · intro w2 w3 e hs hr
    simp [runSeeder, finishTx, hb, hs, hr]
  · intro w2 w3 e t hs hr
    simp [runSeeder, finishTx, hb, hs, hr]

/-- Witness for C3: a failing unit on a connection without transaction errors is
reported `FAIL` with its error. -/
theorem runSeeder_status_witness :
    goodConn.BeginTx 0 = (0, none) ∧
    (runSeeder goodConn (newRunner [] false) (failSeeder "02_b") 0).runner.RunReports =
      [] ++ [RunReport.mk (failSeeder "02_b") 42 .FAIL (some (.raw "seeder failed"))] :=
  ⟨rfl, ((runSeeder_status goodConn (newRunner [] false) (failSeeder "02_b") 0 0 rfl).2.2.1
    0 0 (.raw "seeder failed") rfl rfl).1⟩

/-- C4. With `BailOnError` false and a connection whose `BeginTx`, `Commit` and
`Rollback` always succeed, `Run` executes every unit of the registry in ascending name
order, appends exactly one report per unit, `OK` when that unit's `RunSeederTx`
returned nil and `FAIL` otherwise, and returns nil. -/
theorem Run_good {W : Type} (S : SortSlice W) (conn : Conn W) (r : Runner W) (w : W)
    (hbail : r.BailOnError = false)
    (hB : ∀ w, (conn.BeginTx w).2 = none) (hC : ∀ w, (conn.Commit w).2 = none)
    (hR : ∀ w, (conn.Rollback w).2 = none) :
    (Run S conn r w).err = none ∧
    List.Perm (Seeders S r.Repository) r.Repository ∧
    List.Pairwise (fun a b => ¬ b.Name < a.Name) (Seeders S r.Repository) ∧
    ∃ new : List (RunReport W),
      (Run S conn r w).runner.RunReports = r.RunReports ++ new ∧
      new.map (fun rep => rep.Seeder) = Seeders S r.Repository ∧
      (executed (Run S conn r w).trace).map Prod.fst =
        (Seeders S r.Repository).map (fun s => s.Name) ∧
      new.map (fun rep => (rep.Seeder.Name, rep.Status)) =
        (executed (Run S conn r w).trace).map
          (fun x => (x.1, if x.2 = none then SeederStatus.OK else SeederStatus.FAIL)) := by
  obtain ⟨h0, new, h1, h2, h3, h4⟩ := runAll_good conn (Seeders S r.Repository)
    { r with Repository := Seeders S r.Repository } (prepareAll r.Seed (Seeders S r.Repository) w).1
    hbail hB hC hR
  have hprep : executed (prepareAll r.Seed (Seeders S r.Repository) w).2 = [] := by
    rw [prepareAll_trace]
    generalize Seeders S r.Repository = l
    induction l with
    | nil => rfl
    | cons a l ih => simpa [executed] using ih
  refine ⟨by simpa only [Run] using h0, S.perm _, S.sorted _, new, ?_, h2, ?_, ?_⟩
  · simp only [Run]
    rw [h1]
  · simp only [Run, executed_append, hprep, List.nil_append]
    exact h4
  · simp only [Run, executed_append, hprep, List.nil_append]
    exact h3

/-- Witness for C4: units `01_a` (succeeds), `02_b` (fails), `03_c` (succeeds),
registered out of order, give the reports `[OK, FAIL, OK]` and a nil error. -/
theorem Run_good_witness :
    ((newRunner [okSeeder "03_c", okSeeder "01_a", failSeeder "02_b"] false).BailOnError = false ∧
      (∀ w, (goodConn.BeginTx w).2 = none) ∧ (∀ w, (goodConn.Commit w).2 = none) ∧
      (∀ w, (goodConn.Rollback w).2 = none)) ∧
    noBailThreeRun.runner.RunReports.map (fun rep => (rep.Seeder.Name, rep.Status)) =
      [(nm "01_a", .OK), (nm "02_b", .FAIL), (nm "03_c", .OK)] ∧
    noBailThreeRun.err = none :=
  ⟨⟨rfl, fun _ => rfl, fun _ => rfl, fun _ => rfl⟩, by decide,
    (Run_good (byNameSort Nat) goodConn
      (newRunner [okSeeder "03_c", okSeeder "01_a", failSeeder "02_b"] false) 0 rfl
      (fun _ => rfl) (fun _ => rfl) (fun _ => rfl)).1⟩

/-- C5. When `Run` returns, `RunReports` is the old list followed by exactly one
report for each unit for which `runSeeder` was started, in execution order; these
units are a leading part of the name-sorted run set (all of it when nil is returned),
and no added report is left in status `RUNNING`. -/
theorem Run_reports {W : Type} (S : SortSlice W) (conn : Conn W) (r : Runner W) (w : W) :
    ∃ new : List (RunReport W),
      (Run S conn r w).runner.RunReports = r.RunReports ++ new ∧
      new.map (fun rep => rep.Seeder.Name) = begun (Run S conn r w).trace ∧
      new.map (fun rep => rep.Seeder) <+: Seeders S r.Repository ∧
      ((Run S conn r w).err = none → new.map (fun rep => rep.Seeder) = Seeders S r.Repository) ∧
      (∀ rep ∈ new, rep.Status ≠ .RUNNING) := by
  obtain ⟨new, h1, h2, h3, h4, h5, _⟩ := runAll_reports conn (Seeders S r.Repository)
    { r with Repository := Seeders S r.Repository } (prepareAll r.Seed (Seeders S r.Repository) w).1
  have hprep : begun (prepareAll r.Seed (Seeders S r.Repository) w).2 = [] := by
    rw [prepareAll_trace]
    generalize Seeders S r.Repository = l
    induction l with
    | nil => rfl
    | cons a l ih => simpa [begun] using ih
  refine ⟨new, ?_, ?_, h3, by simpa only [Run] using h5, h4⟩
  · simp only [Run]
    rw [h1]
  · simp only [Run, begun_append, hprep, List.nil_append]
    exact h2

/-- C6. The calls made by `Run` start with one `Prepare` call for every unit of the
name-sorted run set, in that order, and no `Prepare` call is made afterwards: every
`Prepare` precedes the first `BeginTx` and the first `RunSeederTx`. -/
theorem Run_prepare_first {W : Type} (S : SortSlice W) (conn : Conn W) (r : Runner W) (w : W) :
    List.Perm (Seeders S r.Repository) r.Repository ∧
    List.Pairwise (fun a b => ¬ b.Name < a.Name) (Seeders S r.Repository) ∧
    ∃ rest : List Event,
      (Run S conn r w).trace =
        (Seeders S r.Repository).map (fun s => Event.Prepare s.Name) ++ rest ∧
      ∀ e ∈ rest, e.isPrepare = false := by
  obtain ⟨_, _, _, _, _, _, h6⟩ := runAll_reports conn (Seeders S r.Repository)
    { r with Repository := Seeders S r.Repository } (prepareAll r.Seed (Seeders S r.Repository) w).1
  refine ⟨S.perm _, S.sorted _, _, ?_, h6⟩
  simp only [Run, prepareAll_trace]

end PsqlSeed

namespace Db

/-! ## Lemmas on trees -/

namespace RoseTree

theorem sizeList_append {α : Type} (a b : List (RoseTree α)) :
    sizeList (a ++ b) = sizeList a + sizeList b := by
  induction a with
  | nil => simp [sizeList]
  | cons t ts ih => simp [sizeList, ih, Nat.add_assoc]

theorem preorderList_append {α : Type} (a b : List (RoseTree α)) :
    preorderList (a ++ b) = preorderList a ++ preorderList b := by
  induction a with
  | nil => simp [preorderList]
  | cons t ts ih => simp [preorderList, ih]

theorem subtreesList_append {α : Type} (a b : List (RoseTree α)) :
    subtreesList (a ++ b) = subtreesList a ++ subtreesList b := by
  induction a with
  | nil => simp [subtreesList]
  | cons t ts ih => simp [subtreesList, ih]

theorem mapList_append {α β : Type} (f : α → β) (a b : List (RoseTree α)) :
    mapList f (a ++ b) = mapList f a ++ mapList f b := by
  induction a with
  | nil => simp [mapList]
  | cons t ts ih => simp [mapList, ih]

mutual
theorem length_preorder {α : Type} : ∀ t : RoseTree α, (preorder t).length = size t
  | .node a cs => by
    simp only [preorder, size, List.length_cons, length_preorderList cs]
    omega
theorem length_preorderList {α : Type} :
    ∀ ts : List (RoseTree α), (preorderList ts).length = sizeList ts
  | [] => rfl
  | t :: ts => by
    simp only [preorderList, sizeList, List.length_append, length_preorder t,
      length_preorderList ts]
end

mutual
theorem preorder_map {α β : Type} (f : α → β) :
    ∀ t : RoseTree α, preorder (map f t) = (preorder t).map f
  | .node a cs => by
    simp only [map, preorder, List.map_cons, preorderList_mapList f cs]
theorem preorderList_mapList {α β : Type} (f : α → β) :
    ∀ ts : List (RoseTree α), preorderList (mapList f ts) = (preorderList ts).map f
  | [] => rfl
  | t :: ts => by
    simp only [mapList, preorderList, List.map_append, preorder_map f t,
      preorderList_mapList f ts]
end

mutual
theorem map_root_subtrees {α : Type} :
    ∀ t : RoseTree α, (subtrees t).map root = preorder t
  | .node a cs => by
    simp only [subtrees, preorder, List.map_cons, root, map_root_subtreesList cs]
theorem map_root_subtreesList {α : Type} :
    ∀ ts : List (RoseTree α), (subtreesList ts).map root = preorderList ts
  | [] => rfl
  | t :: ts => by
    simp only [subtreesList, preorderList, List.map_append, map_root_subtrees t,
      map_root_subtreesList ts]
end

end RoseTree

open RoseTree

/-! ## Lemmas on the numbering in closed form -/

theorem root_label {N : Type} (d : Int) (p : Option (NestedSetNode N)) (L : Int)
    (t : RoseTree N) :
    (label d p L t).root = .mk L (L + 2 * size t - 1) d t.root p := by
  cases t with
  | node a cs =>
    simp only [label, root, size]
    congr 1
    omega

theorem labelList_append {N : Type} (d : Int) (p : Option (NestedSetNode N)) (L : Int)
    (a b : List (RoseTree N)) :
    labelList d p L (a ++ b) = labelList d p L a ++ labelList d p (L + 2 * sizeList a) b := by
  induction a generalizing L with
  | nil => simp [labelList, sizeList]
  | cons t ts ih =>
    have h : L + 2 * ((size t + sizeList ts : Nat) : Int) =
        L + 2 * (size t : Int) + 2 * (sizeList ts : Int) := by omega
    show labelList d p L (t :: (ts ++ b)) = _
    simp only [labelList, ih, sizeList, h, List.cons_append]

mutual
theorem map_Data_label {N : Type} (d : Int) (p : Option (NestedSetNode N)) :
    ∀ (t : RoseTree N) (L : Int), map NestedSetNode.Data (label d p L t) = t
  | .node a cs, L => by
    simp only [label, map, NestedSetNode.Data, mapList_Data_labelList d p cs (L + 1)]
theorem mapList_Data_labelList {N : Type} (d : Int) (p : Option (NestedSetNode N)) :
    ∀ (ts : List (RoseTree N)) (L : Int), mapList NestedSetNode.Data (labelList d p L ts) = ts
  | [], _ => rfl
  | t :: ts, L => by
    simp only [labelList, mapList, map_Data_label d p t L,
      mapList_Data_labelList d p ts (L + 2 * size t)]
end

mutual
theorem size_label {N : Type} (d : Int) (p : Option (NestedSetNode N)) :
    ∀ (t : RoseTree N) (L : Int), size (label d p L t) = size t
  | .node a cs, L => by
    simp only [label, size, sizeList_labelList d p cs (L + 1)]
theorem sizeList_labelList {N : Type} (d : Int) (p : Option (NestedSetNode N)) :
    ∀ (ts : List (RoseTree N)) (L : Int), sizeList (labelList d p L ts) = sizeList ts
  | [], _ => rfl
  | t :: ts, L => by
    simp only [labelList, sizeList, size_label d p t L,
      sizeList_labelList d p ts (L + 2 * size t)]
end

/-! ## `appendNode` and `Append` compute the closed form -/

theorem appendNode_loop {N : Type} (d : Int) (p : Option (NestedSetNode N)) {ι : Type}
    (src : ι → NestedSetSource N)
    (ih : ∀ (i : ι) (L : Int), appendNode L d p (src i) =
      (preorder (label d p L (sourceTree d p (src i))),
        (label d p L (sourceTree d p (src i))).root))
    (l : List ι) (acc : List (NestedSetNode N)) (next : Int) :
    l.foldl (fun (st : List (NestedSetNode N) × Int) i =>
        ((st.1 ++ (appendNode st.2 d p (src i)).1, (appendNode st.2 d p (src i)).2.rgt + 1)))
      (acc, next) =
    (acc ++ preorderList (labelList d p next (l.map (fun i => sourceTree d p (src i)))),
      next + 2 * sizeList (l.map (fun i => sourceTree d p (src i)))) := by
  induction l generalizing acc next with
  | nil => simp [preorderList, labelList, sizeList]
  | cons i l ihl =>
    have h1 : next + 2 * ((sourceTree d p (src i)).size : Int) - 1 + 1 =
        next + 2 * ((sourceTree d p (src i)).size : Int) := by omega
    have h2 : next + 2 * ((sourceTree d p (src i)).size : Int) +
        2 * (sizeList (l.map (fun i => sourceTree d p (src i))) : Int) =
        next + 2 * (((sourceTree d p (src i)).size +
          sizeList (l.map (fun i => sourceTree d p (src i))) : Nat) : Int) := by omega
    rw [List.foldl_cons, ihl, ih]
    simp only [root_label, NestedSetNode.rgt, List.map_cons, labelList, preorderList, sizeList,
      List.append_assoc, h1, h2]

theorem appendNode_eq_label {N : Type} (d : Int) (p : Option (NestedSetNode N))
    (src : NestedSetSource N) (L : Int) :
    appendNode L d p src =
      (preorder (label d p L (sourceTree d p src)), (label d p L (sourceTree d p src)).root) := by
  induction src generalizing L with
  | mk data count child ih =>
    have hloop := appendNode_loop d p (child d p) (fun i L => ih d p i L)
      (List.finRange (count d p)) [] (L + 1)
    simp only [appendNode, sourceTree, label, preorder, root]
    rw [hloop]
    simp
    omega

theorem Append_eq_label {N : Type} (n : NestedSet N) (nodes : List (NestedSetSource N)) :
    n.Append nodes =
      { records := n.records ++ preorderList (labelList 0 none n.rgt (sourceForest nodes)),
        rgt := n.rgt + 2 * sizeList (sourceForest nodes) } := by
  have h := appendNode_loop 0 none (fun s : NestedSetSource N => s)
    (fun i L => appendNode_eq_label 0 none i L) nodes n.records n.rgt
  simp only [NestedSet.Append, sourceForest]
  rw [h]

theorem sourceForest_append {N : Type} (a b : List (NestedSetSource N)) :
    sourceForest (a ++ b) = sourceForest a ++ sourceForest b := by
  simp [sourceForest]

theorem AppendAll_eq_Append {N : Type} (n : NestedSet N)
    (calls : List (List (NestedSetSource N))) :
    n.AppendAll calls = n.Append calls.flatten := by
  induction calls generalizing n with
  | nil => simp [NestedSet.AppendAll, NestedSet.Append]
  | cons c cs ih =>
    have h : (n.Append c).AppendAll cs = (n.Append c).Append cs.flatten := ih (n.Append c)
    show (n.Append c).AppendAll cs = n.Append (c ++ cs.flatten)
    rw [h, Append_eq_label (n.Append c), Append_eq_label n c, Append_eq_label n (c ++ cs.flatten)]
    simp only [sourceForest_append, labelList_append, preorderList_append, sizeList_append,
      List.append_assoc]
    congr 1
    omega

mutual
theorem label_bounds {N : Type} (d : Int) (p : Option (NestedSetNode N)) :
    ∀ (t : RoseTree N) (L : Int), ∀ m ∈ preorder (label d p L t),
      L ≤ m.lft ∧ m.lft < m.rgt ∧ m.rgt ≤ L + 2 * size t - 1
  | .node a cs, L => by
    intro m hm
    simp only [label, preorder, List.mem_cons] at hm
    rcases hm with h | h
    · subst h
      simp only [NestedSetNode.lft, NestedSetNode.rgt, size]
      omega
    · have hb := labelList_bounds d p cs (L + 1) m h
      simp only [size]
      omega
theorem labelList_bounds {N : Type} (d : Int) (p : Option (NestedSetNode N)) :
    ∀ (ts : List (RoseTree N)) (L : Int), ∀ m ∈ preorderList (labelList d p L ts),
      L ≤ m.lft ∧ m.lft < m.rgt ∧ m.rgt ≤ L + 2 * sizeList ts - 1
  | [], _ => by
    intro m hm
    simp [labelList, preorderList] at hm
  | t :: ts, L => by
    intro m hm
    simp only [labelList, preorderList, List.mem_append] at hm
    rcases hm with h | h
    · have hb := label_bounds d p t L m h
      simp only [sizeList]
      omega
    · have hb := labelList_bounds d p ts (L + 2 * size t) m h
      simp only [sizeList]
      omega
end

theorem labelList_root_bounds {N : Type} (d : Int) (p : Option (NestedSetNode N))
    (ts : List (RoseTree N)) (L : Int) :
    ∀ c ∈ labelList d p L ts, L ≤ c.root.lft ∧ c.root.rgt ≤ L + 2 * sizeList ts - 1 := by
  induction ts generalizing L with
  | nil => intro c hc; simp [labelList] at hc
  | cons t ts ih =>
    intro c hc
    simp only [labelList, List.mem_cons] at hc
    have hpos : 1 ≤ size t := by cases t; simp [size]
    rcases hc with h | h
    · subst h
      simp only [root_label, NestedSetNode.lft, NestedSetNode.rgt, sizeList]
      omega
    · have hb := ih (L + 2 * size t) c h
      simp only [sizeList]
      omega

theorem labelList_pairwise {N : Type} (d : Int) (p : Option (NestedSetNode N))
    (ts : List (RoseTree N)) (L : Int) :
    List.Pairwise (fun a b : RoseTree (NestedSetNode N) => a.root.rgt < b.root.lft)
      (labelList d p L ts) := by
  induction ts generalizing L with
  | nil => simp [labelList]
  | cons t ts ih =>
    simp only [labelList, List.pairwise_cons]
    refine ⟨?_, ih _⟩
    intro c hc
    have hb := labelList_root_bounds d p ts (L + 2 * size t) c hc
    simp only [root_label, NestedSetNode.rgt]
    omega

theorem labelList_chain {N : Type} (d : Int) (p : Option (NestedSetNode N))
    (ts : List (RoseTree N)) (L : Int) :
    List.Chain' (fun a b : NestedSetNode N => b.lft = a.rgt + 1)
      ((labelList d p L ts).map root) := by
  induction ts generalizing L with
  | nil => simp [labelList]
  | cons t ts ih =>
    cases ts with
    | nil => simp [labelList]
    | cons t2 ts =>
      have h := ih (L + 2 * size t)
      simp only [labelList, List.map_cons] at h ⊢
      refine List.chain'_cons.2 ⟨?_, h⟩
      simp only [root_label, NestedSetNode.lft, NestedSetNode.rgt]
      omega

mutual
theorem subtrees_label {N : Type} (d : Int) (p : Option (NestedSetNode N)) :
    ∀ (t : RoseTree N) (L : Int), ∀ s ∈ subtrees (label d p L t),
      ∃ (L2 : Int) (t2 : RoseTree N), s = label d p L2 t2
  | .node a cs, L => by
    intro s hs
    simp only [label, subtrees, List.mem_cons] at hs
    rcases hs with h | h
    · exact ⟨L, .node a cs, by rw [h]; simp only [label]⟩
    · exact subtreesList_labelList d p cs (L + 1) s h
theorem subtreesList_labelList {N : Type} (d : Int) (p : Option (NestedSetNode N)) :
    ∀ (ts : List (RoseTree N)) (L : Int), ∀ s ∈ subtreesList (labelList d p L ts),
      ∃ (L2 : Int) (t2 : RoseTree N), s = label d p L2 t2
  | [], _ => by
    intro s hs
    simp [labelList, subtreesList] at hs
  | t :: ts, L => by
    intro s hs
    simp only [labelList, subtreesList, List.mem_append] at hs
    rcases hs with h | h
    · exact subtrees_label d p t L s h
    · exact subtreesList_labelList d p ts (L + 2 * size t) s h
end

theorem root_node {α : Type} (a : α) (cs : List (RoseTree α)) : (RoseTree.node a cs).root = a :=
  rfl

theorem children_node {α : Type} (a : α) (cs : List (RoseTree α)) :
    (RoseTree.node a cs).children = cs := rfl

theorem lft_mk {N : Type} (l r d : Int) (a : N) (p : Option (NestedSetNode N)) :
    (NestedSetNode.mk l r d a p).lft = l := rfl

theorem rgt_mk {N : Type} (l r d : Int) (a : N) (p : Option (NestedSetNode N)) :
    (NestedSetNode.mk l r d a p).rgt = r := rfl

theorem size_pos {α : Type} (t : RoseTree α) : 1 ≤ size t := by
  cases t
  simp [size]

theorem sizeList_eq_zero {α : Type} (ts : List (RoseTree α)) : sizeList ts = 0 ↔ ts = [] := by
  cases ts with
  | nil => simp [sizeList]
  | cons t ts =>
    have h := size_pos t
    simp only [sizeList, reduceCtorEq, iff_false]
    omega

theorem strictlyInside_iff {N : Type} (n m : NestedSetNode N) :
    strictlyInside n m = true ↔ n.lft < m.lft ∧ m.rgt < n.rgt := by
  simp [strictlyInside]

theorem label_locallyNested {N : Type} (d : Int) (p : Option (NestedSetNode N))
    (t : RoseTree N) (L : Int) : LocallyNested (label d p L t) := by
  cases t with
  | node a cs =>
    simp only [LocallyNested, label, root_node, children_node, lft_mk, rgt_mk]
    refine ⟨by omega, ?_, labelList_pairwise d p cs (L + 1)⟩
    intro c hc
    have hb := labelList_root_bounds d p cs (L + 1) c hc
    omega

theorem label_descendantsCount {N : Type} (d : Int) (p : Option (NestedSetNode N))
    (t : RoseTree N) (L : Int) :
    (label d p L t).root.DescendantsCount = sizeList (label d p L t).children := by
  cases t with
  | node a cs =>
    simp only [label, root_node, children_node, NestedSetNode.DescendantsCount, NestedSetNode.lft,
      NestedSetNode.rgt, sizeList_labelList]
    have h : L + 2 * (sizeList cs : Int) + 1 - L - 1 = 2 * (sizeList cs : Int) := by omega
    rw [h]
    exact Int.mul_tdiv_cancel_left _ (by decide)

theorem label_isLeaf {N : Type} (d : Int) (p : Option (NestedSetNode N))
    (t : RoseTree N) (L : Int) :
    (label d p L t).root.IsLeaf = true ↔ (label d p L t).children = [] := by
  cases t with
  | node a cs =>
    simp only [label, root_node, children_node, NestedSetNode.IsLeaf, NestedSetNode.lft,
      NestedSetNode.rgt, decide_eq_true_eq]
    rw [← sizeList_eq_zero, sizeList_labelList]
    omega

mutual
theorem count_label {N : Type} (d : Int) (p : Option (NestedSetNode N)) :
    ∀ (t : RoseTree N) (L : Int) (pre post : List (NestedSetNode N)),
      (∀ m ∈ pre, m.lft < L ∨ L + 2 * size t - 1 < m.rgt) →
      (∀ m ∈ post, m.lft < L ∨ L + 2 * size t - 1 < m.rgt) →
      ∀ s ∈ subtrees (label d p L t),
        (pre ++ preorder (label d p L t) ++ post).countP (strictlyInside s.root) =
          sizeList s.children
  | .node a cs, L => by
    intro pre post hpre hpost s hs
    simp only [label, subtrees, List.mem_cons] at hs
    simp only [size] at hpre hpost
    rcases hs with h | h
    · subst h
      simp only [label, preorder, root_node, children_node]
      rw [List.countP_append, List.countP_append, List.countP_cons]
      have h1 : pre.countP (strictlyInside
          (NestedSetNode.mk L (L + 2 * (sizeList cs : Int) + 1) d a p)) = 0 := by
        refine List.countP_eq_zero.2 (fun m hm => ?_)
        have := hpre m hm
        simp only [strictlyInside_iff, lft_mk, rgt_mk]
        omega
      have h2 : post.countP (strictlyInside
          (NestedSetNode.mk L (L + 2 * (sizeList cs : Int) + 1) d a p)) = 0 := by
        refine List.countP_eq_zero.2 (fun m hm => ?_)
        have := hpost m hm
        simp only [strictlyInside_iff, lft_mk, rgt_mk]
        omega
      have h3 : (preorderList (labelList d p (L + 1) cs)).countP (strictlyInside
          (NestedSetNode.mk L (L + 2 * (sizeList cs : Int) + 1) d a p)) =
          (preorderList (labelList d p (L + 1) cs)).length := by
        refine List.countP_eq_length.2 (fun m hm => ?_)
        have := labelList_bounds d p cs (L + 1) m hm
        simp only [strictlyInside_iff, lft_mk, rgt_mk]
        omega
      have h4 : strictlyInside (NestedSetNode.mk L (L + 2 * (sizeList cs : Int) + 1) d a p)
          (NestedSetNode.mk L (L + 2 * (sizeList cs : Int) + 1) d a p) = false := by
        simp [strictlyInside, lft_mk]
      rw [h1, h2, h3, h4, length_preorderList]
      simp
    · have hc := count_labelList d p cs (L + 1)
        (pre ++ [NestedSetNode.mk L (L + 2 * (sizeList cs : Int) + 1) d a p]) post
        (by
          intro m hm
          rcases List.mem_append.1 hm with h0 | h0
          · have := hpre m h0
            omega
          · rw [List.mem_singleton.1 h0]
            simp only [lft_mk]
            omega)
        (by
          intro m hm
          have := hpost m hm
          omega)
        s h
      simpa only [label, preorder, List.append_assoc, List.singleton_append] using hc
theorem count_labelList {N : Type} (d : Int) (p : Option (NestedSetNode N)) :
    ∀ (ts : List (RoseTree N)) (L : Int) (pre post : List (NestedSetNode N)),
      (∀ m ∈ pre, m.lft < L ∨ L + 2 * sizeList ts - 1 < m.rgt) →
      (∀ m ∈ post, m.lft < L ∨ L + 2 * sizeList ts - 1 < m.rgt) →
      ∀ s ∈ subtreesList (labelList d p L ts),
        (pre ++ preorderList (labelList d p L ts) ++ post).countP (strictlyInside s.root) =
          sizeList s.children
  | [], _ => by
    intro pre post _ _ s hs
    simp [labelList, subtreesList] at hs
  | t :: ts, L => by
    intro pre post hpre hpost s hs
    simp only [labelList, subtreesList, List.mem_append] at hs
    simp only [sizeList] at hpre hpost
    have hpos := size_pos t
    rcases hs with h | h
    · have hc := count_label d p t L pre
        (preorderList (labelList d p (L + 2 * size t) ts) ++ post)
        (by
          intro m hm
          have := hpre m hm
          omega)
        (by
          intro m hm
          rcases List.mem_append.1 hm with h0 | h0
          · have := labelList_bounds d p ts (L + 2 * size t) m h0
            omega
          · have := hpost m h0
            omega)
        s h
      simpa only [labelList, preorderList, List.append_assoc] using hc
    · have hc := count_labelList d p ts (L + 2 * size t)
        (pre ++ preorder (label d p L t)) post
        (by
          intro m hm
          rcases List.mem_append.1 hm with h0 | h0
          · have := hpre m h0
            omega
          · have := label_bounds d p t L m h0
            omega)
        (by
          intro m hm
          have := hpost m hm
          omega)
        s h
      simpa only [labelList, preorderList, List.append_assoc] using hc
end

theorem sourceTree_ConstNestedSetSource {N : Type} (d : Int) (p : Option (NestedSetNode N))
    (a : N) (cs : List (NestedSetSource N)) :
    sourceTree d p (ConstNestedSetSource a cs) = .node a (cs.map (sourceTree d p)) := by
  simp only [ConstNestedSetSource, sourceTree]
  congr 1
  have h : (List.finRange cs.length).map (fun i => sourceTree d p (cs.get i)) =
      ((List.finRange cs.length).map cs.get).map (sourceTree d p) := by
    rw [List.map_map]
    rfl
  rw [h, List.finRange_map_get]

/-- The records built for `exampleSource` followed by a single leaf. -/
theorem exampleSource_records :
    ((NewNestedSet Nat).Append [exampleSource, ConstNestedSetSource 20 []]).records.map
      (fun n => (n.lft, n.rgt, n.Data, n.DescendantsCount, n.IsLeaf)) =
    [(1, 8, 10, 3, false), (2, 3, 11, 0, true), (4, 7, 12, 1, false), (5, 6, 13, 0, true),
     (9, 10, 20, 0, true)] := by
  decide

/-! ## The nested-set builder: claims -/

/-- C7. Appending a forest of sources to a fresh `NewNestedSet` yields exactly as
many records as the forest has nodes, and the payloads of the records, in record
order, are the payloads of the forest in pre-order: a node before its descendants,
children in source order, trees in forest order. -/
theorem Append_records_preorder {N : Type} (nodes : List (NestedSetSource N)) :
    ((NewNestedSet N).Append nodes).records.length = sizeList (sourceForest nodes) ∧
    ((NewNestedSet N).Append nodes).records.map NestedSetNode.Data =
      preorderList (sourceForest nodes) := by
  rw [Append_eq_label]
  refine ⟨?_, ?_⟩
  · simp [NewNestedSet, length_preorderList, sizeList_labelList]
  · simp only [NewNestedSet, List.nil_append]
    rw [← preorderList_mapList, mapList_Data_labelList]

/-- C8. The records appended by `Append` are the pre-order listing of a forest of
records that has the shape and the payloads of the source forest, in which every
record has `lft < rgt`, the interval of every child lies strictly inside the interval
of its parent, and the intervals of the children of one node follow each other
without overlap. -/
theorem Append_nested {N : Type} (n : NestedSet N) (nodes : List (NestedSetSource N)) :
    ∃ forest : List (RoseTree (NestedSetNode N)),
      (n.Append nodes).records = n.records ++ preorderList forest ∧
      mapList NestedSetNode.Data forest = sourceForest nodes ∧
      (∀ m ∈ preorderList forest, m.lft < m.rgt) ∧
      (∀ s ∈ subtreesList forest, LocallyNested s) := by
  refine ⟨labelList 0 none n.rgt (sourceForest nodes), ?_, mapList_Data_labelList _ _ _ _, ?_, ?_⟩
  · rw [Append_eq_label]
  · intro m hm
    exact (labelList_bounds 0 none _ _ m hm).2.1
  · intro s hs
    obtain ⟨L2, t2, h⟩ := subtreesList_labelList 0 none _ _ s hs
    rw [h]
    exact label_locallyNested 0 none t2 L2

/-- C9. After any sequence of `Append` calls on a fresh `NewNestedSet`, the records
are the pre-order listing of a forest of records shaped as all appended sources in
call order; its first root has `lft = 1`, every later root starts one past the `rgt`
of the root before it, also from one call to the next, and the root intervals are
non-empty and pairwise disjoint. -/
theorem AppendAll_roots {N : Type} (calls : List (List (NestedSetSource N))) :
    ∃ forest : List (RoseTree (NestedSetNode N)),
      ((NewNestedSet N).AppendAll calls).records = preorderList forest ∧
      mapList NestedSetNode.Data forest = sourceForest calls.flatten ∧
      (∀ r, (forest.map root).head? = some r → r.lft = 1) ∧
      List.Chain' (fun a b : NestedSetNode N => b.lft = a.rgt + 1) (forest.map root) ∧
      List.Pairwise (fun a b : NestedSetNode N => a.rgt < b.lft) (forest.map root) ∧
      (∀ r ∈ forest.map root, r.lft < r.rgt) := by
  refine ⟨labelList 0 none 1 (sourceForest calls.flatten), ?_, mapList_Data_labelList _ _ _ _,
    ?_, labelList_chain _ _ _ _, ?_, ?_⟩
  · rw [AppendAll_eq_Append, Append_eq_label]
    simp [NewNestedSet]
  · intro r hr
    cases hf : sourceForest calls.flatten with
    | nil => simp [hf, labelList] at hr
    | cons t ts =>
      simp only [hf, labelList, List.map_cons, List.head?_cons, Option.some.injEq] at hr
      rw [← hr, root_label, lft_mk]
  · exact List.pairwise_map.2 (labelList_pairwise _ _ _ _)
  · intro r hr
    obtain ⟨c, hc, rfl⟩ := List.mem_map.1 hr
    have hl := label_locallyNested (N := N) 0 none
    obtain ⟨L2, t2, h⟩ : ∃ (L2 : Int) (t2 : RoseTree N), c = label 0 none L2 t2 := by
      generalize sourceForest calls.flatten = ts at hc
      generalize (1 : Int) = L at hc
      induction ts generalizing L with
      | nil => simp [labelList] at hc
      | cons t ts ih =>
        simp only [labelList, List.mem_cons] at hc
        rcases hc with h | h
        · exact ⟨L, t, h⟩
        · exact ih _ h
    rw [h]
    exact (hl t2 L2).1

/-- C10. After any sequence of `Append` calls on a fresh `NewNestedSet`, for every
record `n` (the root of a subtree `s` of the forest of records): `DescendantsCount(n)`
is the number of nodes below `n`, which is the number of records of the builder whose
interval lies strictly inside the interval of `n`; and `IsLeaf(n)` holds exactly when
`n` has no children. -/
theorem AppendAll_descendants {N : Type} (calls : List (List (NestedSetSource N))) :
    ∃ forest : List (RoseTree (NestedSetNode N)),
      ((NewNestedSet N).AppendAll calls).records = preorderList forest ∧
      mapList NestedSetNode.Data forest = sourceForest calls.flatten ∧
      ∀ s ∈ subtreesList forest,
        s.root.DescendantsCount = sizeList s.children ∧
        ((((NewNestedSet N).AppendAll calls).records.countP (strictlyInside s.root) : Nat) : Int)
          = s.root.DescendantsCount ∧
        (s.root.IsLeaf = true ↔ s.children = []) := by
  have hrec : ((NewNestedSet N).AppendAll calls).records =
      preorderList (labelList 0 none 1 (sourceForest calls.flatten)) := by
    rw [AppendAll_eq_Append, Append_eq_label]
    simp [NewNestedSet]
  refine ⟨labelList 0 none 1 (sourceForest calls.flatten), hrec,
    mapList_Data_labelList _ _ _ _, ?_⟩
  intro s hs
  have hcount := count_labelList 0 none (sourceForest calls.flatten) 1 [] []
    (by simp) (by simp) s hs
  simp only [List.nil_append, List.append_nil] at hcount
  obtain ⟨L2, t2, h⟩ := subtreesList_labelList 0 none _ _ s hs
  refine ⟨?_, ?_, ?_⟩
  · rw [h]
    exact label_descendantsCount 0 none t2 L2
  · rw [hrec, hcount, h]
    exact (label_descendantsCount 0 none t2 L2).symm
  · rw [h]
    exact label_isLeaf 0 none t2 L2

end Db

namespace Db

open RoseTree

/-! ## Depth and parent of the records -/

mutual
theorem label_depth_parent {N : Type} (d : Int) (p : Option (NestedSetNode N)) :
    ∀ (t : RoseTree N) (L : Int), ∀ m ∈ preorder (label d p L t),
      m.depth = d ∧ m.parent = p
  | .node a cs, L => by
    intro m hm
    simp only [label, preorder, List.mem_cons] at hm
    rcases hm with h | h
    · subst h
      exact ⟨rfl, rfl⟩
    · exact labelList_depth_parent d p cs (L + 1) m h
theorem labelList_depth_parent {N : Type} (d : Int) (p : Option (NestedSetNode N)) :
    ∀ (ts : List (RoseTree N)) (L : Int), ∀ m ∈ preorderList (labelList d p L ts),
      m.depth = d ∧ m.parent = p
  | [], _ => by
    intro m hm
    simp [labelList, preorderList] at hm
  | t :: ts, L => by
    intro m hm
    simp only [labelList, preorderList, List.mem_append] at hm
    rcases hm with h | h
    · exact label_depth_parent d p t L m h
    · exact labelList_depth_parent d p ts (L + 2 * size t) m h
end

/-- Every record built by `Append` calls on a fresh builder has depth 0 and a nil
parent, whatever its place in the forest. -/
theorem AppendAll_depth_parent {N : Type} (calls : List (List (NestedSetSource N))) :
    ∀ m ∈ ((NewNestedSet N).AppendAll calls).records, m.depth = 0 ∧ m.parent = none := by
  intro m hm
  rw [AppendAll_eq_Append, Append_eq_label] at hm
  simp only [NewNestedSet, List.nil_append] at hm
  exact labelList_depth_parent 0 none _ _ m hm

/-- C11 (code defect). `appendNode` hands its own `depth` and `parent` on to the
children instead of `depth + 1` and the new record: for a root with one child, the
child source is called with depth 0 and a nil parent (its payload says so), and the
child record stores depth 0 and a nil parent, so `Depth()` is 0 and `IsRoot()` holds
for it as for the root. -/
theorem appendNode_child_depth_parent :
    ((NewNestedSet (Int × Bool)).Append [probeSource 1]).records.map
      (fun n => (n.lft, n.rgt, n.Data, Depth (some n), n.IsRoot)) =
    [(1, 4, (0, false), 0, true), (2, 3, (0, false), 0, true)] := by
  decide

end Db

namespace PsqlSeed

/-! ## The registry: claims -/

theorem AddAll_eq_flatten {W : Type} (calls : List (List (Seeder W)))
    (init : List (Seeder W)) :
    calls.foldl Repository.Add init = init ++ calls.flatten := by
  induction calls generalizing init with
  | nil => simp
  | cons c cs ih => simp [List.foldl_cons, Repository.Add, ih]

/-- C20. For a registry filled by any sequence of `Add` calls, `Seeders()` returns a
permutation of the seeders that were added, and in the result no seeder comes after
one with a byte-wise lexicographically greater name. -/
theorem Seeders_sorted_perm {W : Type} (S : SortSlice W) (calls : List (List (Seeder W))) :
    List.Perm (Seeders S (Repository.AddAll calls)) calls.flatten ∧
    List.Pairwise (fun a b : Seeder W => a.Name ≤ b.Name)
      (Seeders S (Repository.AddAll calls)) := by
  have h : Repository.AddAll calls = calls.flatten := by
    simpa [Repository.AddAll] using AddAll_eq_flatten calls []
  refine ⟨?_, ?_⟩
  · rw [h]
    exact S.perm _
  · exact (S.sorted _).imp (fun hab => not_lt.1 hab)

end PsqlSeed

namespace Db

/-! ## Lemmas on the sequence cache -/

theorem isInt64_wrapInt64 (x : Int) : IsInt64 (wrapInt64 x) := by
  unfold wrapInt64
  constructor <;> omega

theorem wrapInt64_of_isInt64 (x : Int) (h : IsInt64 x) : wrapInt64 x = x := by
  unfold wrapInt64
  obtain ⟨h1, h2⟩ := h
  omega

theorem wrapInt64_add_wrapInt64 (a b : Int) : wrapInt64 (wrapInt64 a + b) = wrapInt64 (a + b) := by
  unfold wrapInt64
  omega

theorem wrapInt64_add_ne (l inc : Int) (hl : IsInt64 l) (hi : IsInt64 inc) (h0 : inc ≠ 0) :
    wrapInt64 (l + inc) ≠ l := by
  unfold wrapInt64
  obtain ⟨h1, h2⟩ := hl
  obtain ⟨h3, h4⟩ := hi
  omega

theorem isInt64_Peek (seq : Sequence) (h : seq.WellTyped) : IsInt64 seq.Peek := by
  unfold Sequence.Peek
  split
  · exact isInt64_wrapInt64 _
  · exact h.1

theorem Next_of_no_Err (seq : Sequence) (herr : seq.Err = none) :
    seq.Next = some (seq.Peek,
      { seq with dirty := !seq.called || seq.lastValue != seq.Peek, called := true,
                 lastValue := seq.Peek }) := by
  simp [Sequence.Next, Sequence.TryNext, Sequence.SetLast, herr]

theorem NextN_succ_of_no_Err (seq : Sequence) (n : Nat) (herr : seq.Err = none) :
    seq.NextN (n + 1) =
      match (Sequence.NextN
        { seq with dirty := !seq.called || seq.lastValue != seq.Peek, called := true,
                   lastValue := seq.Peek } n) with
      | none => none
      | some (vs, seq2) => some (seq.Peek :: vs, seq2) := by
  simp [Sequence.NextN, Next_of_no_Err seq herr]

theorem NextN_spec (n : Nat) : ∀ (seq : Sequence), seq.Err = none → seq.WellTyped →
    seq.incrementBy ≠ 0 →
    ∃ seq2 : Sequence, seq.NextN (n + 1) = some (seq.PeekN (n + 1), seq2) ∧
      seq2.lastValue = wrapInt64 (seq.Peek + n * seq.incrementBy) ∧
      (seq.PeekN (n + 1)).getLast? = some seq2.lastValue ∧
      seq2.called = true ∧ seq2.dirty = true ∧
      seq2.incrementBy = seq.incrementBy ∧ seq2.Err = none ∧ seq2.id = seq.id := by
  induction n with
  | zero =>
    intro seq herr hty hinc
    refine ⟨Sequence.mk seq.id seq.Peek seq.incrementBy true
      (!seq.called || seq.lastValue != seq.Peek) seq.Err, ?_, ?_, ?_, rfl, ?_, rfl, herr, rfl⟩
    · rw [NextN_succ_of_no_Err seq 0 herr]
      simp [Sequence.NextN, Sequence.PeekN, peekLoop]
    · simp [wrapInt64_of_isInt64 _ (isInt64_Peek seq hty)]
    · simp [Sequence.PeekN, peekLoop]
    · cases hc : seq.called with
      | false => simp
      | true =>
        have hne := wrapInt64_add_ne seq.lastValue seq.incrementBy hty.1 hty.2 hinc
        simp [Sequence.Peek, hc, Ne.symm hne]
  | succ n ih =>
    intro seq herr hty hinc
    obtain ⟨seq2, h1, h2, h3, h4, h5, h6, h7, h8⟩ := ih
      { seq with dirty := !seq.called || seq.lastValue != seq.Peek, called := true,
                 lastValue := seq.Peek }
      herr ⟨isInt64_Peek seq hty, hty.2⟩ hinc
    have hpeek : Sequence.Peek
        { seq with dirty := !seq.called || seq.lastValue != seq.Peek, called := true,
                   lastValue := seq.Peek } = wrapInt64 (seq.Peek + seq.incrementBy) := by
      simp [Sequence.Peek]
    refine ⟨seq2, ?_, ?_, ?_, h4, h5, h6, h7, h8⟩
    · rw [NextN_succ_of_no_Err seq (n + 1) herr, h1]
      simp only [Sequence.PeekN, hpeek]
      rfl
    · rw [h2, hpeek, wrapInt64_add_wrapInt64]
      congr 1
      push_cast
      ring
    · rw [← h3]
      simp only [Sequence.PeekN, hpeek]
      rfl

theorem peekLoop_chain (inc : Int) (n : Nat) (next : Int) :
    List.Chain' (fun a b : Int => b = wrapInt64 (a + inc)) (peekLoop inc n next) ∧
    (peekLoop inc n next).length = n ∧
    (0 < n → (peekLoop inc n next).head? = some next) := by
  induction n generalizing next with
  | zero => simp [peekLoop]
  | succ n ih =>
    obtain ⟨h1, h2, h3⟩ := ih (wrapInt64 (next + inc))
    refine ⟨?_, by simp [peekLoop, h2], by simp [peekLoop]⟩
    cases n with
    | zero => simp [peekLoop]
    | succ n =>
      simp only [peekLoop] at h1 ⊢
      exact List.chain'_cons.2 ⟨rfl, h1⟩

end Db

namespace Db

/-! ## The sequence cache: claims -/

/-- C16. For a cache without error, with `int64` fields and a non-zero increment (as
every database sequence has), and `n ≥ 1`: `NextN(n)` returns the `n` values that
`PeekN(n)` returns before the call, the first being `Peek()` and each next one the
`int64` sum of the one before and `incrementBy`; afterwards the last value of the
cache is the last returned value, `called` is true and the cache is dirty. -/
theorem NextN_eq_PeekN (seq : Sequence) (n : Nat) (hn : 1 ≤ n) (herr : seq.Err = none)
    (hty : seq.WellTyped) (hinc : seq.incrementBy ≠ 0) :
    ∃ seq2 : Sequence, seq.NextN n = some (seq.PeekN n, seq2) ∧
      (seq.PeekN n).length = n ∧
      (seq.PeekN n).head? = some seq.Peek ∧
      List.Chain' (fun a b : Int => b = wrapInt64 (a + seq.incrementBy)) (seq.PeekN n) ∧
      (seq.PeekN n).getLast? = some seq2.lastValue ∧
      seq2.called = true ∧ seq2.dirty = true := by
  obtain ⟨m, rfl⟩ : ∃ m, n = m + 1 := ⟨n - 1, by omega⟩
  obtain ⟨seq2, h1, _, h3, h4, h5, _⟩ := NextN_spec m seq herr hty hinc
  have hc := peekLoop_chain seq.incrementBy (m + 1) seq.Peek
  exact ⟨seq2, h1, hc.2.1, hc.2.2 (by omega), hc.1, h3, h4, h5⟩

/-- Witness for C16: three values from a cache at 7 with increment 3. -/
theorem NextN_eq_PeekN_witness :
    (1 ≤ 3 ∧ loadedCache.Err = none ∧ loadedCache.WellTyped ∧ loadedCache.incrementBy ≠ 0) ∧
    loadedCache.PeekN 3 = [10, 13, 16] ∧
    ∃ seq2 : Sequence, loadedCache.NextN 3 = some (loadedCache.PeekN 3, seq2) ∧
      seq2.called = true ∧ seq2.dirty = true :=
  ⟨by decide, by decide, by
    obtain ⟨seq2, h1, _, _, _, _, h6, h7⟩ :=
      NextN_eq_PeekN loadedCache 3 (by decide) (by decide) (by decide) (by decide)
    exact ⟨seq2, h1, h6, h7⟩⟩

theorem Sync_dirty_push {W I A : Type} (tx : Tx W I A) (seq : Sequence) (w : W)
    (hd : seq.dirty = true) :
    ∃ r : SeqResult W I A, seq.Sync tx w = some r ∧
      r.trace = [.setval seq.IdString seq.lastValue seq.called
        (tx.ExecSetval seq.IdString seq.lastValue seq.called w).2] ∧
      r.err = (tx.ExecSetval seq.IdString seq.lastValue seq.called w).2 ∧
      r.seq.lastValue = seq.lastValue ∧ r.seq.called = seq.called ∧
      r.seq.incrementBy = seq.incrementBy ∧
      (r.err = none → r.seq.dirty = false ∧ r.seq.Err = seq.Err) ∧
      (r.err ≠ none → r.seq.dirty = true ∧ r.seq.Err = r.err) := by
  cases hx : (tx.ExecSetval seq.IdString seq.lastValue seq.called w).2 with
  | none =>
    refine ⟨_, by simp only [Sequence.Sync, hd, if_true, Sequence.update, hx]; rfl, ?_⟩
    simp
  | some e =>
    refine ⟨_, by simp only [Sequence.Sync, hd, if_true, Sequence.update, hx]; rfl, ?_⟩
    simp

theorem Sync_clean_pull {W I A : Type} (tx : Tx W I A) (seq : Sequence) (w : W)
    (hd : seq.dirty = false) (hid : seq.Id ≠ none) :
    ∃ (r : SeqResult W I A) (schemaClause : Bool) (args : List (Option String))
      (res : Scanned (Int × Option Int × Int)),
      seq.Sync tx w = some r ∧
      r.trace = [.querySequence schemaClause args res] ∧
      (∀ start last inc, res = .inr (start, last, inc) →
        r.err = none ∧ r.seq.lastValue = last.getD start ∧ r.seq.called = last.isSome ∧
        r.seq.incrementBy = inc ∧ r.seq.dirty = false) ∧
      (∀ e, res = .inl e →
        r.err = some e ∧ r.seq = { seq with Err := some (.loadFailed seq.IdString e) }) := by
  cases hi : seq.Id with
  | none => exact absurd hi hid
  | some sn =>
    obtain ⟨schema, name⟩ := sn
    cases hq : (tx.QueryRowSequence schema.isNone
        (if schema.isNone then [some name, schema] else [some name]) w).2 with
    | inl e =>
      refine ⟨_, schema.isNone, (if schema.isNone then [some name, schema] else [some name]),
        .inl e, by simp only [Sequence.Sync, hd, Sequence.Reload, hi, hq]; rfl, rfl, ?_, ?_⟩
      · intro start last inc h
        simp at h
      · intro e2 h
        simp only [Sum.inl.injEq] at h
        subst h
        refine ⟨rfl, ?_⟩
        cases seq
        simp_all
    | inr row =>
      obtain ⟨start, last, inc⟩ := row
      refine ⟨_, schema.isNone, (if schema.isNone then [some name, schema] else [some name]),
        .inr (start, last, inc),
        by simp only [Sequence.Sync, hd, Sequence.Reload, hi, hq]; rfl, rfl, ?_, ?_⟩
      · intro start2 last2 inc2 h
        simp only [Sum.inr.injEq, Prod.mk.injEq] at h
        obtain ⟨rfl, rfl, rfl⟩ := h
        cases start2' : last with
        | none => simp
        | some v => simp
      · intro e h
        simp at h

/-- C15. A call of `Sync` goes one way. On a dirty cache it makes one `setval` call
with the last value and the `called` flag and no catalog query; the last value, the
flag and the increment stay, and `dirty` is cleared when the call succeeds. On a cache
that is not dirty it makes one catalog query and no `setval`; on success the scanned
row overwrites last value, `called` and increment. -/
theorem Sync_one_direction {W I A : Type} (tx : Tx W I A) (seq : Sequence) (w : W) :
    (seq.dirty = true →
      ∃ r : SeqResult W I A, seq.Sync tx w = some r ∧
        r.trace = [.setval seq.IdString seq.lastValue seq.called
          (tx.ExecSetval seq.IdString seq.lastValue seq.called w).2] ∧
        r.err = (tx.ExecSetval seq.IdString seq.lastValue seq.called w).2 ∧
        r.seq.lastValue = seq.lastValue ∧ r.seq.called = seq.called ∧
        r.seq.incrementBy = seq.incrementBy ∧
        (r.err = none → r.seq.dirty = false ∧ r.seq.Err = seq.Err) ∧
        (r.err ≠ none → r.seq.dirty = true ∧ r.seq.Err = r.err)) ∧
    (seq.dirty = false → seq.Id ≠ none →
      ∃ (r : SeqResult W I A) (schemaClause : Bool) (args : List (Option String))
        (res : Scanned (Int × Option Int × Int)),
        seq.Sync tx w = some r ∧
        r.trace = [.querySequence schemaClause args res] ∧
        (∀ start last inc, res = .inr (start, last, inc) →
          r.err = none ∧ r.seq.lastValue = last.getD start ∧ r.seq.called = last.isSome ∧
          r.seq.incrementBy = inc ∧ r.seq.dirty = false) ∧
        (∀ e, res = .inl e →
          r.err = some e ∧ r.seq = { seq with Err := some (.loadFailed seq.IdString e) })) :=
  ⟨Sync_dirty_push tx seq w, Sync_clean_pull tx seq w⟩

end Db

namespace Db

theorem NewSequence_pgTx {I A : Type} (w : PgSequence) :
    NewSequence (pgTx I A) [w.schema, w.name] w =
      some { seq := Sequence.mk [w.schema, w.name]
               (if w.is_called then w.last_value else w.start_value) w.increment_by
               w.is_called false none,
             world := w,
             trace := [.querySequence false [some w.name] (.inr w.row)],
             err := none } := by
  cases hc : w.is_called <;>
    simp [NewSequence, Sequence.Reload, Sequence.Id, pgTx, PgSequence.row, hc]

theorem Sync_pgTx_dirty (w : PgSequence) (seq : Sequence) (hd : seq.dirty = true)
    (hid : seq.id = [w.schema, w.name]) :
    seq.Sync (pgTx Unit Unit) w =
      some { seq := { seq with dirty := false },
             world := { w with last_value := seq.lastValue, is_called := seq.called },
             trace := [.setval (".".intercalate [w.schema, w.name]) seq.lastValue seq.called none],
             err := none } := by
  simp [Sequence.Sync, hd, Sequence.update, Sequence.IdString, hid, pgTx]

/-- C14 (counterexample). On a sequence that has not been called yet (start value 1,
increment 1), one `Next`, a `Sync` and a fresh load give a cache whose last value is
1, the last value before the run, not 1 plus the increment. -/
theorem roundTrip_not_called :
    ∃ (pre post : Sequence) (tr : List (DbEvent Unit Unit)),
      roundTrip freshIds 1 = some (pre, post, tr) ∧ pre.called = false ∧
      pre.lastValue = 1 ∧ pre.incrementBy = 1 ∧ post.lastValue = 1 ∧
      post.lastValue ≠ pre.lastValue + 1 * pre.incrementBy :=
  ⟨Sequence.mk ["public", "ids"] 1 1 false false none,
   Sequence.mk ["public", "ids"] 1 1 true false none,
   [.setval "public.ids" 1 true none], by decide, rfl, rfl, rfl, rfl, by decide⟩

/-- C14 (amended). On a database sequence with `int64` columns and a non-zero
increment, for `k ≥ 1`: loading a cache, calling `Next` `k` times and `Sync` makes
one `setval` call that stores the last value of the cache with `called` true, and a
cache loaded afterwards reports that value with `called` true. The value is the last
value before the run plus `k` times the increment when the sequence had been called
before the run, and plus `k - 1` times the increment when it had not (the first
`Next` then returns the start value); sums are `int64` sums. -/
theorem roundTrip_spec (w : PgSequence) (k : Nat) (hk : 1 ≤ k)
    (hty : IsInt64 w.start_value ∧ IsInt64 w.last_value ∧ IsInt64 w.increment_by)
    (hinc : w.increment_by ≠ 0) :
    ∃ (pre post : Sequence) (value : Int),
      roundTrip w k = some (pre, post,
        [.setval (".".intercalate [w.schema, w.name]) value true none]) ∧
      pre.lastValue = (if w.is_called then w.last_value else w.start_value) ∧
      pre.called = w.is_called ∧ pre.incrementBy = w.increment_by ∧
      post.lastValue = value ∧ post.called = true ∧ post.incrementBy = w.increment_by ∧
      value = (if w.is_called then wrapInt64 (pre.lastValue + k * w.increment_by)
               else wrapInt64 (pre.lastValue + (k - 1 : Nat) * w.increment_by)) := by
  obtain ⟨m, rfl⟩ : ∃ m, k = m + 1 := ⟨k - 1, by omega⟩
  have hpre : (Sequence.mk [w.schema, w.name]
      (if w.is_called then w.last_value else w.start_value) w.increment_by
      w.is_called false none).WellTyped := by
    refine ⟨?_, hty.2.2⟩
    show IsInt64 (if w.is_called then w.last_value else w.start_value)
    split
    · exact hty.2.1
    · exact hty.1
  obtain ⟨seqk, h1, h2, _, h4, h5, h6, _, h8⟩ := NextN_spec m _ rfl hpre hinc
  have hs := Sync_pgTx_dirty w seqk h5 h8
  refine ⟨Sequence.mk [w.schema, w.name]
      (if w.is_called then w.last_value else w.start_value) w.increment_by
      w.is_called false none,
    Sequence.mk [w.schema, w.name] seqk.lastValue w.increment_by true false none,
    seqk.lastValue, ?_, rfl, rfl, rfl, rfl, rfl, rfl, ?_⟩
  · simp only [roundTrip, NewSequence_pgTx (I := Unit) (A := Unit) w, h1, hs]
    have hn := NewSequence_pgTx (I := Unit) (A := Unit)
      { w with last_value := seqk.lastValue, is_called := seqk.called }
    simp only [h4, if_true] at hn
    simp only [hn, h4]
  · rw [h2]
    cases hc : w.is_called with
    | false =>
      simp only [Sequence.Peek, hc, Bool.false_eq_true, if_false, Nat.add_sub_cancel]
    | true =>
      simp only [Sequence.Peek, hc, if_true, wrapInt64_add_wrapInt64]
      congr 1
      push_cast
      ring

/-- Witness for the amended C14 statement: a called sequence at 7 with increment 3
and three calls of `Next`. -/
theorem roundTrip_spec_witness :
    (1 ≤ 3 ∧
      (IsInt64 (1 : Int) ∧ IsInt64 (7 : Int) ∧ IsInt64 (3 : Int)) ∧ (3 : Int) ≠ 0) ∧
    ∃ (pre post : Sequence) (value : Int),
      roundTrip (PgSequence.mk "public" "ids" 1 7 true 3) 3 = some (pre, post,
        [.setval (".".intercalate ["public", "ids"]) value true none]) ∧
      post.lastValue = value ∧ value = 16 :=
  ⟨by decide, by
    obtain ⟨pre, post, value, h1, h2, _, _, h5, _, _, h8⟩ :=
      roundTrip_spec (PgSequence.mk "public" "ids" 1 7 true 3) 3 (by decide)
        (by decide) (by decide)
    refine ⟨pre, post, value, h1, h5, ?_⟩
    rw [h8, h2]
    decide⟩

end Db

namespace Db

/-! ## Lemmas on the row buffer -/

theorem setIndex_at {α : Type} (pre : List α) (x : α) (rest : List α) (j : Nat) (v : α)
    (hj : j = pre.length) :
    setIndex (pre ++ x :: rest) j v = some (pre ++ v :: rest) := by
  subst hj
  simp [setIndex]

theorem writeFrom_at {α : Type} (vs : List α) :
    ∀ (pre fill rest : List α) (j : Nat), j = pre.length → fill.length = vs.length →
      writeFrom (pre ++ fill ++ rest) j vs = some (pre ++ vs ++ rest) := by
  induction vs with
  | nil =>
    intro pre fill rest j _ hf
    have : fill = [] := List.length_eq_zero.1 hf
    simp [writeFrom, this]
  | cons v vs ih =>
    intro pre fill rest j hj hf
    cases fill with
    | nil => simp at hf
    | cons f fill =>
      have h1 : pre ++ f :: fill ++ rest = pre ++ f :: (fill ++ rest) := by simp
      have h2 := ih (pre ++ [v]) fill rest (j + 1) (by simp [hj]) (by simpa using hf)
      rw [writeFrom, h1, setIndex_at pre f (fill ++ rest) j v hj]
      simpa using h2

theorem fill_row {α : Type} (x : α) (scope : List α) (a b c d : α) (data : List α)
    (sn m : Nat) (hs : scope.length = sn) (hm : data.length = m) :
    (do
      let a1 ← writeFrom (List.replicate (sn + 4 + m) x) 0 scope
      let a2 ← setIndex a1 sn a
      let a3 ← setIndex a2 (sn + 1) b
      let a4 ← setIndex a3 (sn + 2) c
      let a5 ← setIndex a4 (sn + 3) d
      writeFrom a5 (sn + 4) data) = some (scope ++ [a, b, c, d] ++ data) := by
  subst hs hm
  have h0 : List.replicate (scope.length + 4 + data.length) x =
      [] ++ List.replicate scope.length x ++
        (x :: x :: x :: x :: List.replicate data.length x) := by
    rw [List.replicate_add, List.replicate_add]
    simp [List.replicate]
  have w1 := writeFrom_at scope [] (List.replicate scope.length x)
    (x :: x :: x :: x :: List.replicate data.length x) 0 rfl (by simp)
  have s1 := setIndex_at scope x (x :: x :: x :: List.replicate data.length x) scope.length a rfl
  have s2 := setIndex_at (scope ++ [a]) x (x :: x :: List.replicate data.length x)
    (scope.length + 1) b (by simp)
  have s3 := setIndex_at (scope ++ [a, b]) x (x :: List.replicate data.length x)
    (scope.length + 2) c (by simp)
  have s4 := setIndex_at (scope ++ [a, b, c]) x (List.replicate data.length x)
    (scope.length + 3) d (by simp)
  have w2 := writeFrom_at data (scope ++ [a, b, c, d]) (List.replicate data.length x) []
    (scope.length + 4) (by simp) (by simp)
  simp only [List.nil_append, List.append_assoc, List.cons_append, List.append_nil] at w1 s1 s2 s3 s4 w2
  rw [h0]
  simp only [List.nil_append, w1, Option.bind_eq_bind, Option.some_bind, s1, s2, s3, s4, w2,
    List.append_assoc, List.cons_append]

theorem copyFields_eq {A : Type} (opts : NestedSetOpts A) (dataFields : List String) :
    copyFields opts dataFields =
      some (opts.Scope.map (fun v => v.ColumnName) ++
        [opts.IdCol, opts.ParentIdCol, opts.LftCol, opts.RgtCol] ++ dataFields) := by
  exact fill_row "" (opts.Scope.map (fun v => v.ColumnName)) opts.IdCol opts.ParentIdCol
    opts.LftCol opts.RgtCol dataFields opts.Scope.length dataFields.length (by simp) rfl

/-- The row of a record in closed form. -/
theorem copyRow_eq {I A : Type} (parentId : NestedSetNode (List A) → Cell I A)
    (opts : NestedSetOpts A) (dataFields : List String) (lftOffset : Int)
    (rec : NestedSetNode (List A)) (id : I) (hlen : rec.Data.length = dataFields.length) :
    copyRow parentId opts dataFields lftOffset rec id =
      some ((opts.Scope.map (fun v => Cell.val v.Value)) ++
        [Cell.id id,
         (match rec.parent with
          | some p => parentId p
          | none => Cell.null),
         Cell.int (wrapInt64 (rec.lft + lftOffset)),
         Cell.int (wrapInt64 (rec.rgt + lftOffset))] ++
        rec.Data.map Cell.val) := by
  have h := fill_row (Cell.null : Cell I A) ((opts.Scope.map (fun v => v.Value)).map Cell.val)
    (Cell.id id)
    (match rec.parent with
     | some p => parentId p
     | none => Cell.null)
    (Cell.int (wrapInt64 (rec.lft + lftOffset))) (Cell.int (wrapInt64 (rec.rgt + lftOffset)))
    (rec.Data.map Cell.val) opts.Scope.length dataFields.length (by simp) (by simp [hlen])
  have hmap : opts.Scope.map (fun v => (Cell.val v.Value : Cell I A)) =
      (opts.Scope.map (fun v => v.Value)).map Cell.val := by
    rw [List.map_map]
    rfl
  rw [hmap]
  exact h

end Db

namespace Db

/-! ## Lemmas on `copyFromNestedSet` -/

theorem copyRows_eq {I A : Type} (parentId : NestedSetNode (List A) → Cell I A)
    (opts : NestedSetOpts A) (dataFields : List String) (lftOffset : Int)
    (recs : List (NestedSetNode (List A))) :
    ∀ (ids : List I),
      (recs.all fun rec => decide (rec.Data.length = dataFields.length)) = true →
      copyRows parentId opts dataFields lftOffset recs ids =
        some (List.zipWith (rowOf parentId opts lftOffset) recs ids) := by
  induction recs with
  | nil => intro ids _; simp [copyRows]
  | cons rec recs ih =>
    intro ids hlen
    simp only [List.all_cons, Bool.and_eq_true, decide_eq_true_eq] at hlen
    cases ids with
    | nil => simp [copyRows]
    | cons id ids =>
      have hr := copyRow_eq parentId opts dataFields lftOffset rec id hlen.1
      simp only [copyRows, hr, ih ids hlen.2, Option.bind_eq_bind, Option.some_bind,
        List.zipWith_cons_cons, Option.pure_def, rowOf]

theorem assignIds_length {S I : Type} (nextId : Nat → S → Option (I × S)) (n : Nat) :
    ∀ (i : Nat) (s : S) (ids : List I) (s1 : S),
      assignIds nextId n i s = some (ids, s1) → ids.length = n := by
  induction n with
  | zero =>
    intro i s ids s1 h
    simp only [assignIds, Option.some.injEq, Prod.mk.injEq] at h
    rw [← h.1]
    rfl
  | succ n ih =>
    intro i s ids s1 h
    simp only [assignIds] at h
    cases h1 : nextId i s with
    | none => simp [h1] at h
    | some p =>
      obtain ⟨id, s2⟩ := p
      simp only [h1] at h
      cases h2 : assignIds nextId n (i + 1) s2 with
      | none => simp [h2] at h
      | some q =>
        obtain ⟨ids2, s3⟩ := q
        simp only [h2, Option.some.injEq, Prod.mk.injEq] at h
        rw [← h.1, List.length_cons, ih (i + 1) s2 ids2 s3 h2]

theorem copyFromNestedSet_ok {S W I A : Type} (tx : Tx W I A)
    (parentId : NestedSetNode (List A) → Cell I A) (nextId : Nat → S → Option (I × S))
    (opts : NestedSetOpts A) (dataFields : List String) (ns : NestedSet (List A))
    (s : S) (w : W) (offset : Int) (ids : List I) (s1 : S)
    (hq : (tx.QueryRowMaxRgt opts.Table (opts.Scope.map fun v => v.ColumnName)
      (opts.Scope.map fun v => v.Value) w).2 = .inr offset)
    (hlen : (ns.records.all fun rec => decide (rec.Data.length = dataFields.length)) = true)
    (hids : assignIds nextId ns.records.length 0 s = some (ids, s1)) :
    copyFromNestedSet tx parentId nextId opts dataFields ns s w =
      some
        { ids := some ids,
          err := (tx.CopyFrom opts.Table
            (opts.Scope.map (fun v => v.ColumnName) ++
              [opts.IdCol, opts.ParentIdCol, opts.LftCol, opts.RgtCol] ++ dataFields)
            (List.zipWith (rowOf parentId opts offset) ns.records ids)
            (tx.QueryRowMaxRgt opts.Table (opts.Scope.map fun v => v.ColumnName)
              (opts.Scope.map fun v => v.Value) w).1).2,
          state := s1,
          world := (tx.CopyFrom opts.Table
            (opts.Scope.map (fun v => v.ColumnName) ++
              [opts.IdCol, opts.ParentIdCol, opts.LftCol, opts.RgtCol] ++ dataFields)
            (List.zipWith (rowOf parentId opts offset) ns.records ids)
            (tx.QueryRowMaxRgt opts.Table (opts.Scope.map fun v => v.ColumnName)
              (opts.Scope.map fun v => v.Value) w).1).1,
          trace :=
            [.queryMaxRgt opts.Table (opts.Scope.map fun v => v.ColumnName)
               (opts.Scope.map fun v => v.Value) (.inr offset),
             .copyFrom opts.Table
               (opts.Scope.map (fun v => v.ColumnName) ++
                 [opts.IdCol, opts.ParentIdCol, opts.LftCol, opts.RgtCol] ++ dataFields)
               (List.zipWith (rowOf parentId opts offset) ns.records ids)
               (tx.CopyFrom opts.Table
                 (opts.Scope.map (fun v => v.ColumnName) ++
                   [opts.IdCol, opts.ParentIdCol, opts.LftCol, opts.RgtCol] ++ dataFields)
                 (List.zipWith (rowOf parentId opts offset) ns.records ids)
                 (tx.QueryRowMaxRgt opts.Table (opts.Scope.map fun v => v.ColumnName)
                   (opts.Scope.map fun v => v.Value) w).1).2] } := by
  simp only [copyFromNestedSet, GetNestedSetMaxRgt, hq, hids, copyFields_eq,
    copyRows_eq parentId opts dataFields offset ns.records ids hlen, List.singleton_append]

end Db

namespace Db

/-! ## The bulk load: claims -/

/-- C12. When the query of the maximal `rgt` returns `offset` and every payload has as
many values as there are data fields, `copyFromNestedSet` makes that one query and then
one `CopyFrom` call with the columns `[scope column names, IdCol, ParentIdCol, LftCol,
RgtCol, data fields]` and one row per record, in record order, holding `[scope values,
the identifier of the record, the identifier of its parent (null without parent),
lft + offset, rgt + offset, payload values]` (sums are `int64` sums). -/
theorem copyFromNestedSet_rows {S W I A : Type} (tx : Tx W I A)
    (parentId : NestedSetNode (List A) → Cell I A) (nextId : Nat → S → Option (I × S))
    (opts : NestedSetOpts A) (dataFields : List String) (ns : NestedSet (List A))
    (s : S) (w : W) (offset : Int) (ids : List I) (s1 : S)
    (hq : (tx.QueryRowMaxRgt opts.Table (opts.Scope.map fun v => v.ColumnName)
      (opts.Scope.map fun v => v.Value) w).2 = .inr offset)
    (hlen : (ns.records.all fun rec => decide (rec.Data.length = dataFields.length)) = true)
    (hids : assignIds nextId ns.records.length 0 s = some (ids, s1)) :
    ∃ (r : CopyResult S W I A) (res : Option Error),
      copyFromNestedSet tx parentId nextId opts dataFields ns s w = some r ∧
      r.ids = some ids ∧ r.err = res ∧
      r.trace =
        [.queryMaxRgt opts.Table (opts.Scope.map fun v => v.ColumnName)
           (opts.Scope.map fun v => v.Value) (.inr offset),
         .copyFrom opts.Table
           (opts.Scope.map (fun v => v.ColumnName) ++
             [opts.IdCol, opts.ParentIdCol, opts.LftCol, opts.RgtCol] ++ dataFields)
           (List.zipWith (rowOf parentId opts offset) ns.records ids) res] ∧
      (List.zipWith (rowOf parentId opts offset) ns.records ids).length = ns.records.length ∧
      ids.length = ns.records.length := by
  have hl := assignIds_length nextId ns.records.length 0 s ids s1 hids
  refine ⟨_, _, copyFromNestedSet_ok tx parentId nextId opts dataFields ns s w offset ids s1
    hq hlen hids, rfl, rfl, rfl, ?_, hl⟩
  simp [hl]

/-- Witness for C12: the two records of `parentChild` with the identifiers 100, 101. -/
theorem copyFromNestedSet_rows_witness :
    parentChildCopy.map (fun r => r.trace) = some
      [.queryMaxRgt ["tree"] ["tenant"] [5] (.inr 0),
       .copyFrom ["tree"] ["tenant", "id", "parent_id", "_lft", "_rgt", "label"]
         [[.val 5, .id 100, .null, .int 1, .int 4, .val 10],
          [.val 5, .id 101, .null, .int 2, .int 3, .val 11]] none] ∧
    ∃ (r : CopyResult Unit PgSequence Nat Nat) (res : Option Error),
      parentChildCopy = some r ∧ r.ids = some [100, 101] ∧ r.err = res :=
  ⟨by decide, by
    obtain ⟨r, res, h1, h2, h3, _⟩ := copyFromNestedSet_rows (pgTx Nat Nat)
      (fun _ => Cell.null) (fun i s => some (100 + i, s)) treeOpts ["label"]
      ((NewNestedSet (List Nat)).Append [parentChild]) () freshIds 0 [100, 101] ()
      rfl (by decide) rfl
    exact ⟨r, res, h1, h2, h3⟩⟩

/-- In a set built by `Append` calls on a fresh builder no record has a parent, so
every row that `copyFromNestedSet` emits for it has a null `parent_id`. -/
theorem rowOf_built_parent_null {I A : Type} (calls : List (List (NestedSetSource (List A))))
    (parentId : NestedSetNode (List A) → Cell I A) (opts : NestedSetOpts A)
    (lftOffset : Int) (id : I) :
    ∀ rec ∈ ((NewNestedSet (List A)).AppendAll calls).records,
      rowOf parentId opts lftOffset rec id =
        opts.Scope.map (fun v => Cell.val v.Value) ++
          [Cell.id id, Cell.null, Cell.int (wrapInt64 (rec.lft + lftOffset)),
           Cell.int (wrapInt64 (rec.rgt + lftOffset))] ++ rec.Data.map Cell.val := by
  intro rec hrec
  have h := (AppendAll_depth_parent calls rec hrec).2
  simp only [rowOf, h]

/-- C13 (code defect). For a root with one child, loaded with identifiers from the
sequence `public.ids`, the row of the child (identifier 2, interval 2 to 3) has a null
`parent_id`, like the row of the root (identifier 1), and not the identifier 1 of its
parent: `appendNode` never stores a parent in a record. -/
theorem copyFrom_child_parent_id_null :
    parentChildInsert.map (fun r => r.trace) = some
      [.querySequence false [some "ids"] (.inr (1, none, 1)),
       .queryMaxRgt ["tree"] ["tenant"] [5] (.inr 0),
       .copyFrom ["tree"] ["tenant", "id", "parent_id", "_lft", "_rgt", "label"]
         [[.val 5, .id 1, .null, .int 1, .int 4, .val 10],
          [.val 5, .id 2, .null, .int 2, .int 3, .val 11]] none,
       .setval "public.ids" 2 true none] := by
  decide

end Db

namespace Db

theorem Reload_id {W I A : Type} (tx : Tx W I A) (seq : Sequence) (w : W)
    (c : SeqResult W I A) (h : seq.Reload tx w = some c) : c.seq.id = seq.id := by
  unfold Sequence.Reload at h
  cases hi : seq.Id with
  | none => simp [hi] at h
  | some sn =>
    obtain ⟨schema, name⟩ := sn
    simp only [hi] at h
    cases hq : (tx.QueryRowSequence schema.isNone
        (if schema.isNone then [some name, schema] else [some name]) w).2 with
    | inl e =>
      simp only [hq, Option.some.injEq] at h
      rw [← h]
    | inr row =>
      obtain ⟨start, last, inc⟩ := row
      simp only [hq, Option.some.injEq] at h
      rw [← h]
      cases last <;> rfl

theorem assignIds_Next (n : Nat) : ∀ (i : Nat) (seq : Sequence),
    assignIds (fun _ s => Sequence.Next s) n i seq = seq.NextN n := by
  induction n with
  | zero => intro i seq; rfl
  | succ n ih =>
    intro i seq
    simp only [assignIds, Sequence.NextN]
    cases h : seq.Next with
    | none => rfl
    | some p =>
      obtain ⟨v, seq1⟩ := p
      simp only [ih (i + 1) seq1]
      generalize seq1.NextN n = o
      cases o with
      | none => rfl
      | some q =>
        cases q
        rfl

theorem assignIds_pure {S I : Type} (f : Nat → I) (n : Nat) : ∀ (i : Nat) (s : S),
    assignIds (fun k s => some (f k, s)) n i s =
      some ((List.range n).map (fun k => f (i + k)), s) := by
  induction n with
  | zero => intro i s; rfl
  | succ n ih =>
    intro i s
    simp only [assignIds, ih (i + 1) s, List.range_succ_eq_map, List.map_cons, List.map_map,
      Nat.add_zero]
    congr 3
    apply List.map_congr_left
    intro k _
    simp only [Function.comp_apply]
    congr 1
    omega

theorem Sync_dirty_result {W I A : Type} (tx : Tx W I A) (seq : Sequence) (w : W)
    (hd : seq.dirty = true) :
    ∃ r : SeqResult W I A, seq.Sync tx w = some r ∧
      tx.ExecSetval seq.IdString seq.lastValue seq.called w = (r.world, r.err) ∧
      r.trace = [.setval seq.IdString seq.lastValue seq.called r.err] ∧
      r.seq.lastValue = seq.lastValue ∧ r.seq.called = seq.called ∧
      (r.err = none → r.seq.dirty = false) ∧
      (r.err ≠ none → r.seq.dirty = true ∧ r.seq.Err = r.err) := by
  cases hx : (tx.ExecSetval seq.IdString seq.lastValue seq.called w).2 with
  | none =>
    refine ⟨_, by simp only [Sequence.Sync, hd, if_true, Sequence.update, hx]; rfl, ?_⟩
    refine ⟨Prod.ext rfl hx, by simp, rfl, rfl, by simp, by simp⟩
  | some e =>
    refine ⟨_, by simp only [Sequence.Sync, hd, if_true, Sequence.update, hx]; rfl, ?_⟩
    refine ⟨Prod.ext rfl hx, by simp, rfl, rfl, by simp, by simp [hd]⟩

/-- C17 (counterexample). In a transaction block whose bulk copy is rejected,
`InsertNestedSetInt64` on the two records of `parentChild` returns the identifiers 1
and 2 and the error of the copy; its last call is `setval` of 2, which the aborted
block rejects; the sequence in the database is still the fresh one, and the cache is
left dirty. -/
theorem copy_failure_blocks_push :
    failedCopyInsert.map (fun r => (r.ids, r.err)) = some (some [1, 2], some errCopy) ∧
    failedCopyInsert.map (fun r => r.trace.getLast?) =
      some (some (.setval "public.ids" 2 true (some errAborted))) ∧
    failedCopyInsert.map (fun r => r.world.db) = some freshIds ∧
    failedCopyInsert.map (fun r => (r.state.dirty, r.state.Err)) =
      some (true, some errAborted) := by
  refine ⟨by decide, by decide, by decide, by decide⟩

/-- C17 (amended). When the cache of the sequence is loaded without error (with `int64`
fields and a non-zero increment), the query of the maximal `rgt` succeeds and no
payload is longer or shorter than the data fields, `InsertNestedSetInt64` on `n ≥ 1`
records returns the values `PeekN(n)` of the loaded cache and the error of `CopyFrom`,
writes the `i`-th value into the row of the `i`-th record, and makes as its last call
on the database, whatever `CopyFrom` returned, the `setval` that stores the last value
with `called` true. The result of that call is not returned: when it is nil the cache
is left clean, and when it is an error the cache is left dirty with that error. -/
theorem InsertNestedSetInt64_ids {W A : Type} (tx : Tx W Int A)
    (parentId : NestedSetNode (List A) → Cell Int A) (idSequenceName : List String)
    (opts : NestedSetOpts A) (dataFields : List String) (ns : NestedSet (List A)) (w : W)
    (c0 : SeqResult W Int A) (offset : Int)
    (hnew : NewSequence tx idSequenceName w = some c0) (herr : c0.seq.Err = none)
    (hty : c0.seq.WellTyped) (hinc : c0.seq.incrementBy ≠ 0)
    (hq : (tx.QueryRowMaxRgt opts.Table (opts.Scope.map fun v => v.ColumnName)
      (opts.Scope.map fun v => v.Value) c0.world).2 = .inr offset)
    (hlen : (ns.records.all fun rec => decide (rec.Data.length = dataFields.length)) = true)
    (hn : 1 ≤ ns.records.length) :
    ∃ (r : CopyResult Sequence W Int A) (wc : W) (copyRes setRes : Option Error) (lastId : Int),
      InsertNestedSetInt64 tx parentId idSequenceName opts dataFields ns w = some r ∧
      r.ids = some (c0.seq.PeekN ns.records.length) ∧ r.err = copyRes ∧
      (c0.seq.PeekN ns.records.length).getLast? = some lastId ∧
      tx.CopyFrom opts.Table
        (opts.Scope.map (fun v => v.ColumnName) ++
          [opts.IdCol, opts.ParentIdCol, opts.LftCol, opts.RgtCol] ++ dataFields)
        (List.zipWith (rowOf parentId opts offset) ns.records
          (c0.seq.PeekN ns.records.length))
        (tx.QueryRowMaxRgt opts.Table (opts.Scope.map fun v => v.ColumnName)
          (opts.Scope.map fun v => v.Value) c0.world).1 = (wc, copyRes) ∧
      tx.ExecSetval (".".intercalate idSequenceName) lastId true wc = (r.world, setRes) ∧
      r.trace = c0.trace ++
        [.queryMaxRgt opts.Table (opts.Scope.map fun v => v.ColumnName)
           (opts.Scope.map fun v => v.Value) (.inr offset),
         .copyFrom opts.Table
           (opts.Scope.map (fun v => v.ColumnName) ++
             [opts.IdCol, opts.ParentIdCol, opts.LftCol, opts.RgtCol] ++ dataFields)
           (List.zipWith (rowOf parentId opts offset) ns.records
             (c0.seq.PeekN ns.records.length)) copyRes,
         .setval (".".intercalate idSequenceName) lastId true setRes] ∧
      r.state.lastValue = lastId ∧ r.state.called = true ∧
      (setRes = none → r.state.dirty = false) ∧
      (setRes ≠ none → r.state.dirty = true ∧ r.state.Err = setRes) := by
  obtain ⟨m, hm⟩ : ∃ m, ns.records.length = m + 1 := ⟨ns.records.length - 1, by omega⟩
  obtain ⟨seq2, h1, _, h3, h4, h5, _, _, h8⟩ := NextN_spec m c0.seq herr hty hinc
  rw [← hm] at h1 h3
  have hids : assignIds (fun _ s => Sequence.Next s) ns.records.length 0 c0.seq =
      some (c0.seq.PeekN ns.records.length, seq2) := by
    rw [assignIds_Next, h1]
  have hcopy := copyFromNestedSet_ok tx parentId (fun _ s => Sequence.Next s) opts dataFields
    ns c0.seq c0.world offset _ seq2 hq hlen hids
  obtain ⟨sy, hsy, hsyw, hsytr, hsyl, hsyc, hsy0, hsy1⟩ := Sync_dirty_result tx seq2
    (tx.CopyFrom opts.Table
      (opts.Scope.map (fun v => v.ColumnName) ++
        [opts.IdCol, opts.ParentIdCol, opts.LftCol, opts.RgtCol] ++ dataFields)
      (List.zipWith (rowOf parentId opts offset) ns.records (c0.seq.PeekN ns.records.length))
      (tx.QueryRowMaxRgt opts.Table (opts.Scope.map fun v => v.ColumnName)
        (opts.Scope.map fun v => v.Value) c0.world).1).1 h5
  have hid : seq2.IdString = ".".intercalate idSequenceName := by
    have := Reload_id tx _ w c0 hnew
    simp only [Sequence.IdString, h8, this]
  rw [hid, h4] at hsyw hsytr
  exact ⟨_, _, _, sy.err, seq2.lastValue,
    by simp only [InsertNestedSetInt64, hnew, herr, hcopy, hsy]; rfl,
    by rfl, by rfl, h3, by rfl, hsyw,
    by simp only [hsytr, List.append_assoc, List.cons_append, List.nil_append],
    hsyl, by rw [← h4]; exact hsyc, hsy0, hsy1⟩

/-- Witness for C17: on a database whose `CopyFrom` and `setval` succeed, the two
records of `parentChild` get the identifiers 1 and 2 of the fresh sequence
`public.ids`, the last call is the `setval` of 2, the sequence in the database holds 2
as called, and the cache is left clean. -/
theorem InsertNestedSetInt64_ids_witness :
    parentChildInsert.map (fun r => r.ids) = some (some [1, 2]) ∧
    parentChildInsert.map (fun r => (r.world.last_value, r.world.is_called, r.state.dirty)) =
      some (2, true, false) ∧
    ∃ (r : CopyResult Sequence PgSequence Int Nat) (setRes : Option Error) (lastId : Int),
      parentChildInsert = some r ∧
      r.trace.getLast? = some (.setval (".".intercalate ["public", "ids"]) lastId true setRes) ∧
      r.state.lastValue = lastId ∧
      (setRes = none → r.state.dirty = false) :=
  ⟨by decide, by decide, by
    obtain ⟨r, _, _, setRes, lastId, h1, _, _, _, _, _, h7, h8, _, h10, _⟩ :=
      InsertNestedSetInt64_ids (pgTx Int Nat) (fun _ => Cell.null) ["public", "ids"] treeOpts
        ["label"] ((NewNestedSet (List Nat)).Append [parentChild]) freshIds _ 0
        (NewSequence_pgTx freshIds) rfl (by decide) (by decide) rfl (by decide) (by decide)
    refine ⟨r, setRes, lastId, h1, ?_, h8, h10⟩
    rw [h7]
    simp⟩

end Db

namespace Db

/-- C18. When the catalog query of `NewSequence` fails with `e`: the cache records the
load error and keeps its initial fields; `TryNext` and `SetLast` return that error and
leave the cache as it is, and `Next` panics; `InsertNestedSetInt64` returns nil ids
and the load error after that one query, without the query of the maximal `rgt` and
without `CopyFrom`. -/
theorem load_error_stops {W A : Type} (tx : Tx W Int A)
    (parentId : NestedSetNode (List A) → Cell Int A) (identifier : List String)
    (opts : NestedSetOpts A) (dataFields : List String) (ns : NestedSet (List A)) (w : W)
    (schema : Option String) (name : String) (e : Error)
    (hid : Sequence.Id (Sequence.mk identifier 1 1 false false none) = some (schema, name))
    (hq : (tx.QueryRowSequence schema.isNone
      (if schema.isNone then [some name, schema] else [some name]) w).2 = .inl e) :
    ∃ (c0 : SeqResult W Int A) (r : CopyResult Sequence W Int A),
      NewSequence tx identifier w = some c0 ∧
      c0.seq = Sequence.mk identifier 1 1 false false
        (some (.loadFailed (".".intercalate identifier) e)) ∧
      c0.seq.TryNext = (c0.seq, c0.seq.Peek, c0.seq.Err) ∧
      (∀ v, c0.seq.SetLast v = (c0.seq, c0.seq.Err)) ∧
      c0.seq.Next = none ∧
      InsertNestedSetInt64 tx parentId identifier opts dataFields ns w = some r ∧
      r.ids = none ∧ r.err = c0.seq.Err ∧ r.state = c0.seq ∧
      r.trace = [.querySequence schema.isNone
        (if schema.isNone then [some name, schema] else [some name]) (.inl e)] := by
  have hnew : NewSequence tx identifier w = some
      (SeqResult.mk
        (Sequence.mk identifier 1 1 false false
          (some (.loadFailed (".".intercalate identifier) e)))
        (tx.QueryRowSequence schema.isNone
          (if schema.isNone then [some name, schema] else [some name]) w).1
        [.querySequence schema.isNone
          (if schema.isNone then [some name, schema] else [some name]) (.inl e)]
        (some e)) := by
    simp only [NewSequence, Sequence.Reload, hid, hq, Sequence.IdString]
  exact ⟨_, _, hnew, by rfl, by simp [Sequence.TryNext], by intro v; simp [Sequence.SetLast],
    by simp [Sequence.Next, Sequence.TryNext],
    by simp only [InsertNestedSetInt64, hnew]; rfl, by rfl, by rfl, by rfl, by rfl⟩

/-- Witness for C18: the sequence named `ids` without schema, whose catalog query
selects no row. -/
theorem load_error_stops_witness :
    (Sequence.Id (Sequence.mk ["ids"] 1 1 false false none) = some (none, "ids") ∧
      ((pgTx Int Nat).QueryRowSequence true [some "ids", none] freshIds).2 = .inl errNoRows) ∧
    parentChildInsertUnqualified.map (fun r => (r.ids, r.err, r.trace)) =
      some (none, some (.loadFailed "ids" errNoRows),
        [.querySequence true [some "ids", none] (.inl errNoRows)]) ∧
    ∃ (c0 : SeqResult PgSequence Int Nat), NewSequence (pgTx Int Nat) ["ids"] freshIds = some c0 ∧
      c0.seq.Next = none :=
  ⟨⟨rfl, rfl⟩, by decide, by
    obtain ⟨c0, _, h1, _, _, _, h5, _⟩ := load_error_stops (pgTx Int Nat) (fun _ => Cell.null)
      ["ids"] treeOpts ["label"] ((NewNestedSet (List Nat)).Append [parentChild]) freshIds
      none "ids" errNoRows rfl rfl
    exact ⟨c0, h1, h5⟩⟩

/-- C19 (counterexample). The ordinals 0 and 2^32 are different, but `uint32(i)` maps
both to 0, so the hashed name bytes are the same and both ordinals receive the same
identifier, whatever the hash. -/
theorem uuid_ordinals_collide :
    (0 : Nat) ≠ 4294967296 ∧ bigEndianUint32 0 = bigEndianUint32 4294967296 ∧
    ∀ (U : Type) (NewSHA1 : U → List Nat → U) (idNamespace : U),
      NewSHA1 idNamespace (bigEndianUint32 0) = NewSHA1 idNamespace (bigEndianUint32 4294967296) :=
  ⟨by decide, by decide, fun _ _ _ => rfl⟩

theorem bigEndianUint32_injective (i j : Nat) (hi : i < 4294967296) (hj : j < 4294967296)
    (h : bigEndianUint32 i = bigEndianUint32 j) : i = j := by
  simp only [bigEndianUint32, List.cons.injEq, and_true] at h
  omega

/-- C19 (amended). When the query of the maximal `rgt` succeeds and every payload has
as many values as there are data fields, `InsertNestedSetUUID` returns for the record
at ordinal `i` the identifier `NewSHA1(namespace, name)` where `name` is the big-endian
encoding of `uint32(i)`. The name bytes of two distinct ordinals below 2^32 differ;
two ordinals that are equal modulo 2^32 have the same name bytes and so the same
identifier. -/
theorem InsertNestedSetUUID_ids {W U A : Type} (tx : Tx W U A) (NewSHA1 : U → List Nat → U)
    (parentId : NestedSetNode (List A) → Cell U A) (idNamespace : U)
    (opts : NestedSetOpts A) (dataFields : List String) (ns : NestedSet (List A)) (w : W)
    (offset : Int)
    (hq : (tx.QueryRowMaxRgt opts.Table (opts.Scope.map fun v => v.ColumnName)
      (opts.Scope.map fun v => v.Value) w).2 = .inr offset)
    (hlen : (ns.records.all fun rec => decide (rec.Data.length = dataFields.length)) = true) :
    (∃ r : CopyResult Unit W U A,
      InsertNestedSetUUID tx NewSHA1 parentId idNamespace opts dataFields ns w = some r ∧
      r.ids = some ((List.range ns.records.length).map
        (fun i => NewSHA1 idNamespace (bigEndianUint32 i)))) ∧
    (∀ i j : Nat, i < 4294967296 → j < 4294967296 → i ≠ j →
      bigEndianUint32 i ≠ bigEndianUint32 j) ∧
    (∀ i j : Nat, i % 4294967296 = j % 4294967296 →
      NewSHA1 idNamespace (bigEndianUint32 i) = NewSHA1 idNamespace (bigEndianUint32 j)) := by
  refine ⟨?_, ?_, ?_⟩
  · have hids := assignIds_pure (S := Unit)
      (fun i => NewSHA1 idNamespace (bigEndianUint32 i)) ns.records.length 0 ()
    simp only [Nat.zero_add] at hids
    exact ⟨_, copyFromNestedSet_ok tx parentId _ opts dataFields ns () w offset _ () hq hlen hids,
      rfl⟩
  · intro i j hi hj hne h
    exact hne (bigEndianUint32_injective i j hi hj h)
  · intro i j h
    simp only [bigEndianUint32, h]

/-- Witness for the amended C19 statement: the two records of `parentChild` under the
stand-in hash. -/
theorem InsertNestedSetUUID_ids_witness :
    parentChildInsertUUID.map (fun r => r.ids) = some (some [1000, 1001]) ∧
    ∃ r : CopyResult Unit PgSequence Nat Nat, parentChildInsertUUID = some r ∧
      r.ids = some ((List.range ((NewNestedSet (List Nat)).Append [parentChild]).records.length).map
        (fun i => toySHA1 1000 (bigEndianUint32 i))) :=
  ⟨by decide,
    (InsertNestedSetUUID_ids (pgTx Nat Nat) toySHA1 (fun _ => Cell.null) 1000 treeOpts ["label"]
      ((NewNestedSet (List Nat)).Append [parentChild]) freshIds 0 rfl (by decide)).1⟩

end Db

namespace PsqlSeed

/-- Three units added in two `Add` calls come back from `Seeders()` in name order. -/
theorem Seeders_example :
    (Seeders (byNameSort Nat)
      (Repository.AddAll [[okSeeder "02_b"], [okSeeder "03_c", okSeeder "01_a"]])).map
      (fun s => s.Name) = [nm "01_a", nm "02_b", nm "03_c"] := by
  decide

end PsqlSeed

namespace PsqlSeed

/-! ## `Seeders` on equal names, `SubStore`, `SubStoreTill` -/

theorem eq_of_perm_of_map_name_eq {W : Type} :
    ∀ (l1 l2 : List (Seeder W)), List.Perm l1 l2 →
      l1.map (fun s => s.Name) = l2.map (fun s => s.Name) →
      (l1.map (fun s => s.Name)).Nodup → l1 = l2
  | [], l2, hp, _, _ => (List.Perm.nil_eq hp)
  | a :: t1, [], hp, _, _ => absurd hp.symm (List.Perm.nil_eq · |> fun h => by simp at h)
  | a :: t1, b :: t2, hp, hm, hn => by
    simp only [List.map_cons, List.cons.injEq] at hm
    simp only [List.map_cons, List.nodup_cons] at hn
    have hab : a = b := by
      have ha : a ∈ b :: t2 := hp.subset (List.mem_cons_self _ _)
      rcases List.mem_cons.1 ha with h | h
      · exact h
      · exfalso
        apply hn.1
        rw [hm.2]
        exact List.mem_map.2 ⟨a, h, rfl⟩
    subst hab
    rw [eq_of_perm_of_map_name_eq t1 t2 (List.Perm.cons_inv hp) hm.2 hn.2]

theorem sorted_perm_unique {W : Type} (l1 l2 : List (Seeder W)) (hp : List.Perm l1 l2)
    (h1 : List.Pairwise (fun a b : Seeder W => ¬ b.Name < a.Name) l1)
    (h2 : List.Pairwise (fun a b : Seeder W => ¬ b.Name < a.Name) l2)
    (hn : (l1.map (fun s => s.Name)).Nodup) : l1 = l2 := by
  have hm : l1.map (fun s => s.Name) = l2.map (fun s => s.Name) := by
    apply List.eq_of_perm_of_sorted (r := fun a b : Name => a ≤ b) (hp.map _)
    · exact (List.pairwise_map.2 (h1.imp (fun h => not_lt.1 h)))
    · exact (List.pairwise_map.2 (h2.imp (fun h => not_lt.1 h)))
  exact eq_of_perm_of_map_name_eq l1 l2 hp hm hn

/-- When the names in the registry are pairwise distinct, `Seeders()` returns the same
list under every sort that meets the contract of `sort.Slice`: the order is fixed by
the names alone. -/
theorem Seeders_unique_of_distinct_names {W : Type} (S S2 : SortSlice W)
    (seeders : List (Seeder W)) (h : (seeders.map (fun s => s.Name)).Nodup) :
    Seeders S seeders = Seeders S2 seeders := by
  unfold Seeders
  apply sorted_perm_unique _ _ ((S.perm seeders).trans (S2.perm seeders).symm)
    (S.sorted seeders) (S2.sorted seeders)
  exact ((S.perm seeders).map _).nodup_iff.2 h

theorem Seeders_unique_of_distinct_names_witness :
    ([okSeeder "02_b", okSeeder "01_a", failSeeder "03_c"].map (fun s => s.Name)).Nodup ∧
    Seeders (byNameSort Nat) [okSeeder "02_b", okSeeder "01_a", failSeeder "03_c"] =
      Seeders (stableByNameSort Nat) [okSeeder "02_b", okSeeder "01_a", failSeeder "03_c"] :=
  ⟨by decide, Seeders_unique_of_distinct_names _ _ _ (by decide)⟩

theorem firstNamed_eq_find {W : Type} (name : Name) (l : List (Seeder W)) :
    firstNamed name l = l.find? (fun s => s.Name == name) := by
  induction l with
  | nil => rfl
  | cons s rest ih =>
    unfold firstNamed
    by_cases h : name = s.Name
    · simp [h]
    · have h2 : ¬ s.Name = name := fun e => h e.symm
      simp [h, h2, ih]

theorem firstNamed_none_iff {W : Type} (name : Name) (l : List (Seeder W)) :
    firstNamed name l = none ↔ ∀ s ∈ l, s.Name ≠ name := by
  rw [firstNamed_eq_find]
  simp

theorem subStoreLoop_eq {W : Type} (all : List (Seeder W)) :
    ∀ (names : List Name) (res : List (Option (Seeder W))) (nf : List Name),
      subStoreLoop all names res nf =
        (res ++ names.map (fun n => firstNamed n all),
         nf ++ names.filter (fun n => (firstNamed n all).isNone))
  | [], res, nf => by simp [subStoreLoop]
  | n :: rest, res, nf => by
    unfold subStoreLoop
    cases h : firstNamed n all with
    | none => simp [subStoreLoop_eq all rest, h]
    | some s => simp [subStoreLoop_eq all rest, h]

/-- C22. `SubStore(names)` returns an error exactly when some requested name matches no
registered seeder; the error carries the requested names without a match, in request
order; the store holds, for each requested name in request order, the first seeder of
the registry with that name, and when there is no error none of its entries is nil. -/
theorem SubStore_spec {W : Type} (seeders : List (Seeder W)) (names : List Name) :
    ((Repository.SubStore seeders names).2 ≠ none ↔
      ∃ n ∈ names, ∀ s ∈ seeders, s.Name ≠ n) ∧
    (∀ e, (Repository.SubStore seeders names).2 = some e →
      e = .notFound (names.filter (fun n => seeders.all (fun s => s.Name != n)))) ∧
    (Repository.SubStore seeders names).1 =
      names.map (fun n => seeders.find? (fun s => s.Name == n)) ∧
    ((Repository.SubStore seeders names).2 = none →
      ∀ o ∈ (Repository.SubStore seeders names).1, o.isSome = true) := by
  have hfilter : names.filter (fun n => (firstNamed n seeders).isNone) =
      names.filter (fun n => seeders.all (fun s => s.Name != n)) := by
    apply List.filter_congr
    intro n _
    rw [Bool.eq_iff_iff]
    simp [Option.isNone_iff_eq_none, firstNamed_none_iff]
  have hmap : names.map (fun n => firstNamed n seeders) =
      names.map (fun n => seeders.find? (fun s => s.Name == n)) := by
    apply List.map_congr_left
    intro n _
    exact firstNamed_eq_find n seeders
  have hnil : names.filter (fun n => seeders.all (fun s => s.Name != n)) = [] ↔
      ¬ ∃ n ∈ names, ∀ s ∈ seeders, s.Name ≠ n := by
    simp [List.filter_eq_nil_iff]
  simp only [Repository.SubStore, subStoreLoop_eq, List.nil_append, hfilter, hmap]
  by_cases hm : names.filter (fun n => seeders.all (fun s => s.Name != n)) = []
  · have hno := hnil.1 hm
    rw [hm]
    refine ⟨by simpa using hno, by simp, trivial, ?_⟩
    intro _ o ho
    rcases List.mem_map.1 ho with ⟨n, hn, rfl⟩
    cases hf : seeders.find? (fun s => s.Name == n) with
    | some s => rfl
    | none =>
      exfalso
      apply hno
      refine ⟨n, hn, ?_⟩
      intro s hs
      have := List.find?_eq_none.1 hf s hs
      simpa using this
  · have hpos : (names.filter (fun n => seeders.all (fun s => s.Name != n))).length > 0 :=
      List.length_pos.2 hm
    have hex : ∃ n ∈ names, ∀ s ∈ seeders, s.Name ≠ n := by
      by_contra hc
      exact hm (hnil.2 hc)
    simp only [hpos, if_true]
    refine ⟨⟨fun _ => hex, fun _ => by simp⟩, ?_, trivial, by simp⟩
    intro e he
    exact (Option.some.inj he).symm

theorem tillLoop_spec {W : Type} (p : Name) (till : Nat) :
    ∀ (l : List (Seeder W)) (i : Nat),
      (∀ s ∈ l, p.length ≤ s.Name.length) →
      (∃ s ∈ l, p < s.Name.take p.length) →
      ∃ k s, l[k]? = some s ∧ p < s.Name.take p.length ∧
        (∀ j t, j < k → l[j]? = some t → ¬ p < t.Name.take p.length) ∧
        tillLoop p till l i = some (i + k + 1)
  | [], _, _, hex => by simp at hex
  | s :: rest, i, hlen, hex => by
    have hs : ¬ s.Name.length < p.length := not_lt.2 (hlen s (List.mem_cons_self _ _))
    unfold tillLoop
    rw [if_neg hs]
    by_cases hgt : p < s.Name.take p.length
    · rw [if_pos hgt]
      exact ⟨0, s, by simp, hgt, by intro j t hj; omega, rfl⟩
    · rw [if_neg hgt]
      have hex2 : ∃ t ∈ rest, p < t.Name.take p.length := by
        rcases hex with ⟨t, ht, hp⟩
        rcases List.mem_cons.1 ht with h | h
        · subst h; exact absurd hp hgt
        · exact ⟨t, h, hp⟩
      rcases tillLoop_spec p till rest (i + 1)
        (fun t ht => hlen t (List.mem_cons_of_mem _ ht)) hex2 with ⟨k, t, hk, hp, hmin, hr⟩
      refine ⟨k + 1, t, by simpa using hk, hp, ?_, by rw [hr]; congr 1; omega⟩
      intro j u hj hu
      cases j with
      | zero =>
        simp at hu
        subst hu
        exact hgt
      | succ j =>
        exact hmin j u (by omega) (by simpa using hu)

/-- C23. Whenever every name is at least as long as the prefix and some seeder has a
truncated name greater than the prefix, `SubStoreTill(prefix)` returns a store that
contains such a seeder: the first one in name order is kept as the last element. -/
theorem SubStoreTill_keeps_greater {W : Type} (S : SortSlice W) (seeders : List (Seeder W))
    (p : Name)
    (hlen : seeders.all (fun s => decide (p.length ≤ s.Name.length)) = true)
    (hex : seeders.any (fun s => decide (p < s.Name.take p.length)) = true) :
    ∃ res s, Repository.SubStoreTill S seeders p = some res ∧
      res.getLast? = some s ∧ p < s.Name.take p.length := by
  have hlen2 : ∀ s ∈ Seeders S seeders, p.length ≤ s.Name.length := by
    intro s hs
    have := List.all_eq_true.1 hlen s ((S.perm seeders).subset hs)
    simpa using this
  have hex2 : ∃ s ∈ Seeders S seeders, p < s.Name.take p.length := by
    rcases List.any_eq_true.1 hex with ⟨s, hs, hp⟩
    exact ⟨s, (S.perm seeders).symm.subset hs, by simpa using hp⟩
  rcases tillLoop_spec p (Seeders S seeders).length (Seeders S seeders) 0 hlen2 hex2 with
    ⟨k, s, hk, hp, _, hr⟩
  refine ⟨(Seeders S seeders).take (k + 1), s, ?_, ?_, hp⟩
  · simp only [Repository.SubStoreTill, hr, Option.map_some']
    simp
  · have hlt : k < (Seeders S seeders).length := by
      rcases List.getElem?_eq_some_iff.1 hk with ⟨h, _⟩
      exact h
    rw [List.getLast?_eq_getElem?]
    simp only [List.length_take]
    have : min (k + 1) (Seeders S seeders).length - 1 = k := by omega
    rw [this, List.getElem?_take_of_lt (by omega)]
    exact hk

theorem SubStoreTill_keeps_greater_witness :
    [okSeeder "01_a", okSeeder "03_c", okSeeder "02_b", okSeeder "04_d"].all
        (fun s => decide ((nm "02").length ≤ s.Name.length)) = true ∧
    [okSeeder "01_a", okSeeder "03_c", okSeeder "02_b", okSeeder "04_d"].any
        (fun s => decide (nm "02" < s.Name.take (nm "02").length)) = true ∧
    ∃ res s, Repository.SubStoreTill (byNameSort Nat)
        [okSeeder "01_a", okSeeder "03_c", okSeeder "02_b", okSeeder "04_d"] (nm "02") =
          some res ∧
      res.getLast? = some s ∧ nm "02" < s.Name.take (nm "02").length :=
  ⟨by decide, by decide, SubStoreTill_keeps_greater _ _ _ (by decide) (by decide)⟩

/-- The registry `01_a`, `03_c`, `02_b`, `04_d` cut with `SubStoreTill("02")` keeps
`03_c`, whose truncated name `03` is greater than the prefix. -/
theorem SubStoreTill_example :
    (Repository.SubStoreTill (byNameSort Nat)
      [okSeeder "01_a", okSeeder "03_c", okSeeder "02_b", okSeeder "04_d"] (nm "02")).map
      (fun l => l.map (fun s => s.Name)) = some [nm "01_a", nm "02_b", nm "03_c"] := by
  decide

end PsqlSeed

namespace Fake

/-! ## `ToSeedOffset` -/

theorem fnvWrite_eq_fnv1From (v : List Nat) :
    ∀ h : Nat, fnvWrite h v = fnv1From h v := by
  induction v with
  | nil => intro h; rfl
  | cons b rest ih =>
    intro h
    have hstep : (h * prime64 % 2 ^ 64) ^^^ b = fnv1Step h b := by
      simp [fnv1Step, prime64]
    simp only [fnvWrite, List.foldl_cons, fnv1From]
    rw [hstep]
    exact ih (fnv1Step h b)

theorem fnvWrite_lt (v : List Nat) (hv : ∀ b ∈ v, b < 256) :
    ∀ h : Nat, h < 2 ^ 64 → fnvWrite h v < 2 ^ 64 := by
  induction v with
  | nil => intro h hh; exact hh
  | cons b rest ih =>
    intro h _
    simp only [fnvWrite, List.foldl_cons]
    apply ih (fun c hc => hv c (List.mem_cons_of_mem _ hc))
    apply Nat.xor_lt_two_pow
    · exact Nat.mod_lt _ (by decide)
    · exact lt_trans (hv b (List.mem_cons_self _ _)) (by decide)

/-- The value of `ToSeedOffset` fits a `uint64`. -/
theorem ToSeedOffset_lt (v : List Nat) (hv : ∀ b ∈ v, b < 256) : ToSeedOffset v < 2 ^ 64 :=
  fnvWrite_lt v hv _ (by decide)

/-- The published FNV-1 test vector for the one-byte string `a`. -/
theorem ToSeedOffset_a : ToSeedOffset (PsqlSeed.nm "a") = 0xaf63bd4c8601b7be := by
  decide

end Fake

namespace PsqlSeed

/-- C24. `ToSeedOffset(v)` is the 64-bit FNV-1 hash of the bytes of `v`; the offset
stored by `RandFnSeeder(name)` is `ToSeedOffset` of the bytes of the name; and for a
seed `S` the faker `RunSeederTx` hands to the implementation is `S.NewFaker(name)`,
built on the source with the pair `(S, ToSeedOffset(name))`. -/
theorem RandFnSeeder_offset {W : Type} (seed : Nat) (name : Name)
    (impl : Fake.Faker → W → W × Option Error) (w : W) :
    Fake.ToSeedOffset name = Fake.fnv1 name ∧
    (RandFnSeeder name impl).seedOffset = Fake.ToSeedOffset name ∧
    (RandFnSeeder name impl).RunSeederTx seed w = impl (Fake.Seed.NewFaker seed name) w ∧
    (Fake.Seed.NewFaker seed name).src = Fake.PCG.mk seed (Fake.ToSeedOffset name) ∧
    ((RandFnSeeder name impl).toSeeder.Name = name) := by
  refine ⟨?_, rfl, rfl, rfl, rfl⟩
  exact Fake.fnvWrite_eq_fnv1From name _

end PsqlSeed

namespace Distributions

/-! ## The discrete distributions -/

theorem float32_one_le (p : float32) (h : float32.one.le p = true) :
    p.le float32.zero = false := by
  cases p with
  | nan => rfl
  | negInf => simp [float32.one, float32.le] at h
  | posInf => rfl
  | fin m =>
    simp only [float32.one, float32.le, decide_eq_true_eq] at h
    simp only [float32.zero, float32.le, decide_eq_false_iff_not, not_le]
    have : (0 : Int) < ((2 ^ 149 : Nat) : Int) := by positivity
    omega

theorem Binomial_loop_spec (b : Binomial) (draws : Nat → float32) :
    ∀ (k : Nat) (res : Int) (pos : Nat),
      Binomial.loop b draws k res pos =
        (res + ((List.range k).countP (fun i => (draws (pos + i)).lt b.P) : Nat), pos + k) := by
  intro k
  induction k with
  | zero => intro res pos; simp [Binomial.loop]
  | succ k ih =>
    intro res pos
    have hshift : (List.range k).countP ((fun i => (draws (pos + i)).lt b.P) ∘ Nat.succ) =
        (List.range k).countP (fun i => (draws (pos + 1 + i)).lt b.P) := by
      congr 1
      funext i
      simp only [Function.comp, Nat.succ_eq_add_one]
      congr 2
      omega
    rw [List.range_succ_eq_map, List.countP_cons, List.countP_map, hshift]
    unfold Binomial.loop
    by_cases h : (draws pos).lt b.P = true
    · rw [if_pos h, ih]
      simp only [Nat.add_zero, h, if_true]
      refine Prod.ext ?_ ?_
      · simp only
        omega
      · simp only
        omega
    · rw [if_neg h, ih]
      simp only [Nat.add_zero, h]
      refine Prod.ext ?_ ?_
      · simp
      · simp only
        omega

/-- C25. For `N ≥ 0`, every `P` and every stream, `Binomial{N, P}.FakeSampleInt`
returns a value in `[0, N]`; it returns `0` without drawing when `P ≤ 0` and `N`
without drawing when `P ≥ 1`; otherwise it draws `N` times and returns the number of
these draws that are below `P`. -/
theorem Binomial_FakeSampleInt_spec (b : Binomial) (draws : Nat → float32) (pos : Nat)
    (hN : 0 ≤ b.N) :
    0 ≤ (b.FakeSampleInt draws pos).1 ∧ (b.FakeSampleInt draws pos).1 ≤ b.N ∧
    (b.P.le float32.zero = true → b.FakeSampleInt draws pos = (0, pos)) ∧
    (float32.one.le b.P = true → b.FakeSampleInt draws pos = (b.N, pos)) ∧
    (b.P.le float32.zero = false → float32.one.le b.P = false →
      b.FakeSampleInt draws pos =
        ((((List.range b.N.toNat).countP (fun i => (draws (pos + i)).lt b.P) : Nat) : Int),
          pos + b.N.toNat)) := by
  have hcount : (List.range b.N.toNat).countP (fun i => (draws (pos + i)).lt b.P) ≤
      b.N.toNat := by
    have := List.countP_le_length (fun i => (draws (pos + i)).lt b.P) (l := List.range b.N.toNat)
    simpa using this
  have htoNat : (b.N.toNat : Int) = b.N := Int.toNat_of_nonneg hN
  unfold Binomial.FakeSampleInt
  by_cases h0 : b.P.le float32.zero = true
  · have h1f : float32.one.le b.P = false := by
      cases h1 : float32.one.le b.P with
      | false => rfl
      | true => rw [float32_one_le _ h1] at h0; cases h0
    simp [h0, h1f, hN]
  · have h0f : b.P.le float32.zero = false := by simpa using h0
    by_cases h1 : float32.one.le b.P = true
    · simp [h0f, h1, hN]
    · have h1f : float32.one.le b.P = false := by simpa using h1
      simp only [h0f, h1f, Bool.false_eq_true, if_false, Binomial_loop_spec, Int.zero_add,
        false_implies, true_implies, and_true, true_and]
      refine ⟨by omega, by omega⟩

theorem Binomial_FakeSampleInt_spec_witness :
    (0 : Int) ≤ (Binomial.mk 5 half).N ∧
    (Binomial.mk 5 half).FakeSampleInt highThenLow 0 = (4, 5) ∧
    (Binomial.mk 5 half).FakeSampleInt highThenLow 0 =
      ((((List.range 5).countP (fun i => (highThenLow (0 + i)).lt half) : Nat) : Int), 0 + 5) :=
  ⟨by decide, by decide,
    (Binomial_FakeSampleInt_spec (Binomial.mk 5 half) highThenLow 0 (by decide)).2.2.2.2
      (by decide) (by decide)⟩

theorem GeometricMax_loop_spec (d : GeometricMax) (draws : Nat → float32) :
    ∀ (k : Nat) (i : Int) (pos : Nat),
      GeometricMax.loop d draws k i pos =
        match (List.range k).find? (fun j => (draws (pos + j)).lt d.P) with
        | some j => (i + (j : Nat), pos + j + 1)
        | none => (d.Max, pos + k) := by
  intro k
  induction k with
  | zero => intro i pos; simp [GeometricMax.loop]
  | succ k ih =>
    intro i pos
    have hshift : ((fun j => (draws (pos + j)).lt d.P) ∘ Nat.succ) =
        (fun j => (draws (pos + 1 + j)).lt d.P) := by
      funext j
      simp only [Function.comp, Nat.succ_eq_add_one]
      congr 2
      omega
    rw [List.range_succ_eq_map, List.find?_cons]
    unfold GeometricMax.loop
    by_cases h : (draws pos).lt d.P = true
    · simp [h]
    · have hf : (draws pos).lt d.P = false := by simpa using h
      simp only [Nat.add_zero, hf, Bool.false_eq_true, if_false, ih, List.find?_map, hshift]
      cases hfind : (List.range k).find? (fun j => (draws (pos + 1 + j)).lt d.P) with
      | none =>
        simp only [Option.map_none']
        refine Prod.ext rfl ?_
        simp only
        omega
      | some j =>
        simp only [Option.map_some', Nat.succ_eq_add_one]
        refine Prod.ext ?_ ?_
        · simp only
          push_cast
          omega
        · simp only
          omega

/-- C26. For `Max ≥ 0`, every `P` and every stream, `GeometricMax{P, Max}.FakeSampleInt`
returns a value in `[0, Max]`: `Max` without drawing when `P ≤ 0`, `0` without drawing
when `P ≥ 1`, and otherwise the index of the first of at most `Max` draws that is
below `P` (the number of failed draws before it), or `Max` after `Max` draws when none
of them is below `P`. -/
theorem GeometricMax_FakeSampleInt_spec (d : GeometricMax) (draws : Nat → float32) (pos : Nat)
    (hMax : 0 ≤ d.Max) :
    0 ≤ (d.FakeSampleInt draws pos).1 ∧ (d.FakeSampleInt draws pos).1 ≤ d.Max ∧
    (d.P.le float32.zero = true → d.FakeSampleInt draws pos = (d.Max, pos)) ∧
    (float32.one.le d.P = true → d.FakeSampleInt draws pos = (0, pos)) ∧
    (d.P.le float32.zero = false → float32.one.le d.P = false →
      d.FakeSampleInt draws pos =
        match (List.range d.Max.toNat).find? (fun j => (draws (pos + j)).lt d.P) with
        | some j => ((j : Nat), pos + j + 1)
        | none => (d.Max, pos + d.Max.toNat)) := by
  have htoNat : (d.Max.toNat : Int) = d.Max := Int.toNat_of_nonneg hMax
  unfold GeometricMax.FakeSampleInt
  by_cases h0 : d.P.le float32.zero = true
  · have h1f : float32.one.le d.P = false := by
      cases h1 : float32.one.le d.P with
      | false => rfl
      | true => rw [float32_one_le _ h1] at h0; cases h0
    simp [h0, h1f, hMax]
  · have h0f : d.P.le float32.zero = false := by simpa using h0
    by_cases h1 : float32.one.le d.P = true
    · simp [h0f, h1, hMax]
    · have h1f : float32.one.le d.P = false := by simpa using h1
      simp only [h0f, h1f, Bool.false_eq_true, if_false, GeometricMax_loop_spec, Int.zero_add,
        false_implies, true_implies, and_true, true_and]
      cases hfind : (List.range d.Max.toNat).find? (fun j => (draws (pos + j)).lt d.P) with
      | none => exact ⟨hMax, le_refl _⟩
      | some j =>
        have hj : j < d.Max.toNat := by
          have := List.mem_of_find?_eq_some hfind
          simpa using this
        simp only
        omega

theorem GeometricMax_FakeSampleInt_spec_witness :
    (0 : Int) ≤ (GeometricMax.mk half 5).Max ∧
    (GeometricMax.mk half 5).FakeSampleInt highThenLow 0 = (1, 2) ∧
    (GeometricMax.mk half 5).FakeSampleInt highThenLow 0 =
      match (List.range 5).find? (fun j => (highThenLow (0 + j)).lt half) with
      | some j => ((j : Nat), 0 + j + 1)
      | none => (5, 0 + 5) :=
  ⟨by decide, by decide,
    (GeometricMax_FakeSampleInt_spec (GeometricMax.mk half 5) highThenLow 0 (by decide)).2.2.2.2
      (by decide) (by decide)⟩

/-- C27. For every `P ≤ 0`, `Geometric{P}.FakeSampleInt` and
`NegBinomial{R, P}.FakeSampleInt` panic at the position where they were called, for
every stream and every fuel: nothing is drawn and the loop is not entered. For every
`P ≥ 1` both return `0` at the position where they were called. -/
theorem fail_fast (P : float32) (R : Int) (draws : Nat → float32) (pos : Nat) (fuel : Nat) :
    (P.le float32.zero = true →
      (Geometric.mk P).FakeSampleInt draws pos fuel = .panic pos ∧
      (NegBinomial.mk R P).FakeSampleInt draws pos fuel = .panic pos) ∧
    (float32.one.le P = true →
      (Geometric.mk P).FakeSampleInt draws pos fuel = .value 0 pos ∧
      (NegBinomial.mk R P).FakeSampleInt draws pos fuel = .value 0 pos) := by
  refine ⟨?_, ?_⟩
  · intro h
    simp [Geometric.FakeSampleInt, NegBinomial.FakeSampleInt, h]
  · intro h
    have h0 := float32_one_le P h
    simp [Geometric.FakeSampleInt, NegBinomial.FakeSampleInt, h, h0]

theorem fail_fast_witness :
    (Geometric.mk float32.zero).FakeSampleInt highThenLow 3 0 = .panic 3 ∧
    (NegBinomial.mk 2 float32.zero).FakeSampleInt highThenLow 3 0 = .panic 3 ∧
    (Geometric.mk float32.one).FakeSampleInt highThenLow 3 0 = .value 0 3 ∧
    (NegBinomial.mk 2 float32.one).FakeSampleInt highThenLow 3 0 = .value 0 3 :=
  ⟨((fail_fast float32.zero 2 highThenLow 3 0).1 (by decide)).1,
    ((fail_fast float32.zero 2 highThenLow 3 0).1 (by decide)).2,
    ((fail_fast float32.one 2 highThenLow 3 0).2 (by decide)).1,
    ((fail_fast float32.one 2 highThenLow 3 0).2 (by decide)).2⟩

/-- The loop of `Geometric.FakeSampleInt` returns the number of leading draws below
`P`: it stops at the first draw that is not below `P`. -/
theorem Geometric_loop_counts_below (d : Geometric) (draws : Nat → float32) :
    ∀ (k : Nat) (fuel : Nat) (i : Int) (pos : Nat),
      (∀ j, j < k → (draws (pos + j)).lt d.P = true) →
      (draws (pos + k)).lt d.P = false → k < fuel →
      Geometric.loop d draws fuel i pos = .value (i + k) (pos + k + 1) := by
  intro k
  induction k with
  | zero =>
    intro fuel i pos _ hstop hfuel
    cases fuel with
    | zero => omega
    | succ fuel =>
      unfold Geometric.loop
      simp only [Nat.add_zero] at hstop
      simp [hstop]
  | succ k ih =>
    intro fuel i pos hlow hstop hfuel
    cases fuel with
    | zero => omega
    | succ fuel =>
      unfold Geometric.loop
      have h0 : (draws pos).lt d.P = true := by simpa using hlow 0 (by omega)
      rw [if_pos h0, ih fuel (i + 1) (pos + 1)
        (fun j hj => by have := hlow (j + 1) (by omega); rwa [show pos + 1 + j = pos + (j + 1) by omega])
        (by rwa [show pos + 1 + k = pos + (k + 1) by omega]) (by omega)]
      congr 1
      · push_cast
        omega
      · omega

/-- The loop of `NegBinomial.FakeSampleInt` with `R = 1` returns the number of leading
draws that are not below `P`: it stops after the first draw below `P`. -/
theorem NegBinomial_one_counts_failures (P : float32) (draws : Nat → float32) :
    ∀ (k : Nat) (fuel : Nat) (fails : Int) (pos : Nat),
      (∀ j, j < k → (draws (pos + j)).lt P = false) →
      (draws (pos + k)).lt P = true → k + 1 < fuel →
      NegBinomial.loop (NegBinomial.mk 1 P) draws fuel fails 0 pos =
        .value (fails + k) (pos + k + 1) := by
  intro k
  induction k with
  | zero =>
    intro fuel fails pos _ hhit hfuel
    cases fuel with
    | zero => omega
    | succ fuel =>
      cases fuel with
      | zero => omega
      | succ fuel =>
        simp only [Nat.add_zero] at hhit
        simp [NegBinomial.loop, hhit]
  | succ k ih =>
    intro fuel fails pos hhigh hhit hfuel
    cases fuel with
    | zero => omega
    | succ fuel =>
      unfold NegBinomial.loop
      have h0 : (draws pos).lt P = false := by simpa using hhigh 0 (by omega)
      simp only [h0, Bool.false_eq_true, if_false]
      rw [if_pos (by decide), ih fuel (fails + 1) (pos + 1)
        (fun j hj => by have := hhigh (j + 1) (by omega); rwa [show pos + 1 + j = pos + (j + 1) by omega])
        (by rwa [show pos + 1 + k = pos + (k + 1) by omega]) (by omega)]
      congr 1
      · push_cast
        omega
      · omega

/-- C28. With `P` one half on a stream whose draws are three quarters, then one
quarter, `Geometric{P}.FakeSampleInt` returns `0` after one draw, although one draw
at or above `P` precedes the first draw below `P`; `NegBinomial{R: 1, P}` and
`GeometricMax{P, Max: 5}` return `1` on the same stream. -/
theorem Geometric_counts_successes :
    (Geometric.mk half).FakeSampleInt highThenLow 0 5 = .value 0 1 ∧
    (NegBinomial.mk 1 half).FakeSampleInt highThenLow 0 5 = .value 1 2 ∧
    (GeometricMax.mk half 5).FakeSampleInt highThenLow 0 = (1, 2) := by
  decide

end Distributions

namespace Fake

/-! ## `UniqueIndices`, `randomN`, `RandomN` -/

theorem UniqueIndices_ok {R : Type} (g : Gofakeit R) (l n : Int) (r : R)
    (h0 : 0 ≤ n) (hl : n ≤ l) :
    ∃ res r2, UniqueIndices g l n r = some (res, r2) ∧ res.length = n.toNat ∧
      (∀ x ∈ res, 0 ≤ x ∧ x < l) ∧ res.Nodup := by
  have hnl : ¬ l < n := not_lt.2 hl
  have hn0 : ¬ n < 0 := not_lt.2 h0
  have hdiv : Int.tdiv n 2 = n / 2 := Int.tdiv_eq_ediv h0 (by decide)
  unfold UniqueIndices
  rw [if_neg hnl, hdiv]
  by_cases hpos : l > n / 2
  · have hl0 : ¬ l < 0 := by omega
    rw [if_pos hpos, if_neg hl0]
    simp only [if_neg hn0]
    have hperm := g.ShuffleInts_perm (List.map (fun i : Nat => (i : Int)) (List.range l.toNat)) r
    refine ⟨_, _, rfl, ?_, ?_, ?_⟩
    · rw [List.length_take, hperm.length_eq]
      simp only [List.length_map, List.length_range]
      omega
    · intro x hx
      have hx2 := hperm.subset (List.mem_of_mem_take hx)
      rcases List.mem_map.1 hx2 with ⟨i, hi, rfl⟩
      have hi2 : i < l.toNat := List.mem_range.1 hi
      omega
    · apply List.Nodup.sublist (List.take_sublist _ _)
      apply hperm.nodup_iff.2
      exact (List.nodup_range _).map (fun a b hab => by simpa using hab)
  · have hn : n = 0 := by omega
    rw [if_neg hpos, if_neg hn0]
    subst hn
    exact ⟨[], r, rfl, rfl, by simp, List.nodup_nil⟩

/-- C29. For `0 ≤ n ≤ l`, `UniqueIndices(l, n)` returns exactly `n` indices, each in
`[0, l)` and pairwise distinct; for `l < n` it panics. -/
theorem UniqueIndices_spec {R : Type} (g : Gofakeit R) (l n : Int) (r : R) :
    (0 ≤ n → n ≤ l →
      ∃ res r2, UniqueIndices g l n r = some (res, r2) ∧ (res.length : Int) = n ∧
        (∀ x ∈ res, 0 ≤ x ∧ x < l) ∧ res.Nodup) ∧
    (l < n → UniqueIndices g l n r = none) := by
  refine ⟨?_, ?_⟩
  · intro h0 hl
    rcases UniqueIndices_ok g l n r h0 hl with ⟨res, r2, h, hlen, hr, hd⟩
    exact ⟨res, r2, h, by rw [hlen]; exact Int.toNat_of_nonneg h0, hr, hd⟩
  · intro h
    unfold UniqueIndices
    rw [if_pos h]

theorem UniqueIndices_spec_witness :
    UniqueIndices countingFaker 5 3 0 = some ([4, 3, 2], 1) ∧
    UniqueIndices countingFaker 2 3 0 = none ∧
    ∃ res r2, UniqueIndices countingFaker 5 3 0 = some (res, r2) ∧ (res.length : Int) = 3 ∧
      (∀ x ∈ res, 0 ≤ x ∧ x < 5) ∧ res.Nodup :=
  ⟨by decide, (UniqueIndices_spec countingFaker 2 3 0).2 (by decide),
    (UniqueIndices_spec countingFaker 5 3 0).1 (by decide) (by decide)⟩

theorem pick_some {K : Type} (source : List K) (ix : List Int) :
    ∀ (is : List Nat),
      (∀ i ∈ is, ∃ x, ix.get? i = some x ∧ 0 ≤ x ∧ x < source.length) →
      ∃ res, pick source ix is = some res ∧ res.length = is.length
  | [], _ => ⟨[], rfl, rfl⟩
  | i :: rest, h => by
    rcases h i (List.mem_cons_self _ _) with ⟨x, hx, hx0, hxl⟩
    rcases pick_some source ix rest (fun j hj => h j (List.mem_cons_of_mem _ hj)) with
      ⟨vs, hvs, hlen⟩
    have hlt : x.toNat < source.length := by omega
    have hidx : index source x = some (source.get ⟨x.toNat, hlt⟩) := by
      unfold index
      rw [if_neg (not_lt.2 hx0)]
      exact List.get?_eq_get hlt
    refine ⟨source.get ⟨x.toNat, hlt⟩ :: vs, ?_, by simp [hlen]⟩
    unfold pick
    simp only [hx, hidx, hvs]

theorem pick_none {K : Type} (source : List K) (ix : List Int) :
    ∀ (is : List Nat), (∃ i ∈ is, ix.get? i = none) → pick source ix is = none
  | [], h => by simp at h
  | i :: rest, h => by
    unfold pick
    cases hi : ix.get? i with
    | none => rfl
    | some x =>
      have hrest : ∃ j ∈ rest, ix.get? j = none := by
        rcases h with ⟨j, hj, hn⟩
        rcases List.mem_cons.1 hj with e | e
        · subst e; rw [hi] at hn; cases hn
        · exact ⟨j, e, hn⟩
      simp only [pick_none source ix rest hrest]
      cases index source x <;> rfl

/-- C30. For every slice and every `n` with `0 ≤ n` below the length of the slice,
`RandomN(slice, n)` panics, for every stream, while `randomN`, which the typed
variants call, returns `n` elements on the same stream. -/
theorem RandomN_panics_below_length {R K : Type} (g : Gofakeit R) (slice : List K) (n : Int)
    (r : R) (h0 : 0 ≤ n) (hl : n < slice.length) :
    RandomN g slice n r = none ∧
    ∃ res r2, randomN g slice n r = some (res, r2) ∧ (res.length : Int) = n := by
  rcases UniqueIndices_ok g slice.length n r h0 (le_of_lt hl) with ⟨ix, r2, h, hlen, hr, _⟩
  have htoNat : (n.toNat : Int) = n := Int.toNat_of_nonneg h0
  refine ⟨?_, ?_⟩
  · unfold RandomN
    simp only [h]
    rw [pick_none slice ix (List.range slice.length) ⟨n.toNat, ?_, ?_⟩]
    · rfl
    · exact List.mem_range.2 (by omega)
    · exact List.get?_eq_none.2 (by omega)
  · rcases pick_some slice ix (List.range n.toNat) (by
      intro i hi
      have hi2 : i < ix.length := by rw [hlen]; exact List.mem_range.1 hi
      exact ⟨ix.get ⟨i, hi2⟩, List.get?_eq_get hi2, hr _ (List.get_mem _ _ _)⟩) with
      ⟨res, hres, hreslen⟩
    refine ⟨res, r2, ?_, ?_⟩
    · unfold randomN
      simp only [h, if_neg (not_lt.2 h0), hres, Option.map_some']
    · rw [hreslen, List.length_range, htoNat]

theorem RandomN_panics_below_length_witness :
    (0 : Int) ≤ 2 ∧ (2 : Int) < ([10, 20, 30] : List Nat).length ∧
    RandomN countingFaker ([10, 20, 30] : List Nat) 2 0 = none ∧
    ∃ res r2, randomN countingFaker ([10, 20, 30] : List Nat) 2 0 = some (res, r2) ∧
      (res.length : Int) = 2 :=
  ⟨by decide, by decide,
    RandomN_panics_below_length countingFaker [10, 20, 30] 2 0 (by decide) (by decide)⟩

/-- The typed variant on the slice `10, 20, 30` with `n = 2` returns two elements
where `RandomN` panics; with `n = 3` both return the same three elements. -/
theorem RandomN_example :
    randomN countingFaker ([10, 20, 30] : List Nat) 2 0 = some ([30, 20], 1) ∧
    RandomN countingFaker ([10, 20, 30] : List Nat) 2 0 = none ∧
    randomN countingFaker ([10, 20, 30] : List Nat) 3 0 = some ([30, 20, 10], 1) ∧
    RandomN countingFaker ([10, 20, 30] : List Nat) 3 0 = some ([30, 20, 10], 1) := by
  decide

end Fake

namespace PsqlSeed

/-! ## `runSeeder`: the error handed back and the report -/

/-- C31. When `RunSeederTx` returns the error `e` and the following `Rollback` fails
with `t`, `runSeeder` hands back to `Run` the error that carries both `t` and `e` only
with `BailOnError` false; with `BailOnError` true it hands back `e` alone. -/
theorem rollback_failure_bail_returns_seeder_error {W : Type} (conn : Conn W) (r : Runner W)
    (s : Seeder W) (w : W) (e t : Error)
    (hb : (conn.BeginTx w).2 = none)
    (hs : (s.RunSeederTx r.Seed (conn.BeginTx w).1).2 = some e)
    (hr : (conn.Rollback (s.RunSeederTx r.Seed (conn.BeginTx w).1).1).2 = some t) :
    (runSeeder conn { r with BailOnError := true } s w).err = some e ∧
    (runSeeder conn { r with BailOnError := false } s w).err = some (.rollbackFailed t e) := by
  refine ⟨?_, ?_⟩
  · rw [runSeeder_begin_ok conn _ s w hb]
    simp only [hs, finishTx_rollback_failed conn s _ e t hr]
    rfl
  · rw [runSeeder_begin_ok conn _ s w hb]
    simp only [hs, finishTx_rollback_failed conn s _ e t hr]
    rfl

theorem rollback_failure_bail_returns_seeder_error_witness :
    (runSeeder rollbackFails { newRunner [] false with BailOnError := true }
      (failSeeder "01_a") 0).err = some (.raw "seeder failed") ∧
    (runSeeder rollbackFails { newRunner [] false with BailOnError := false }
      (failSeeder "01_a") 0).err =
        some (.rollbackFailed (.raw "rollback failed") (.raw "seeder failed")) :=
  rollback_failure_bail_returns_seeder_error rollbackFails (newRunner [] false)
    (failSeeder "01_a") 0 (.raw "seeder failed") (.raw "rollback failed") rfl rfl rfl

/-- When the transaction was begun, the report `runSeeder` leaves has a nil `Err`
exactly when its status is `OK`. -/
theorem finishTx_Err_none_iff {W : Type} (conn : Conn W) (s : Seeder W) (err : Option Error)
    (w : W) :
    (finishTx conn s err w).Err = none ↔ (finishTx conn s err w).Status = .OK := by
  cases err with
  | some e =>
    cases hr : (conn.Rollback w).2 with
    | some t => rw [finishTx_rollback_failed conn s w e t hr]; simp
    | none => rw [finishTx_rollback_ok conn s w e hr]; simp
  | none =>
    cases hc : (conn.Commit w).2 with
    | some t => rw [finishTx_commit_failed conn s w t hc]; simp
    | none => rw [finishTx_commit_ok conn s w hc]; simp

/-- C34. When `BeginTx` fails, the report `runSeeder` leaves has status `TXERR` and a
nil `Err`, although `runSeeder` returns a non-nil error. -/
theorem begin_failure_report_without_Err {W : Type} (conn : Conn W) (r : Runner W)
    (s : Seeder W) (w : W) (t : Error) (hb : (conn.BeginTx w).2 = some t) :
    ∃ rep : RunReport W,
      (runSeeder conn r s w).runner.RunReports = r.RunReports ++ [rep] ∧
      rep.Status = .TXERR ∧ rep.Err = none ∧
      (runSeeder conn r s w).err = some (.beginTxFailed t) := by
  rw [runSeeder_begin_failed conn r s w t hb]
  exact ⟨_, rfl, rfl, rfl, rfl⟩

theorem begin_failure_report_without_Err_witness :
    (beginFails.BeginTx 0).2 = some (.raw "begin failed") ∧
    ∃ rep : RunReport Nat,
      (runSeeder beginFails (newRunner [] false) (okSeeder "01_a") 0).runner.RunReports =
        (newRunner [] false).RunReports ++ [rep] ∧
      rep.Status = .TXERR ∧ rep.Err = none ∧
      (runSeeder beginFails (newRunner [] false) (okSeeder "01_a") 0).err =
        some (.beginTxFailed (.raw "begin failed")) :=
  ⟨rfl, begin_failure_report_without_Err beginFails (newRunner [] false) (okSeeder "01_a") 0
    (.raw "begin failed") rfl⟩

/-! ## `SubStoreTill` on short names, `SubStore` on missing names -/

theorem tillLoop_none {W : Type} (p : Name) (till : Nat) :
    ∀ (l : List (Seeder W)) (i : Nat),
      (∃ s ∈ l, s.Name.length < p.length) →
      (∀ s ∈ l, s.Name.length < p.length ∨ ¬ p < s.Name.take p.length) →
      tillLoop p till l i = none
  | [], _, hex, _ => by simp at hex
  | s :: rest, i, hex, hall => by
    unfold tillLoop
    by_cases hs : s.Name.length < p.length
    · rw [if_pos hs]
    · rw [if_neg hs]
      have hng : ¬ p < s.Name.take p.length := by
        rcases hall s (List.mem_cons_self _ _) with h | h
        · exact absurd h hs
        · exact h
      rw [if_neg hng]
      apply tillLoop_none p till rest (i + 1)
      · rcases hex with ⟨t, ht, hshort⟩
        rcases List.mem_cons.1 ht with h | h
        · subst h; exact absurd hshort hs
        · exact ⟨t, h, hshort⟩
      · exact fun t ht => hall t (List.mem_cons_of_mem _ ht)

/-- C37. When some registered name is shorter than the prefix and no name of
sufficient length has a truncated name greater than the prefix, `SubStoreTill(prefix)`
panics, under every sort that meets the contract of `sort.Slice`. -/
theorem SubStoreTill_panics_on_short_name {W : Type} (S : SortSlice W)
    (seeders : List (Seeder W)) (p : Name)
    (hshort : seeders.any (fun s => decide (s.Name.length < p.length)) = true)
    (hnone : seeders.all (fun s => decide (s.Name.length < p.length) ||
      !decide (p < s.Name.take p.length)) = true) :
    Repository.SubStoreTill S seeders p = none := by
  have h1 : ∃ s ∈ Seeders S seeders, s.Name.length < p.length := by
    rcases List.any_eq_true.1 hshort with ⟨s, hs, hp⟩
    exact ⟨s, (S.perm seeders).symm.subset hs, by simpa using hp⟩
  have h2 : ∀ s ∈ Seeders S seeders,
      s.Name.length < p.length ∨ ¬ p < s.Name.take p.length := by
    intro s hs
    have := List.all_eq_true.1 hnone s ((S.perm seeders).subset hs)
    simpa using this
  simp only [Repository.SubStoreTill, tillLoop_none p _ _ 0 h1 h2, Option.map_none']

theorem SubStoreTill_panics_on_short_name_witness :
    [okSeeder "a", okSeeder "01_a"].any
      (fun s => decide (s.Name.length < (nm "01_").length)) = true ∧
    Repository.SubStoreTill (byNameSort Nat) [okSeeder "a", okSeeder "01_a"] (nm "01_") = none :=
  ⟨by decide, SubStoreTill_panics_on_short_name _ _ _ (by decide) (by decide)⟩

/-- C38. When some requested name matches no registered seeder, the store that
`SeedersNamed` installs holds a nil entry, and an error is returned. -/
theorem SeedersNamed_installs_nil_entry {W : Type} (r : Runner W) (names : List Name)
    (h : names.any (fun n => r.Repository.all (fun s => s.Name != n)) = true) :
    none ∈ (r.SeedersNamed names).1 ∧ (r.SeedersNamed names).2 ≠ none := by
  rcases List.any_eq_true.1 h with ⟨n, hn, hall⟩
  have hnone : firstNamed n r.Repository = none := by
    rw [firstNamed_none_iff]
    intro s hs
    have := List.all_eq_true.1 hall s hs
    simpa using this
  simp only [Runner.SeedersNamed, Repository.SubStore, subStoreLoop_eq, List.nil_append]
  refine ⟨List.mem_map.2 ⟨n, hn, hnone⟩, ?_⟩
  have hmem : n ∈ names.filter (fun n => (firstNamed n r.Repository).isNone) :=
    List.mem_filter.2 ⟨hn, by simp [hnone]⟩
  have hpos : (names.filter (fun n => (firstNamed n r.Repository).isNone)).length > 0 :=
    List.length_pos.2 (List.ne_nil_of_mem hmem)
  simp [hpos]

theorem SeedersNamed_installs_nil_entry_witness :
    [nm "01_a", nm "zz"].any
      (fun n => (newRunner [okSeeder "01_a", okSeeder "02_b"] false).Repository.all
        (fun s => s.Name != n)) = true ∧
    none ∈ ((newRunner [okSeeder "01_a", okSeeder "02_b"] false).SeedersNamed
      [nm "01_a", nm "zz"]).1 ∧
    ((newRunner [okSeeder "01_a", okSeeder "02_b"] false).SeedersNamed
      [nm "01_a", nm "zz"]).2 ≠ none :=
  ⟨by decide, SeedersNamed_installs_nil_entry _ _ (by decide)⟩

/-- The store installed by `SeedersNamed("01_a", "zz")` on the registry `01_a`, `02_b`
is `01_a` followed by a nil entry, and the closure of `Sort` panics on each of the two
comparisons of its entries. -/
theorem SeedersNamed_example :
    ((newRunner [okSeeder "01_a", okSeeder "02_b"] false).SeedersNamed
      [nm "01_a", nm "zz"]).1.map (fun o => o.map (fun s => s.Name)) =
        [some (nm "01_a"), none] ∧
    Repository.less ((newRunner [okSeeder "01_a", okSeeder "02_b"] false).SeedersNamed
      [nm "01_a", nm "zz"]).1 1 0 = none ∧
    Repository.less ((newRunner [okSeeder "01_a", okSeeder "02_b"] false).SeedersNamed
      [nm "01_a", nm "zz"]).1 0 1 = none := by
  refine ⟨by decide, by decide, by decide⟩

end PsqlSeed

namespace Db

/-! ## The dirty flag under `SetLast`, the query of `Reload` -/

/-- The method `Next` on a cache without error, with `int64` fields and a non-zero
increment, leaves the cache dirty. -/
theorem Next_sets_dirty (seq : Sequence) (herr : seq.Err = none) (hw : seq.WellTyped)
    (hinc : seq.incrementBy ≠ 0) :
    ∃ v seq2, seq.Next = some (v, seq2) ∧ seq2.dirty = true := by
  refine ⟨seq.Peek, (seq.SetLast seq.Peek).1, ?_, ?_⟩
  · simp [Sequence.Next, Sequence.TryNext, Sequence.SetLast, herr]
  · simp only [Sequence.SetLast, herr, Sequence.Peek]
    cases hc : seq.called with
    | false => simp
    | true =>
      have := wrapInt64_add_ne seq.lastValue seq.incrementBy hw.1 hw.2 hinc
      simp only [if_true, Bool.not_true, Bool.false_or, bne_iff_ne, ne_eq]
      exact fun h => this h.symm

/-- C33. On a cache without error that has been called and is dirty, `SetLast` with
the value the cache holds returns nil and leaves the cache not dirty, so that the next
`Sync` reloads the cache from the database where it would have pushed the value. -/
theorem SetLast_same_clears_dirty {W I A : Type} (tx : Tx W I A) (seq : Sequence) (w : W)
    (herr : seq.Err = none) (hc : seq.called = true) (hd : seq.dirty = true) :
    (seq.SetLast seq.lastValue).2 = none ∧
    (seq.SetLast seq.lastValue).1.dirty = false ∧
    (seq.SetLast seq.lastValue).1.lastValue = seq.lastValue ∧
    seq.Sync tx w = some (seq.update tx w) ∧
    (seq.SetLast seq.lastValue).1.Sync tx w = (seq.SetLast seq.lastValue).1.Reload tx w := by
  refine ⟨?_, ?_, ?_, ?_, ?_⟩
  · simp [Sequence.SetLast, herr]
  · simp [Sequence.SetLast, herr, hc]
  · simp [Sequence.SetLast, herr]
  · simp [Sequence.Sync, hd]
  · simp [Sequence.Sync, Sequence.SetLast, herr, hc]

theorem SetLast_same_clears_dirty_witness :
    ({ loadedCache with dirty := true }.SetLast 7).2 = none ∧
    ({ loadedCache with dirty := true }.SetLast 7).1.dirty = false ∧
    ({ loadedCache with dirty := true }.SetLast 7).1.lastValue = 7 ∧
    { loadedCache with dirty := true }.Sync (pgTx Unit Unit) freshIds =
      some ({ loadedCache with dirty := true }.update (pgTx Unit Unit) freshIds) ∧
    ({ loadedCache with dirty := true }.SetLast 7).1.Sync (pgTx Unit Unit) freshIds =
      ({ loadedCache with dirty := true }.SetLast 7).1.Reload (pgTx Unit Unit) freshIds :=
  SetLast_same_clears_dirty (pgTx Unit Unit) { loadedCache with dirty := true } freshIds
    rfl rfl rfl

/-- On a fresh sequence `public.ids`: `Next` returns `1` and leaves the cache dirty;
`SetLast(1)` clears the flag; `Sync` then queries the catalog and makes no `setval`;
the database is unchanged and the next `Next` returns `1` again. -/
theorem setLastSameRun_example :
    (setLastSameRun freshIds).map (fun x => (x.1, x.2.1, x.2.2.1)) = some (1, true, false) ∧
    (setLastSameRun freshIds).map (fun x => x.2.2.2.1) =
      some [.querySequence false [some "ids"] (.inr (1, none, 1))] ∧
    (setLastSameRun freshIds).map (fun x => (x.2.2.2.2.1, x.2.2.2.2.2)) =
      some (1, freshIds) := by
  refine ⟨by decide, by decide, by decide⟩

/-- C35. `Reload` on an identifier with a schema part looks the sequence up by name
alone, with the name as its single argument; on an identifier without schema part it
adds the clause on `schemaname` and passes the name and a nil schema. -/
theorem Reload_schema_clause {W I A : Type} (tx : Tx W I A) (seq : Sequence) (w : W)
    (schema name : String) :
    (seq.id = [schema, name] →
      ∃ r res, seq.Reload tx w = some r ∧ r.trace = [.querySequence false [some name] res]) ∧
    (seq.id = [name] →
      ∃ r res, seq.Reload tx w = some r ∧
        r.trace = [.querySequence true [some name, none] res]) := by
  refine ⟨?_, ?_⟩
  · intro hid
    have hId : seq.Id = some (some schema, name) := by simp [Sequence.Id, hid]
    cases hq : (tx.QueryRowSequence false [some name] w).2 with
    | inl err => simp [Sequence.Reload, hId, hq]
    | inr row =>
      obtain ⟨startValue, lastValue, incrementBy⟩ := row
      simp [Sequence.Reload, hId, hq]
  · intro hid
    have hId : seq.Id = some (none, name) := by simp [Sequence.Id, hid]
    cases hq : (tx.QueryRowSequence true [some name, none] w).2 with
    | inl err => simp [Sequence.Reload, hId, hq]
    | inr row =>
      obtain ⟨startValue, lastValue, incrementBy⟩ := row
      simp [Sequence.Reload, hId, hq]

theorem Reload_schema_clause_witness :
    (∃ r res, loadedCache.Reload (pgTx Unit Unit) freshIds = some r ∧
      r.trace = [.querySequence false [some "ids"] res]) ∧
    (∃ r res, { loadedCache with id := ["ids"] }.Reload (pgTx Unit Unit) freshIds = some r ∧
      r.trace = [.querySequence true [some "ids", none] res]) :=
  ⟨(Reload_schema_clause (pgTx Unit Unit) loadedCache freshIds "public" "ids").1 rfl,
    (Reload_schema_clause (pgTx Unit Unit) { loadedCache with id := ["ids"] } freshIds
      "public" "ids").2 rfl⟩

end Db

namespace Fake

/-! ## `UniqueIndices`: the path taken -/

/-- C32. For `0 ≤ n ≤ l` with `l ≥ 1`, `UniqueIndices(l, n)` shuffles the slice of all
`l` indices and returns its first `n` entries, whatever the size of `n` relative to
`l`. -/
theorem UniqueIndices_shuffles_all {R : Type} (g : Gofakeit R) (l n : Int) (r : R)
    (h0 : 0 ≤ n) (hl : n ≤ l) (h1 : 1 ≤ l) :
    UniqueIndices g l n r =
      some ((g.ShuffleInts ((List.range l.toNat).map (fun (i : Nat) => (i : Int))) r).1.take
        n.toNat,
        (g.ShuffleInts ((List.range l.toNat).map (fun (i : Nat) => (i : Int))) r).2) := by
  have hdiv : Int.tdiv n 2 = n / 2 := Int.tdiv_eq_ediv h0 (by decide)
  unfold UniqueIndices
  rw [if_neg (not_lt.2 hl), hdiv, if_pos (by omega), if_neg (by omega)]
  simp only [if_neg (not_lt.2 h0)]

theorem UniqueIndices_shuffles_all_witness :
    UniqueIndices recordingFaker 10 2 [] =
      some ([0, 1], [.ShuffleInts [0, 1, 2, 3, 4, 5, 6, 7, 8, 9]]) ∧
    UniqueIndices recordingFaker 10 2 [] =
      some ((recordingFaker.ShuffleInts
          ((List.range (10 : Int).toNat).map (fun (i : Nat) => (i : Int))) []).1.take
          (2 : Int).toNat,
        (recordingFaker.ShuffleInts
          ((List.range (10 : Int).toNat).map (fun (i : Nat) => (i : Int))) []).2) :=
  ⟨by decide,
    UniqueIndices_shuffles_all recordingFaker 10 2 [] (by decide) (by decide) (by decide)⟩

/-! ## `SampleIntN` -/

theorem sampleLoop_succ_ne_values (distribution : DiscreteDistribution)
    (draws : Nat → Distributions.float32) (fuel count k : Nat) (res : List Int) (pos : Nat)
    (hlen : res.length ≤ count) (out : List Int) (p : Nat) :
    sampleLoop distribution draws fuel count (k + 1) res pos ≠ .values out p := by
  unfold sampleLoop
  cases distribution.FakeSampleInt draws pos fuel with
  | running => simp
  | panic q => simp
  | value v q =>
    have hassign : assign res count v = none := by
      unfold assign
      rw [if_neg (by omega)]
    simp [hassign]

/-- C36. For every distribution and every `count ≥ 1`, `SampleIntN(distribution, count)`
does not return a slice, for every stream and every fuel: the first assignment
`res[count] = ...` is out of range. -/
theorem SampleIntN_does_not_return (distribution : DiscreteDistribution) (count : Int)
    (draws : Nat → Distributions.float32) (pos fuel : Nat) (h : 1 ≤ count)
    (out : List Int) (p : Nat) :
    SampleIntN distribution count draws pos fuel ≠ .values out p := by
  unfold SampleIntN
  rw [if_neg (by omega)]
  obtain ⟨k, hk⟩ : ∃ k, count.toNat = k + 1 := ⟨count.toNat - 1, by omega⟩
  have hlen : (List.replicate count.toNat (0 : Int)).length ≤ count.toNat := by simp
  generalize List.replicate count.toNat (0 : Int) = res at hlen
  generalize count.toNat = c at hk hlen
  subst hk
  exact sampleLoop_succ_ne_values distribution draws fuel (k + 1) k res pos hlen out p

theorem SampleIntN_does_not_return_witness :
    SampleIntN (ConstInt 7) 3 Distributions.highThenLow 0 5 = .panic 0 ∧
    SampleIntN (ConstInt 7) 3 Distributions.highThenLow 0 5 ≠ .values [7, 7, 7] 0 :=
  ⟨by decide,
    SampleIntN_does_not_return (ConstInt 7) 3 Distributions.highThenLow 0 5 (by decide)
      [7, 7, 7] 0⟩

/-- With `count = 0` the loop of `SampleIntN` is not entered and the empty slice is
returned. -/
theorem SampleIntN_zero (distribution : DiscreteDistribution)
    (draws : Nat → Distributions.float32) (pos fuel : Nat) :
    SampleIntN distribution 0 draws pos fuel = .values [] pos := by
  simp [SampleIntN, sampleLoop]

/-! ## `copyFromFakerSourceConcat` -/

theorem nextLoop_fuel {V : Type} :
    ∀ (n fuel1 fuel2 : Nat) (cts : copyFromFakerSourceConcat V),
      (cts.len - cts.idx).toNat = n → n < fuel1 → n < fuel2 →
      copyFromFakerSourceConcat.nextLoop fuel1 cts =
        copyFromFakerSourceConcat.nextLoop fuel2 cts := by
  intro n
  induction n with
  | zero =>
    intro fuel1 fuel2 cts hn h1 h2
    cases fuel1 with
    | zero => omega
    | succ f1 =>
      cases fuel2 with
      | zero => omega
      | succ f2 =>
        have hnot : ¬ cts.idx < cts.len := by omega
        simp only [copyFromFakerSourceConcat.nextLoop, if_neg hnot]
  | succ n ih =>
    intro fuel1 fuel2 cts hn h1 h2
    cases fuel1 with
    | zero => omega
    | succ f1 =>
      cases fuel2 with
      | zero => omega
      | succ f2 =>
        simp only [copyFromFakerSourceConcat.nextLoop]
        split
        · split
          · rfl
          · split
            · rfl
            · apply ih
              · simp only
                omega
              · omega
              · omega
        · rfl

/-- More fuel than `Next` gives to its loop does not change the result. -/
theorem Next_fuel {V : Type} (cts : copyFromFakerSourceConcat V) (fuel : Nat)
    (h : (cts.len - cts.idx).toNat < fuel) :
    copyFromFakerSourceConcat.nextLoop fuel cts = cts.Next :=
  nextLoop_fuel _ _ _ cts rfl h (Nat.lt_succ_self _)

/-- C39. With two indices and a generator that fails without rows at index `0` and
returns one row at index `1`: the first `Next` returns true, `Values` returns the row
of index `1` with a nil error, the second `Next` returns false, and `Err()` is then
nil. -/
theorem Err_lost_after_later_success :
    (failsAtZero 0).2 = some "generator failed" ∧
    ((CopyFromSourceConcat 2 failsAtZero).Next).1 = true ∧
    ((CopyFromSourceConcat 2 failsAtZero).Next).2.Values = some ([1], none) ∧
    (((CopyFromSourceConcat 2 failsAtZero).Next).2.Next).1 = false ∧
    (((CopyFromSourceConcat 2 failsAtZero).Next).2.Next).2.Err = none := by
  refine ⟨by decide, by decide, by decide, by decide, by decide⟩

end Fake

namespace PsqlMigrate

/-- C40. For a target version `v` and a database at version `c ≠ v`, `RunUsing` calls
the runner with the current version `c`, not with the target: `MigrateToAction(v)`
calls `DownTo(c)` when `c < v` and `UpTo(c)` when `c > v`; `UpToAction(v)` calls
`UpTo(c)` when `c < v`; `DownToAction(v)` calls `DownTo(c)` when `c > v`. When only the
opposite direction is allowed an error is returned and no call is made. -/
theorem RunUsing_calls_with_current_version (c v : Int) (h : c ≠ v) :
    (MigrateToAction v).RunUsing (.inr c) = (if c < v then .DownTo c else .UpTo c) ∧
    (UpToAction v).RunUsing (.inr c) =
      (if c > v then .error (.couldNotMigrateUp c v) else .UpTo c) ∧
    (DownToAction v).RunUsing (.inr c) =
      (if c < v then .error (.couldNotMigrateDown c v) else .DownTo c) := by
  refine ⟨?_, ?_, ?_⟩
  · simp [migrateTo.RunUsing, MigrateToAction, h, ALLOW_BOTH, ALLOW_NONE, ALLOW_UP, ALLOW_DOWN]
  · simp [migrateTo.RunUsing, UpToAction, h, ALLOW_NONE, ALLOW_UP]
  · simp [migrateTo.RunUsing, DownToAction, h, ALLOW_NONE, ALLOW_UP, ALLOW_DOWN]

theorem RunUsing_calls_with_current_version_witness :
    (MigrateToAction 5).RunUsing (.inr 3) = .DownTo 3 ∧
    (UpToAction 5).RunUsing (.inr 3) = .UpTo 3 ∧
    (DownToAction 5).RunUsing (.inr 3) = .error (.couldNotMigrateDown 3 5) :=
  RunUsing_calls_with_current_version 3 5 (by decide)

end PsqlMigrate

namespace GoSort

/-! ## `insertionSort_func` on a whole slice -/

theorem get?_append_length {α : Type} (pre : List α) (y : α) (post : List α) :
    (pre ++ y :: post).get? pre.length = some y := by
  induction pre with
  | nil => rfl
  | cons p pre ih => simpa using ih

theorem get?_append_length_succ {α : Type} (pre : List α) (y x : α) (post : List α) :
    (pre ++ y :: x :: post).get? (pre.length + 1) = some x := by
  induction pre with
  | nil => rfl
  | cons p pre ih => simpa using ih

theorem Less_adjacent {α : Type} (less : α → α → Bool) (pre : List α) (y x : α)
    (post : List α) :
    Less less (pre ++ y :: x :: post) (pre.length + 1) pre.length = less x y := by
  simp only [Less, get?_append_length, get?_append_length_succ]

theorem Swap_adjacent {α : Type} (pre : List α) (y x : α) (post : List α) :
    Swap (pre ++ y :: x :: post) (pre.length + 1) pre.length = pre ++ x :: y :: post := by
  simp only [Swap, get?_append_length, get?_append_length_succ]
  induction pre with
  | nil => rfl
  | cons p pre ih =>
    simp only [List.cons_append, List.length_cons, List.set_cons_succ, List.cons.injEq, true_and]
    exact ih

theorem insertionSortInner_eq {α : Type} (less : α → α → Bool) (x : α) :
    ∀ (l post : List α),
      insertionSortInner less 0 l.length (l.reverse ++ x :: post) =
        (insRev less x l).reverse ++ post
  | [], post => rfl
  | y :: l, post => by
    have hdata : (y :: l).reverse ++ x :: post = l.reverse ++ y :: x :: post := by simp
    have hlen : l.reverse.length = l.length := List.length_reverse l
    rw [hdata, List.length_cons]
    unfold insertionSortInner
    have hless : Less less (l.reverse ++ y :: x :: post) (l.length + 1) l.length = less x y := by
      have := Less_adjacent less l.reverse y x post
      rwa [hlen] at this
    have hswap : Swap (l.reverse ++ y :: x :: post) (l.length + 1) l.length =
        l.reverse ++ x :: y :: post := by
      have := Swap_adjacent l.reverse y x post
      rwa [hlen] at this
    rw [hless, hswap]
    cases hxy : less x y with
    | true =>
      simp only [gt_iff_lt, Nat.zero_lt_succ, decide_True, Bool.and_self, if_true, insRev, hxy,
        List.reverse_cons, List.append_assoc, List.singleton_append]
      exact insertionSortInner_eq less x l (y :: post)
    | false =>
      simp [insRev, hxy]

theorem length_insRev {α : Type} (less : α → α → Bool) (x : α) :
    ∀ l : List α, (insRev less x l).length = l.length + 1
  | [] => rfl
  | y :: l => by
    unfold insRev
    split
    · simp [length_insRev less x l]
    · simp

theorem insertionSortOuter_eq {α : Type} (less : α → α → Bool) :
    ∀ (rest l : List α),
      insertionSortOuter less 0 rest.length l.length (l.reverse ++ rest) =
        (rest.foldl (fun acc x => insRev less x acc) l).reverse
  | [], l => by simp [insertionSortOuter]
  | x :: rest, l => by
    simp only [List.length_cons, insertionSortOuter, List.foldl_cons]
    rw [insertionSortInner_eq less x l rest]
    have := insertionSortOuter_eq less rest (insRev less x l)
    rwa [length_insRev] at this

/-- Insertion sort of a whole slice returns the reverse of the list built by inserting
its elements, first to last, into the empty list. -/
theorem insertionSort_func_eq {α : Type} (less : α → α → Bool) (data : List α) :
    insertionSort_func less data 0 data.length =
      (data.foldl (fun acc x => insRev less x acc) []).reverse := by
  cases data with
  | nil => rfl
  | cons d rest =>
    have := insertionSortOuter_eq less rest [d]
    simpa [insertionSort_func, insRev] using this

/-- A slice of at most 12 elements is sorted by insertion. -/
theorem Slice_eq_insertionSort {α : Type} (less : α → α → Bool) (x : List α)
    (h : x.length ≤ 12) :
    Slice less x = some (insertionSort_func less x 0 x.length) := by
  simp [Slice, pdqsort_func, h]

theorem perm_insRev {α : Type} (less : α → α → Bool) (x : α) :
    ∀ l : List α, List.Perm (insRev less x l) (x :: l)
  | [] => List.Perm.refl _
  | y :: l => by
    unfold insRev
    split
    · exact (List.Perm.cons y (perm_insRev less x l)).trans (List.Perm.swap x y l)
    · exact List.Perm.refl _

theorem perm_foldl_insRev {α : Type} (less : α → α → Bool) :
    ∀ (data l : List α),
      List.Perm (data.foldl (fun acc x => insRev less x acc) l) (data.reverse ++ l)
  | [], l => by simp
  | x :: data, l => by
    simp only [List.foldl_cons, List.reverse_cons, List.append_assoc, List.singleton_append]
    exact (perm_foldl_insRev less data (insRev less x l)).trans
      (List.Perm.append_left _ (perm_insRev less x l))

/-- An element passes only elements it is less than: a predicate that never holds of
both an element and one it is less than sees the element inserted at the head. -/
theorem filter_insRev {α : Type} (less : α → α → Bool) (p : α → Bool)
    (hp : ∀ x y, less x y = true → ¬ (p x = true ∧ p y = true)) (x : α) :
    ∀ l : List α, (insRev less x l).filter p = (x :: l).filter p
  | [] => rfl
  | y :: l => by
    unfold insRev
    cases hxy : less x y with
    | false => simp
    | true =>
      have := hp x y hxy
      simp only [if_true, List.filter_cons, filter_insRev less p hp x l]
      cases hpx : p x <;> cases hpy : p y <;> simp_all

theorem filter_foldl_insRev {α : Type} (less : α → α → Bool) (p : α → Bool)
    (hp : ∀ x y, less x y = true → ¬ (p x = true ∧ p y = true)) :
    ∀ (data l : List α),
      (data.foldl (fun acc x => insRev less x acc) l).filter p = (data.reverse ++ l).filter p
  | [], l => by simp
  | x :: data, l => by
    simp only [List.foldl_cons, List.reverse_cons, List.append_assoc, List.singleton_append]
    rw [filter_foldl_insRev less p hp data (insRev less x l), List.filter_append,
      List.filter_append, filter_insRev less p hp x l]

/-- The model of `sort.Slice` on a mixed slice of 21 numbers and on a reversed slice of
30 numbers: both come back in ascending order. -/
theorem Slice_examples :
    Slice (fun a b : Nat => decide (a < b))
      [5, 3, 9, 1, 14, 2, 8, 7, 6, 4, 11, 13, 12, 10, 0, 20, 19, 18, 17, 16, 15] =
        some (List.range 21) ∧
    Slice (fun a b : Nat => decide (a < b)) (List.range 30).reverse = some (List.range 30) := by
  refine ⟨by decide, by decide⟩

end GoSort

namespace PsqlSeed

/-! ## `Repository.Sort` and the registration order of equal names -/

theorem sorted_insRev {W : Type} (x : Seeder W) :
    ∀ l : List (Seeder W), List.Pairwise (fun a b : Seeder W => b.Name ≤ a.Name) l →
      List.Pairwise (fun a b : Seeder W => b.Name ≤ a.Name)
        (GoSort.insRev (fun a b => decide (a.Name < b.Name)) x l)
  | [], _ => by simp [GoSort.insRev]
  | y :: l, h => by
    rw [List.pairwise_cons] at h
    unfold GoSort.insRev
    by_cases hxy : x.Name < y.Name
    · simp only [hxy, decide_True, if_true]
      refine List.pairwise_cons.2 ⟨?_, sorted_insRev x l h.2⟩
      intro z hz
      have hz2 := (GoSort.perm_insRev (fun a b : Seeder W => decide (a.Name < b.Name)) x l).subset hz
      rcases List.mem_cons.1 hz2 with e | e
      · subst e; exact le_of_lt hxy
      · exact h.1 z e
    · simp only [hxy, decide_False, Bool.false_eq_true, if_false]
      refine List.pairwise_cons.2 ⟨?_, List.pairwise_cons.2 h⟩
      intro z hz
      rcases List.mem_cons.1 hz with e | e
      · subst e; exact not_lt.1 hxy
      · exact le_trans (h.1 z e) (not_lt.1 hxy)

theorem sorted_foldl_insRev {W : Type} :
    ∀ (data l : List (Seeder W)), List.Pairwise (fun a b : Seeder W => b.Name ≤ a.Name) l →
      List.Pairwise (fun a b : Seeder W => b.Name ≤ a.Name)
        (data.foldl (fun acc x => GoSort.insRev (fun a b => decide (a.Name < b.Name)) x acc) l)
  | [], _, h => h
  | x :: data, l, h => by
    simp only [List.foldl_cons]
    exact sorted_foldl_insRev data _ (sorted_insRev x l h)

/-- C21 (counterexample). Thirteen units registered as twelve units named `b` followed
by one unit named `a` come back from the sort of `Seeders()` as `a`, then the units
named `b` in the order 7, 3, 4, 5, 6, 1, 8, 9, 10, 11, 12, 2 of their registration:
the unit registered seventh precedes the unit registered first. -/
theorem Sort_reorders_equal_names :
    thirteenSeeders.map (fun s => (s.Name == nm "b", s.Prepare 0 0)) =
      [(true, 1), (true, 2), (true, 3), (true, 4), (true, 5), (true, 6), (true, 7),
       (true, 8), (true, 9), (true, 10), (true, 11), (true, 12), (false, 13)] ∧
    (Repository.Sort thirteenSeeders).map (List.map (fun s => s.Prepare 0 0)) =
      some [13, 7, 3, 4, 5, 6, 1, 8, 9, 10, 11, 12, 2] := by
  refine ⟨by decide, by decide⟩

/-- C21 (amended). On a registry of at most 12 units the sort of `Seeders()` returns a
permutation of the units in ascending order of their names, in which the units of
every name come in the order of their registration. -/
theorem Sort_stable_up_to_twelve {W : Type} (seeders : List (Seeder W))
    (h : seeders.length ≤ 12) :
    ∃ res, Repository.Sort seeders = some res ∧ List.Perm res seeders ∧
      List.Pairwise (fun a b : Seeder W => a.Name ≤ b.Name) res ∧
      ∀ n : Name, res.filter (fun s => s.Name == n) = seeders.filter (fun s => s.Name == n) := by
  refine ⟨_, by
    unfold Repository.Sort
    rw [GoSort.Slice_eq_insertionSort _ _ h, GoSort.insertionSort_func_eq], ?_, ?_, ?_⟩
  · have := GoSort.perm_foldl_insRev (fun a b : Seeder W => decide (a.Name < b.Name)) seeders []
    rw [List.append_nil] at this
    exact (List.reverse_perm _).trans (this.trans (List.reverse_perm _))
  · rw [List.pairwise_reverse]
    exact sorted_foldl_insRev seeders [] List.Pairwise.nil
  · intro n
    have := GoSort.filter_foldl_insRev (fun a b : Seeder W => decide (a.Name < b.Name))
      (fun s => s.Name == n)
      (by
        intro x y hxy hp
        simp only [decide_eq_true_eq] at hxy
        simp only [beq_iff_eq] at hp
        rw [hp.1, hp.2] at hxy
        exact lt_irrefl _ hxy)
      seeders []
    rw [List.append_nil, List.filter_reverse] at this
    rw [List.filter_reverse, this, List.reverse_reverse]

theorem Sort_stable_up_to_twelve_witness :
    twelveSeeders.length ≤ 12 ∧
    (Repository.Sort twelveSeeders).map (List.map (fun s => s.Prepare 0 0)) =
      some [2, 4, 6, 8, 10, 12, 1, 3, 5, 7, 9, 11] ∧
    ∃ res, Repository.Sort twelveSeeders = some res ∧ List.Perm res twelveSeeders ∧
      List.Pairwise (fun a b : Seeder Nat => a.Name ≤ b.Name) res ∧
      ∀ n : Name, res.filter (fun s => s.Name == n) =
        twelveSeeders.filter (fun s => s.Name == n) :=
  ⟨by decide, by decide, Sort_stable_up_to_twelve twelveSeeders (by decide)⟩

end PsqlSeed
